import Mathlib

/-!
# soksol: a BFS Sokoban solver

A shallow embedding of `soksol.c` and theorems about it.

Modelling conventions.

* `unsigned char field[NMAX][NMAX]` is a function `Nat → Nat → Nat`, `field i j` being
  `field[i][j]`.  Only indices below `NMAX` exist in the C array; theorems that depend on an
  access staying inside the array carry that as a hypothesis.
* `unsigned char` and `unsigned int` arithmetic is arithmetic on `Nat` with an explicit
  `% 256` or `% 2 ^ 32` wherever a result is truncated.
* A byte buffer filled through `buffer[idx++] = value` is the list of the bytes stored, so that
  `idx` is the length of the list.
* `data->queue` is the list of the `queuesize` entries stored so far, `queuesize` is its length,
  and memory is unbounded (`realloc` never fails, `queuesize` never wraps).
* A hash chain `data->H[h]` is the list of the `queueidx` values of its nodes, head first.
* Standard output is the list `stdout` of the lines printed, kept inside `taskdata`.
* Loops that the type system cannot see terminate take a fuel argument and return `none`
  when it runs out.
-/

namespace Soksol

/-! ## Constants -/

def NMAX : Nat := 16

def WALL : Nat := 1
def BOX : Nat := 2
def DEST : Nat := 4
def CURR : Nat := 8

def START : Nat := 0
def LEFT : Nat := 1
def RIGHT : Nat := 2
def UP : Nat := 3
def DOWN : Nat := 4

def HASHSIZE : Nat := 313507

/-- The name of a direction code, as `direction` returns it. -/
def direction (dir : Nat) : String :=
  if dir = START then "start"
  else if dir = LEFT then "left"
  else if dir = RIGHT then "right"
  else if dir = UP then "up"
  else if dir = DOWN then "down"
  else "????"

/-! ## Data -/

/-- The board array: `field i j` is `field[i][j]` (row `i`, column `j`). -/
abbrev Field := Nat → Nat → Nat

/-- The assignment `field[i][j] = v`. -/
def Field.set (field : Field) (i j v : Nat) : Field :=
  fun a b => if a = i ∧ b = j then v else field a b

structure queueitem where
  position : List Nat
  curr : Nat
  prev : Nat
  direction : Nat
deriving DecidableEq, Inhabited

/-- One line (or block) of standard output. -/
inductive Event where
  /-- The progress line "queue size: n, still working...". -/
  | queue_size (n : Nat)
  /-- The line "Solution found! n steps.". -/
  | solution_found (n : Nat)
  /-- The header "======== Step i ======== label" followed by the board that
  `print_position` draws, given as the cells it reads, row by row. -/
  | step (i : Nat) (label : String) (cells : List (List Nat))
  /-- The line "Solved!". -/
  | solved
  /-- The line "No solution.". -/
  | no_solution
  /-- The line "final queue size: n". -/
  | final_queue_size (n : Nat)
  /-- The line "Start: (x, y)". -/
  | start (x y : Nat)
  /-- The line "Initial position:" followed by the board. -/
  | initial_position (cells : List (List Nat))
deriving DecidableEq

structure taskdata where
  queue : List queueitem
  queuecurr : Nat
  M : Nat
  N : Nat
  xstart : Nat
  ystart : Nat
  solved : Nat
  codelength : Nat
  H : Nat → List Nat
  stdout : List Event

/-- The number of entries stored in the queue. -/
def taskdata.queuesize (data : taskdata) : Nat := data.queue.length

/-- The context after `memset(&sdata, 0, sizeof(sdata))` once `input` has stored the header
and the start cell. -/
def taskdata.init (M N xstart ystart : Nat) : taskdata :=
  { queue := [], queuecurr := 0, M := M, N := N, xstart := xstart, ystart := ystart,
    solved := 0, codelength := 0, H := fun _ => [], stdout := [] }

/-! ## Hashing -/

def hashcode (item : queueitem) (data : taskdata) : Nat :=
  ((List.range data.codelength).foldl
    (fun result i => (result * 31 + item.position.getD i 0) % 2 ^ 32) item.curr) % HASHSIZE

/-! ## Goal test and cell test -/

/-- The goal test.  It returns 0 as soon as a cell `field[j][i]`, `1 ≤ i ≤ M`, `1 ≤ j ≤ N`,
has `DEST` without `BOX`, and 1 when there is none. -/
def check_solved (field : Field) (data : taskdata) : Nat :=
  if (List.range' 1 data.M).any (fun i => (List.range' 1 data.N).any (fun j =>
      decide (field j i &&& DEST ≠ 0 ∧ field j i &&& BOX = 0)))
  then 0 else 1

def empty (c : Nat) : Nat :=
  if c &&& WALL ≠ 0 ∨ c &&& BOX ≠ 0 then 0 else 1

/-- The cells `print_position` reads: rows `1..M`, columns `1..N` of `field[i][j]`. -/
def print_position (field : Field) (data : taskdata) : List (List Nat) :=
  (List.range' 1 data.M).map (fun i => (List.range' 1 data.N).map (fun j => field i j))

/-! ## State codec -/

/-- The locals of `encode_position`; `idx` is the length of `buffer`. -/
structure EncState where
  buffer : List Nat
  half : Nat
  value : Nat

/-- The body of the inner loop of `encode_position` for a cell holding `c`. -/
def encode_cell (s : EncState) (c : Nat) : EncState :=
  if s.half = 0 then
    { s with value := (s.value ||| c) % 256, half := 1 }
  else
    { buffer := s.buffer ++ [(s.value ||| (c <<< 4)) % 256], half := 0, value := 0 }

def encode_position (field : Field) (data : taskdata) : List Nat :=
  let s := (List.range' 1 data.M).foldl (fun s i =>
    (List.range' 1 data.N).foldl (fun s j => encode_cell s (field i j)) s)
    { buffer := [], half := 0, value := 0 }
  if s.half = 1 then s.buffer ++ [s.value] else s.buffer

/-- The locals of `decode_position` together with the array it writes. -/
structure DecState where
  field : Field
  half : Nat
  value : Nat
  idx : Nat

/-- The body of the inner loop of `decode_position` at cell `(i, j)`. -/
def decode_cell (buffer : List Nat) (s : DecState) (i j : Nat) : DecState :=
  if s.half = 0 then
    let value := buffer.getD s.idx 0
    { field := s.field.set i j (value &&& 0x0f), half := 1, value := value, idx := s.idx + 1 }
  else
    { s with field := s.field.set i j (s.value >>> 4), half := 0 }

def decode_position (buffer : List Nat) (field : Field) (data : taskdata) : Field :=
  ((List.range' 1 data.M).foldl (fun s i =>
    (List.range' 1 data.N).foldl (fun s j => decode_cell buffer s i j) s)
    { field := field, half := 0, value := 0, idx := 0 }).field

def encode_curr (x y : Nat) : Nat := ((x <<< 4) ||| y) % 256

def decode_curr (curr : Nat) : Nat × Nat := (curr >>> 4, curr &&& 0x0f)

/-- The result of `memcmp` over `codelength` bytes, as zero or non-zero. -/
def differ (buffer1 buffer2 : List Nat) (data : taskdata) : Nat :=
  if buffer1.take data.codelength = buffer2.take data.codelength then 0 else 1

/-! ## Frontier store and visited set -/

/-- The chain scan of `enqueue_if_unique`: whether some node of the chain refers to a queue
entry with the same `curr` and the same position bytes as `item`. -/
def enqueue_scan (item : queueitem) (data : taskdata) : List Nat → Bool
  | [] => false
  | queueidx :: next =>
    if (data.queue.getD queueidx default).curr ≠ item.curr then
      enqueue_scan item data next
    else if differ (data.queue.getD queueidx default).position item.position data ≠ 0 then
      enqueue_scan item data next
    else
      true

def enqueue_if_unique (item : queueitem) (data : taskdata) : taskdata :=
  let hcode := hashcode item data
  if enqueue_scan item data (data.H hcode) then
    data
  else
    { data with
      queue := data.queue ++ [item]
      H := fun h => if h = hcode then data.queuesize :: data.H hcode else data.H h
      stdout := if data.queuesize % 100000 = 0
        then data.stdout ++ [Event.queue_size data.queuesize] else data.stdout }

/-- The index and entry at the cursor, and the context with the cursor advanced.  Reading
past the stored entries gives `none`. -/
def dequeue (data : taskdata) : Option (queueitem × Nat × taskdata) :=
  match data.queue.get? data.queuecurr with
  | none => none
  | some item => some (item, data.queuecurr, { data with queuecurr := data.queuecurr + 1 })

def queue_empty (data : taskdata) : Nat :=
  if data.queuecurr = data.queuesize then 1 else 0

def queue_free (data : taskdata) : taskdata :=
  { data with stdout := data.stdout ++ [Event.final_queue_size data.queuesize] }

/-! ## Path reconstruction -/

/-- The do-while loop of `show_solution`, which stores `prev` into `indices` and follows the
predecessor link until an entry is its own predecessor.  `indices` has room for `queuesize`
elements: the fuel is the room left, and the walk is `none` when it would write past it or
read a queue entry that does not exist. -/
def show_solution_walk (data : taskdata) : Nat → Nat → List Nat → Option (List Nat)
  | 0, _, _ => none
  | room + 1, prev, indices =>
    match data.queue.get? prev with
    | none => none
    | some item =>
      if item.prev ≠ prev then show_solution_walk data room item.prev (indices ++ [prev])
      else some (indices ++ [prev])

/-- The lines printed for the stored entries, last index of `indices` first.  `tmpfield` is an
uninitialised local; `print_position` only reads cells that `decode_position` has written. -/
def show_solution_steps (data : taskdata) (indices : List Nat) : List Event :=
  (indices.reverse.enum).map (fun p =>
    Event.step p.1 (direction (data.queue.getD p.2 default).direction)
      (print_position (decode_position (data.queue.getD p.2 default).position
        (fun _ _ => 0) data) data))

def show_solution (field : Field) (prev dir : Nat) (data : taskdata) : Option taskdata :=
  match show_solution_walk data data.queuesize prev [] with
  | none => none
  | some indices =>
    some { data with
      stdout := data.stdout ++ [Event.solution_found indices.length]
        ++ show_solution_steps data indices
        ++ [Event.step indices.length (direction dir) (print_position field data),
            Event.solved]
      solved := 1 }

/-! ## Successor generation -/

/-- Conversion of an `int` to `char` (taken as signed; `beyond` below is the same for an
unsigned `char`). -/
def to_char (v : Int) : Int := (v + 128) % 256 - 128

/-- Conversion of an `int` to `unsigned char`. -/
def to_uchar (v : Int) : Nat := (v % 256).toNat

/-- The coordinate `x + dx + dx` with `dx = nx - x`, as `process_coords` computes `nextx` and
`nexty`. -/
def beyond (x nx : Nat) : Nat :=
  let dx := to_char ((nx : Int) - (x : Int))
  to_uchar ((x : Int) + dx + dx)

/-- The board after the player steps from `(x, y)` to `(nx, ny)`.  On a byte, `&= ~CURR`
clears the bit of `CURR` and leaves the other seven: it is `&&& (0xff - CURR)`. -/
def move_field (field : Field) (x y nx ny : Nat) : Field :=
  let tmpfield := field
  let tmpfield := tmpfield.set y x (tmpfield y x &&& (0xff - CURR))
  let tmpfield := tmpfield.set ny nx (tmpfield ny nx ||| CURR)
  tmpfield

/-- The board after the player steps from `(x, y)` to `(nx, ny)` and pushes the box there to
`(nextx, nexty)`. -/
def push_field (field : Field) (x y nx ny nextx nexty : Nat) : Field :=
  let tmpfield := field
  let tmpfield := tmpfield.set y x (tmpfield y x &&& (0xff - CURR))
  let tmpfield := tmpfield.set ny nx (tmpfield ny nx ||| CURR)
  let tmpfield := tmpfield.set ny nx (tmpfield ny nx &&& (0xff - BOX))
  let tmpfield := tmpfield.set nexty nextx (tmpfield nexty nextx ||| BOX)
  tmpfield

/-- What both branches of `process_coords` do with the candidate board: hand it to
`show_solution` when it passes the goal test, and submit it to the queue otherwise. -/
def process_candidate (tmpfield : Field) (nx ny prev direction : Nat) (data : taskdata) :
    Option taskdata :=
  if check_solved tmpfield data ≠ 0 then
    show_solution tmpfield prev direction data
  else
    some (enqueue_if_unique
      { position := encode_position tmpfield data, curr := encode_curr nx ny,
        prev := prev, direction := direction } data)

def process_coords (field : Field) (x y nx ny prev direction : Nat) (data : taskdata) :
    Option taskdata :=
  if data.solved ≠ 0 then
    some data
  else if empty (field ny nx) ≠ 0 then
    process_candidate (move_field field x y nx ny) nx ny prev direction data
  else if field ny nx &&& BOX ≠ 0 then
    let nextx := beyond x nx
    let nexty := beyond y ny
    if empty (field nexty nextx) ≠ 0 then
      process_candidate (push_field field x y nx ny nextx nexty) nx ny prev direction data
    else
      some data
  else
    some data

/-! ## Search driver -/

/-- One iteration of the loop of `solve`.  The arguments `y - 1` and `x - 1` are passed
under the guards `y > 1` and `x > 1`, where they do not wrap; `y + 1` and `x + 1` are
truncated to a byte. -/
def solve_body (field : Field) (data : taskdata) : Option (Field × taskdata) :=
  match dequeue data with
  | none => none
  | some (item, queueidx, data) =>
    let field := decode_position item.position field data
    let x := (decode_curr item.curr).1
    let y := (decode_curr item.curr).2
    (if y > 1 then process_coords field x y x (y - 1) queueidx UP data else some data).bind
    fun data =>
    (if y < data.M then process_coords field x y x ((y + 1) % 256) queueidx DOWN data
      else some data).bind
    fun data =>
    (if x > 1 then process_coords field x y (x - 1) y queueidx LEFT data else some data).bind
    fun data =>
    (if x < data.N then process_coords field x y ((x + 1) % 256) y queueidx RIGHT data
      else some data).bind
    fun data => some (field, data)

/-- The condition of the loop of `solve`. -/
def solve_cond (data : taskdata) : Bool :=
  queue_empty data = 0 ∧ data.solved = 0

/-- The loop of `solve`, at most `fuel` iterations. -/
def solve_loop : Nat → Field → taskdata → Option (Field × taskdata)
  | 0, field, data => if solve_cond data then none else some (field, data)
  | fuel + 1, field, data =>
    if solve_cond data then
      (solve_body field data).bind fun s => solve_loop fuel s.1 s.2
    else some (field, data)

/-- The context with which `solve` enters its loop. -/
def solve_init (field : Field) (data : taskdata) : taskdata :=
  let data := { data with
    codelength := ((data.N * data.M % 2 ^ 32) / 2 + (data.N * data.M % 2 ^ 32) % 2) % 2 ^ 32 }
  enqueue_if_unique
    { position := encode_position field data,
      curr := encode_curr (data.xstart % 256) (data.ystart % 256),
      prev := 0, direction := START } data

/-- The context when `solve` returns (before the queue and the table are freed), or `none`
when the loop has not ended within `fuel` iterations. -/
def solve (fuel : Nat) (field : Field) (data : taskdata) : Option taskdata :=
  match solve_loop fuel field (solve_init field data) with
  | none => none
  | some s =>
    let data := s.2
    let data := if data.solved = 0
      then { data with stdout := data.stdout ++ [Event.no_solution] } else data
    some (queue_free data)

/-! ## Reading the puzzle -/

/-- The `isspace` of the C locale. -/
def isspace (c : Char) : Bool :=
  c.toNat = 32 ∨ (9 ≤ c.toNat ∧ c.toNat ≤ 13)

/-- The locals of `input`, the array and context it fills, and the unread part `f` of the
file after the header. -/
structure InputState where
  field : Field
  data : taskdata
  boxcount : Nat
  destcount : Nat
  f : List Char

/-- The body of the inner loop of `input` at cell `(i, j)`.  An error is the message printed
before `exit(1)`. -/
def input_cell (s : InputState) (i j : Nat) : Except String InputState :=
  match s.f.dropWhile isspace with
  | [] => Except.error "Incomplete input"
  | c :: f =>
    if c = 'x' then
      Except.ok { s with field := s.field.set i j BOX, boxcount := s.boxcount + 1, f := f }
    else if c = 'X' then
      Except.ok { s with field := s.field.set i j (BOX ||| DEST), boxcount := s.boxcount + 1,
                         destcount := s.destcount + 1, f := f }
    else if c = 's' then
      if s.data.xstart ≠ NMAX then Except.error "Multiple start points defined"
      else Except.ok { s with field := s.field.set i j CURR,
                              data := { s.data with xstart := j, ystart := i }, f := f }
    else if c = 'S' then
      if s.data.xstart ≠ NMAX then Except.error "Multiple start points defined"
      else Except.ok { s with field := s.field.set i j (CURR ||| DEST),
                              data := { s.data with xstart := j, ystart := i },
                              destcount := s.destcount + 1, f := f }
    else if c = 'o' then
      Except.ok { s with field := s.field.set i j DEST, destcount := s.destcount + 1, f := f }
    else if c = '#' then
      Except.ok { s with field := s.field.set i j WALL, f := f }
    else if c = '.' then
      Except.ok { s with field := s.field.set i j 0, f := f }
    else
      Except.error ("Unknown character " ++ String.singleton c)

/-- The function `input` on a file whose header gave `M` and `N` and whose remaining
characters are `f`.  The array starts with `WALL` in all its `NMAX * NMAX` cells. -/
def input (M N : Nat) (f : List Char) : Except String (Field × taskdata) :=
  let field : Field := fun i j => if i < NMAX ∧ j < NMAX then WALL else 0
  let data := taskdata.init M N NMAX NMAX
  match (List.range' 1 M).foldlM (fun s i =>
      (List.range' 1 N).foldlM (fun s j => input_cell s i j) s)
      { field := field, data := data, boxcount := 0, destcount := 0, f := f } with
  | Except.error e => Except.error e
  | Except.ok s =>
    if s.boxcount ≠ s.destcount then
      Except.error "Number of boxes is not equal to number of destinations"
    else if s.data.xstart = NMAX then
      Except.error "Start point is not defined"
    else
      Except.ok (s.field, { s.data with stdout := s.data.stdout ++
        [Event.start s.data.xstart s.data.ystart,
         Event.initial_position (print_position s.field s.data)] })

/-- The program: `input`, then `solve` with at most `fuel` iterations of its loop. -/
def main (fuel M N : Nat) (f : List Char) : Except String (Option taskdata) :=
  match input M N f with
  | Except.error e => Except.error e
  | Except.ok s => Except.ok (solve fuel s.1 s.2)

/-! ## Auxiliary definitions for the proofs -/

/-- The cells `(i, j)` that the nested loops `i = 1..M`, `j = 1..N` visit, in order. -/
def cells (M N : Nat) : List (Nat × Nat) :=
  (List.range' 1 M).flatMap fun i => (List.range' 1 N).map fun j => (i, j)

/-- The bytes that `encode_position` produces from the cell values in loop order. -/
def pack : List Nat → List Nat
  | [] => []
  | [a] => [(0 ||| a) % 256]
  | a :: b :: r => (((0 ||| a) % 256) ||| (b <<< 4)) % 256 :: pack r

/-- The `k`-th half byte of a buffer: low half of byte `k / 2` for even `k`, high half for
odd `k`. -/
def nibble (buffer : List Nat) (k : Nat) : Nat :=
  if k % 2 = 0 then buffer.getD (k / 2) 0 &&& 0x0f else buffer.getD (k / 2) 0 >>> 4

/-- The last step of `encode_position`: the pending half-filled byte is stored. -/
def EncState.finish (s : EncState) : List Nat :=
  if s.half = 1 then s.buffer ++ [s.value] else s.buffer

/-- The locals of `decode_position` agree with `c` half bytes having been read. -/
def DecState.Consistent (buffer : List Nat) (s : DecState) (c : Nat) : Prop :=
  (s.half = 0 ∧ s.idx * 2 = c) ∨
  (s.half = 1 ∧ s.idx * 2 = c + 1 ∧ s.value = buffer.getD (c / 2) 0)

/-- The key of an item: its `curr` byte and its first `codelength` position bytes. -/
def key (data : taskdata) (item : queueitem) : Nat × List Nat :=
  (item.curr, item.position.take data.codelength)

/-- The context after `enqueue_if_unique` has been called on each item of the list in turn. -/
def enqueue_all (items : List queueitem) (data : taskdata) : taskdata :=
  items.foldl (fun d item => enqueue_if_unique item d) data

/-- Every stored entry is referenced from the chain of its own bucket. -/
def Chained (data : taskdata) : Prop :=
  ∀ i, i < data.queue.length → i ∈ data.H (hashcode (data.queue.getD i default) data)

/-- The keys of the stored entries are pairwise distinct. -/
def DistinctKeys (data : taskdata) : Prop :=
  (data.queue.map (key data)).Nodup

/-- The candidate board `tmpfield` that `process_coords` builds for the target cell
`(nx, ny)`: the move when the target is empty, the push when it holds a box and the cell
beyond is empty, and none otherwise. -/
def candidate (field : Field) (x y nx ny : Nat) : Option Field :=
  if empty (field ny nx) ≠ 0 then
    some (move_field field x y nx ny)
  else if field ny nx &&& BOX ≠ 0 then
    if empty (field (beyond y ny) (beyond x nx)) ≠ 0 then
      some (push_field field x y nx ny (beyond x nx) (beyond y ny))
    else none
  else none

/-- The queue entry that `process_coords` submits for a candidate board. -/
def candidate_item (tmpfield : Field) (nx ny prev direction : Nat) (data : taskdata) :
    queueitem :=
  { position := encode_position tmpfield data, curr := encode_curr nx ny,
    prev := prev, direction := direction }

/-- The state of the loop of `solve` after exactly `k` iterations, if it runs that long. -/
def solve_iter : Nat → Field → taskdata → Option (Field × taskdata)
  | 0, field, data => some (field, data)
  | k + 1, field, data =>
    (solve_iter k field data).bind fun s =>
      if solve_cond s.2 then solve_body s.1 s.2 else none

/-- Cell `(i, j)` lies in rows `1..M`, columns `1..N`. -/
def inside (M N i j : Nat) : Prop := (1 ≤ i ∧ i ≤ M) ∧ (1 ≤ j ∧ j ≤ N)

instance (M N i j : Nat) : Decidable (inside M N i j) := by
  unfold inside
  infer_instance

/-- The number of cells of a region that carry the `BOX` flag. -/
def boxcount (region : List (Nat × Nat)) (b : Field) : Nat :=
  region.countP fun p => decide (b p.1 p.2 &&& BOX ≠ 0)

/-- A context in which `solve` has not started: nothing is stored in the queue or in the
hash table, the cursor is at 0 and `solved` is 0, as `memset` in `main` leaves them. -/
structure Fresh (data : taskdata) : Prop where
  hqueue : data.queue = []
  hH : ∀ h, data.H h = []
  hcurr : data.queuecurr = 0
  hsolved : data.solved = 0

/-- A puzzle as `input` hands it to `solve`: a fresh context, sizes between 1 and 14, the
start cell on the board, `WALL` on every cell of the array outside the board, and cell
values below 16 on it. -/
structure ValidPuzzle (field : Field) (data : taskdata) : Prop where
  fresh : Fresh data
  hM : 1 ≤ data.M ∧ data.M ≤ 14
  hN : 1 ≤ data.N ∧ data.N ≤ 14
  hx : 1 ≤ data.xstart ∧ data.xstart ≤ data.N
  hy : 1 ≤ data.ystart ∧ data.ystart ≤ data.M
  hwall : ∀ i < NMAX, ∀ j < NMAX, ¬ inside data.M data.N i j → field i j &&& WALL ≠ 0
  hcell : ∀ i j, inside data.M data.N i j → field i j < 16

/-- The array that `input` fills from a file, or an array of zeros when it rejects the
file. -/
def input_field (M N : Nat) (f : List Char) : Field :=
  match input M N f with
  | Except.ok s => s.1
  | Except.error _ => fun _ _ => 0

/-- The context that `input` fills from a file, or the zeroed context when it rejects the
file. -/
def input_data (M N : Nat) (f : List Char) : taskdata :=
  match input M N f with
  | Except.ok s => s.2
  | Except.error _ => taskdata.init 0 0 0 0

/-- What `input` maintains while it reads the cells of an `M` x `N` board: cell values
below 16, `WALL` on the cells of the array outside the board, a start cell that is either
still unset or on the board, and a context that is otherwise as `main` zeroed it. -/
structure InputInv (M N : Nat) (s : InputState) : Prop where
  hlt : ∀ i j, s.field i j < 16
  hwall : ∀ i < NMAX, ∀ j < NMAX, ¬ inside M N i j → s.field i j = WALL
  hstart : s.data.xstart = NMAX ∨ inside M N s.data.ystart s.data.xstart
  hM : s.data.M = M
  hN : s.data.N = N
  fresh : Fresh s.data
  hout : s.data.stdout = []

/-- The calls `process_coords(field, x, y, nx, ny, queueidx, dir, data)` that one iteration
of `solve` makes for a player at `(x, y)`, in program order: for each its guard, `nx`, `ny`
and `dir`. -/
def solve_calls (x y M N : Nat) : List (Bool × Nat × Nat × Nat) :=
  [(decide (y > 1), x, y - 1, UP),
   (decide (y < M), x, (y + 1) % 256, DOWN),
   (decide (x > 1), x - 1, y, LEFT),
   (decide (x < N), (x + 1) % 256, y, RIGHT)]

/-- A list of guarded calls of `process_coords` made one after the other. -/
def run_calls (field : Field) (x y queueidx : Nat) :
    List (Bool × Nat × Nat × Nat) → taskdata → Option taskdata
  | [], data => some data
  | c :: cs, data =>
    (if c.1 then process_coords field x y c.2.1 c.2.2.1 queueidx c.2.2.2 data
      else some data).bind (run_calls field x y queueidx cs)

/-- The direction label, player byte and predecessor of a queue entry. -/
def queueitem.label (e : queueitem) : Nat × Nat × Nat := (e.direction, e.curr, e.prev)

/-- The label of the entry that a call of `process_coords` made while expanding entry
`queueidx` would store. -/
def call_label (queueidx : Nat) (c : Bool × Nat × Nat × Nat) : Nat × Nat × Nat :=
  (c.2.2.2, encode_curr c.2.1 c.2.2.1, queueidx)

/-- The call `c`, made for a player at `(x, y)` on `field`, is made (its guard holds), builds
the candidate board `tmpfield`, and this board passes the goal test. -/
def yields_solved (field : Field) (x y : Nat) (data : taskdata) (c : Bool × Nat × Nat × Nat)
    (tmpfield : Field) : Prop :=
  c.1 = true ∧ candidate field x y c.2.1 c.2.2.1 = some tmpfield ∧
    check_solved tmpfield data ≠ 0

/-- The 2 x 2 puzzle with the player in the top left corner and nothing else (the file
`2 2` / `s .` / `. .`), as `input` leaves it in the array. -/
def open_field : Field := input_field 2 2 ['s', '.', '.', '.']

/-- The context with which `solve` enters its loop on `open_field`. -/
def open_data : taskdata := solve_init open_field (input_data 2 2 ['s', '.', '.', '.'])

/-- A board has, on rows `1..M`, columns `1..N`, cell values below 16, the walls and goals
of the initial board `field0`, and as many boxes as `field0`. -/
def GoodBoard (M N : Nat) (field0 b : Field) : Prop :=
  (∀ i j, inside M N i j → b i j < 16 ∧ b i j &&& WALL = field0 i j &&& WALL ∧
    b i j &&& DEST = field0 i j &&& DEST) ∧
  boxcount (cells M N) b = boxcount (cells M N) field0

/-- The player cell stored in a queue entry lies on the board. -/
def PlayerInside (M N : Nat) (e : queueitem) : Prop :=
  inside M N (decode_curr e.curr).2 (decode_curr e.curr).1

/-- A queue entry stores a good board and a player cell on the board. -/
def GoodEntry (M N : Nat) (field0 : Field) (e : queueitem) : Prop :=
  GoodBoard M N field0 (decode_position e.position field0 (taskdata.init M N 0 0)) ∧
  PlayerInside M N e

/-- An invariant of the loop of `solve` on a puzzle of size `M` x `N` with initial board
`field0`: the sizes are unchanged, the array still holds `field0` outside the board, and
every queue entry has the property `P`. -/
structure LoopInv (M N : Nat) (field0 : Field) (P : queueitem → Prop)
    (s : Field × taskdata) : Prop where
  hM : s.2.M = M
  hN : s.2.N = N
  hout : ∀ i j, ¬ inside M N i j → s.1 i j = field0 i j
  hq : ∀ e ∈ s.2.queue, P e

/-- The property `P` of queue entries passes from an expanded entry to the entries that
the calls of its expansion submit. -/
def Inherited (M N : Nat) (field0 : Field) (P : queueitem → Prop) : Prop :=
  ∀ (item : queueitem) (queueidx : Nat) (d : taskdata) (c : Bool × Nat × Nat × Nat)
    (tmpfield : Field), P item → d.M = M → d.N = N →
    c ∈ solve_calls (decode_curr item.curr).1 (decode_curr item.curr).2 M N → c.1 = true →
    candidate (decode_position item.position field0 d) (decode_curr item.curr).1
      (decode_curr item.curr).2 c.2.1 c.2.2.1 = some tmpfield →
    P (candidate_item tmpfield c.2.1 c.2.2.1 queueidx c.2.2.2 d)

/-- The 1 x 3 puzzle `s x o` (player, box, goal), as `input` leaves it in the array. -/
def row_field : Field := input_field 1 3 ['s', 'x', 'o']

/-- The context with which `solve` enters its loop on `row_field`. -/
def row_data : taskdata := solve_init row_field (input_data 1 3 ['s', 'x', 'o'])

/-- The 2 x 2 puzzle `s x` / `. o` (player and box in the top row, goal in the bottom right
corner), as `input` leaves it in the array. -/
def corner_field : Field := input_field 2 2 ['s', 'x', '.', 'o']

/-- The context that `input` fills for `corner_field`. -/
def corner_data : taskdata := input_data 2 2 ['s', 'x', '.', 'o']

/-- The characters that stand for a cell with a box: `x` and `X`. -/
def is_box (c : Char) : Bool := c = 'x' ∨ c = 'X'

/-- The characters that stand for a goal cell: `o`, `X` and `S`. -/
def is_goal (c : Char) : Bool := c = 'o' ∨ c = 'X' ∨ c = 'S'

/-- The characters that stand for the start cell: `s` and `S`. -/
def is_start (c : Char) : Bool := c = 's' ∨ c = 'S'

/-- The characters that `input` accepts for a cell. -/
def is_cell (c : Char) : Bool :=
  c = '#' ∨ c = '.' ∨ c = 'x' ∨ c = 'X' ∨ c = 'o' ∨ c = 's' ∨ c = 'S'

/-- The characters of a file that `input` does not skip: those that are not white space. -/
def grid_chars (f : List Char) : List Char := f.filter fun c => !isspace c

/-- The predecessor links of a queue point backwards: entry 0 is its own predecessor and
every later entry has a predecessor with a smaller index. -/
def BackLinks (queue : List queueitem) : Prop :=
  ∀ i e, queue.get? i = some e → (i = 0 → e.prev = 0) ∧ (0 < i → e.prev < i)

/-- The list `l` follows the predecessor links of the queue downwards from `p` to the root:
it starts with `p`, ends with 0, and each element is followed by its predecessor, which is
smaller. -/
def Descends (queue : List queueitem) (p : Nat) (l : List Nat) : Prop :=
  l.head? = some p ∧ l.getLast? = some 0 ∧ l.length ≤ p + 1 ∧
  List.Chain' (fun a b => (queue.getD a default).prev = b ∧ b < a) l

/-- The hash table refers only to stored entries, each from the bucket of its own hash code,
and no chain refers to an index twice. -/
structure TableOK (data : taskdata) : Prop where
  bucket : ∀ h idx, idx ∈ data.H h →
    idx < data.queue.length ∧ hashcode (data.queue.getD idx default) data = h
  nodup : ∀ h, (data.H h).Nodup

/-- The number of predecessor links from entry `i` to the root, following at most `fuel`
links: 0 for the root, and one more than for the predecessor otherwise. -/
def depth_aux (queue : List queueitem) : Nat → Nat → Nat
  | 0, _ => 0
  | fuel + 1, i =>
    if i = 0 then 0 else depth_aux queue fuel (queue.getD i default).prev + 1

/-- The depth of entry `i`: `depth 0 = 0` and `depth i = depth (queue[i].prev) + 1`.  The
links of the queue point backwards, so `i` links are enough. -/
def depth (queue : List queueitem) (i : Nat) : Nat := depth_aux queue i i

/-- The depths of the queue entries are in order: they do not decrease with the index. -/
def DepthMono (queue : List queueitem) : Prop :=
  ∀ i j, i ≤ j → j < queue.length → depth queue i ≤ depth queue j

/-- The invariant of the queue at the head of the loop of `solve`, for C16. -/
structure DepthHead (data : taskdata) : Prop where
  links : BackLinks data.queue
  pos : 0 < data.queue.length
  curr : data.queuecurr ≤ data.queue.length
  mono : DepthMono data.queue
  near : data.queuecurr < data.queue.length →
    ∀ j, j < data.queue.length → depth data.queue j ≤ depth data.queue data.queuecurr + 1

/-- The invariant of the queue while entry `queueidx` is expanded, for C16. -/
structure DepthMid (queueidx : Nat) (data : taskdata) : Prop where
  links : BackLinks data.queue
  idx : queueidx < data.queue.length
  curr : data.queuecurr = queueidx + 1
  mono : DepthMono data.queue
  near : ∀ j, j < data.queue.length → depth data.queue j ≤ depth data.queue queueidx + 1

/-- The values that `input` stores in a cell: floor, wall, box, goal, box on goal, player,
player on goal. -/
def cell_ok (v : Nat) : Prop :=
  v = 0 ∨ v = WALL ∨ v = BOX ∨ v = DEST ∨ v = BOX ||| DEST ∨ v = CURR ∨ v = CURR ||| DEST

/-- What `input` maintains about the start cell while the cells `rem` are still to be read:
every cell holds a value `input` stores; a cell with `CURR` is the start cell recorded; and
once a start cell is recorded, it has `CURR` and is not among the cells to be read. -/
structure StartInv (s : InputState) (rem : List (Nat × Nat)) : Prop where
  cellok : ∀ i j, cell_ok (s.field i j)
  curr_imp : ∀ i j, s.field i j &&& CURR ≠ 0 →
    s.data.xstart ≠ NMAX ∧ i = s.data.ystart ∧ j = s.data.xstart
  start_has : s.data.xstart ≠ NMAX →
    (s.data.ystart, s.data.xstart) ∉ rem ∧ s.field s.data.ystart s.data.xstart &&& CURR ≠ 0

/-- The board holds the player consistently: the player cell `(x, y)` is on the board, it is
the only cell of the board with `CURR`, no cell of the board has both `WALL` and `BOX`, and
the player cell has neither. -/
structure PlayerOK (M N : Nat) (b : Field) (x y : Nat) : Prop where
  hin : inside M N y x
  only : ∀ i j, inside M N i j → (b i j &&& CURR ≠ 0 ↔ i = y ∧ j = x)
  nowb : ∀ i j, inside M N i j → b i j &&& WALL ≠ 0 → b i j &&& BOX = 0
  free : b y x &&& WALL = 0 ∧ b y x &&& BOX = 0

/-- A queue entry is good and stores a board that holds the player consistently at the
cell of its `curr` byte. -/
def ConsistentEntry (M N : Nat) (field0 : Field) (e : queueitem) : Prop :=
  GoodEntry M N field0 e ∧
  PlayerOK M N (decode_position e.position field0 (taskdata.init M N 0 0))
    (decode_curr e.curr).1 (decode_curr e.curr).2

/-- Every queue entry has a key made of bytes: `curr` is a byte and `position` holds
`codelength` bytes. -/
def KeysBounded (data : taskdata) : Prop :=
  ∀ e ∈ data.queue, e.curr < 256 ∧ e.position.length = data.codelength ∧
    ∀ b ∈ e.position, b < 256

/-- What holds each time the loop of `solve` tests its condition: predecessor links point
backwards, the queue is not empty, the cursor is within it, every entry is in the chain of
its bucket, the keys are pairwise distinct and made of bytes, and `codelength = L` is the
number of bytes of an encoded board. -/
structure AtHead (L : Nat) (data : taskdata) : Prop where
  links : BackLinks data.queue
  pos : 0 < data.queue.length
  cursor : data.queuecurr ≤ data.queue.length
  chained : Chained data
  distinct : DistinctKeys data
  bounded : KeysBounded data
  hL : data.codelength = L
  hMN : (data.M * data.N + 1) / 2 = L

/-- What holds between two calls of `process_coords` while the loop of `solve` expands the
entry at index `queueidx`: as `AtHead`, with the cursor one past `queueidx`. -/
structure Expanding (L : Nat) (queueidx : Nat) (data : taskdata) : Prop where
  links : BackLinks data.queue
  hidx : queueidx < data.queue.length
  cursor : data.queuecurr = queueidx + 1
  chained : Chained data
  distinct : DistinctKeys data
  bounded : KeysBounded data
  hL : data.codelength = L
  hMN : (data.M * data.N + 1) / 2 = L

/-! ## The cells of the board in loop order -/

theorem foldl_nested {σ α β : Type} (g : σ → α → β → σ) (l : List α) (r : List β) (s : σ) :
    l.foldl (fun s i => r.foldl (fun s j => g s i j) s) s
      = (l.flatMap fun i => r.map fun j => (i, j)).foldl (fun s p => g s p.1 p.2) s := by
  induction l generalizing s with
  | nil => rfl
  | cons a l ih =>
    simp only [List.foldl_cons, List.flatMap_cons, List.foldl_append, List.foldl_map]
    exact ih _

theorem mem_cells {M N i j : Nat} : (i, j) ∈ cells M N ↔ (1 ≤ i ∧ i ≤ M) ∧ (1 ≤ j ∧ j ≤ N) := by
  simp only [cells, List.mem_flatMap, List.mem_map, List.mem_range'_1, Prod.mk.injEq]
  constructor
  · rintro ⟨a, ha, b, hb, rfl, rfl⟩
    omega
  · rintro ⟨hi, hj⟩
    exact ⟨i, by omega, j, by omega, rfl, rfl⟩

theorem nodup_cells (M N : Nat) : (cells M N).Nodup := by
  unfold cells
  rw [List.nodup_flatMap]
  refine ⟨fun i _ => ?_, ?_⟩
  · exact (List.nodup_range' 1 N).map (fun a b h => by simpa using h)
  · refine (List.nodup_range' 1 M).pairwise_of_forall_ne ?_
    intro a _ b _ hab
    intro p hpa hpb
    simp only [List.mem_map] at hpa hpb
    obtain ⟨_, _, rfl⟩ := hpa
    obtain ⟨_, _, h⟩ := hpb
    exact hab (by simpa using (congrArg Prod.fst h).symm)

/-! ## The state codec: closed forms -/

theorem encode_fold (vs : List Nat) (buf : List Nat) :
    (vs.foldl encode_cell { buffer := buf, half := 0, value := 0 }).finish = buf ++ pack vs := by
  induction vs using pack.induct generalizing buf with
  | case1 => simp [EncState.finish, pack]
  | case2 a => simp [EncState.finish, pack, encode_cell]
  | case3 a b r ih =>
    simp only [List.foldl_cons, encode_cell, pack]
    simp only [↓reduceIte, one_ne_zero]
    rw [ih]
    simp

theorem encode_position_eq (field : Field) (data : taskdata) :
    encode_position field data = pack ((cells data.M data.N).map fun p => field p.1 p.2) := by
  unfold encode_position
  rw [foldl_nested (fun s i j => encode_cell s (field i j))]
  have h := encode_fold ((cells data.M data.N).map fun p => field p.1 p.2) []
  rw [List.foldl_map] at h
  simpa [EncState.finish, cells] using h

theorem nibble_cons_add_two (b : Nat) (buf : List Nat) (k : Nat) :
    nibble (b :: buf) (k + 2) = nibble buf k := by
  have h1 : (k + 2) % 2 = k % 2 := by omega
  have h2 : (k + 2) / 2 = k / 2 + 1 := by omega
  simp [nibble, h1, h2]

theorem byte_halves : ∀ a < 16, ∀ b < 16,
    ((((0 ||| a) % 256) ||| (b <<< 4)) % 256) &&& 0x0f = a ∧
    ((((0 ||| a) % 256) ||| (b <<< 4)) % 256) >>> 4 = b ∧
    ((0 ||| a) % 256) &&& 0x0f = a := by
  decide

theorem nibble_pack (vs : List Nat) (hvs : ∀ v ∈ vs, v < 16) (k : Nat) (hk : k < vs.length) :
    nibble (pack vs) k = vs.getD k 0 := by
  induction vs using pack.induct generalizing k with
  | case1 => simp at hk
  | case2 a =>
    have hk0 : k = 0 := by simpa using hk
    subst hk0
    have ha : a < 16 := hvs a (by simp)
    simpa [nibble, pack] using (byte_halves a ha 0 (by decide)).2.2
  | case3 a b r ih =>
    have ha : a < 16 := hvs a (by simp)
    have hb : b < 16 := hvs b (by simp)
    obtain ⟨h1, h2, -⟩ := byte_halves a ha b hb
    match k, hk with
    | 0, _ => simpa [nibble, pack] using h1
    | 1, _ => simpa [nibble, pack] using h2
    | k + 2, hk =>
      rw [pack, nibble_cons_add_two]
      rw [ih (fun v hv => hvs v (by simp [hv])) k (by simpa using hk)]
      simp

theorem decode_cell_spec (buffer : List Nat) (s : DecState) (c i j : Nat)
    (h : s.Consistent buffer c) :
    (decode_cell buffer s i j).Consistent buffer (c + 1) ∧
    (decode_cell buffer s i j).field = s.field.set i j (nibble buffer c) := by
  rcases h with ⟨h0, hc⟩ | ⟨h1, hc, hv⟩
  · have e1 : c % 2 = 0 := by omega
    have e2 : c / 2 = s.idx := by omega
    have e3 : (c + 1) / 2 = s.idx := by omega
    refine ⟨Or.inr ?_, ?_⟩
    · simp [decode_cell, h0, e3]
      omega
    · simp [decode_cell, h0, nibble, e1, e2]
  · have e1 : c % 2 = 1 := by omega
    refine ⟨Or.inl ?_, ?_⟩
    · simp [decode_cell, h1]
      omega
    · simp [decode_cell, h1, nibble, e1, hv]

theorem decode_fold (buffer : List Nat) (ps : List (Nat × Nat)) (hps : ps.Nodup)
    (s : DecState) (c : Nat) (h : s.Consistent buffer c) :
    (∀ k (hk : k < ps.length),
      (ps.foldl (fun s p => decode_cell buffer s p.1 p.2) s).field (ps.get ⟨k, hk⟩).1
        (ps.get ⟨k, hk⟩).2 = nibble buffer (c + k)) ∧
    (∀ a b, (a, b) ∉ ps →
      (ps.foldl (fun s p => decode_cell buffer s p.1 p.2) s).field a b = s.field a b) := by
  induction ps generalizing s c with
  | nil => exact ⟨fun k hk => absurd hk (by simp), fun _ _ _ => rfl⟩
  | cons p ps ih =>
    obtain ⟨hp, hps⟩ := List.nodup_cons.mp hps
    obtain ⟨hc, hf⟩ := decode_cell_spec buffer s c p.1 p.2 h
    obtain ⟨ih1, ih2⟩ := ih hps _ (c + 1) hc
    simp only [List.foldl_cons]
    constructor
    · intro k hk
      match k, hk with
      | 0, _ =>
        simp only [List.get_eq_getElem, List.getElem_cons_zero, Nat.add_zero]
        rw [ih2 p.1 p.2 hp, hf]
        simp [Field.set]
      | k + 1, hk =>
        have := ih1 k (by simpa using hk)
        simp only [List.get_eq_getElem, List.getElem_cons_succ] at this ⊢
        rw [this]
        congr 1
        omega
    · intro a b hab
      have hne : (a, b) ≠ p := fun e => hab (by simp [e])
      have hab2 : (a, b) ∉ ps := fun e => hab (by simp [e])
      rw [ih2 a b hab2, hf]
      have : ¬ (a = p.1 ∧ b = p.2) := fun e => hne (Prod.ext e.1 e.2)
      simp [Field.set, this]

theorem decode_position_eq (buffer : List Nat) (field : Field) (data : taskdata) :
    decode_position buffer field data =
      ((cells data.M data.N).foldl (fun s p => decode_cell buffer s p.1 p.2)
        { field := field, half := 0, value := 0, idx := 0 }).field := by
  unfold decode_position
  rw [foldl_nested (fun s i j => decode_cell buffer s i j)]
  rfl

/-- Outside rows `1..M`, columns `1..N`, `decode_position` leaves the array as it was. -/
theorem decode_position_outside (buffer : List Nat) (field : Field) (data : taskdata)
    (i j : Nat) (h : ¬ ((1 ≤ i ∧ i ≤ data.M) ∧ (1 ≤ j ∧ j ≤ data.N))) :
    decode_position buffer field data i j = field i j := by
  rw [decode_position_eq]
  exact (decode_fold buffer _ (nodup_cells _ _)
    { field := field, half := 0, value := 0, idx := 0 } 0 (Or.inl ⟨rfl, rfl⟩)).2 i j
    (fun hm => h (mem_cells.mp hm))

/-- Inside rows `1..M`, columns `1..N`, decoding an encoded board whose cells there are below
16 gives the cells back, whatever the array held before. -/
theorem decode_encode_inside (field field0 : Field) (data : taskdata)
    (hf : ∀ i j, 1 ≤ i → i ≤ data.M → 1 ≤ j → j ≤ data.N → field i j < 16)
    (i j : Nat) (hi : 1 ≤ i ∧ i ≤ data.M) (hj : 1 ≤ j ∧ j ≤ data.N) :
    decode_position (encode_position field data) field0 data i j = field i j := by
  rw [decode_position_eq, encode_position_eq]
  have hmem : (i, j) ∈ cells data.M data.N := mem_cells.mpr ⟨hi, hj⟩
  obtain ⟨⟨k, hk⟩, hget⟩ := List.mem_iff_get.mp hmem
  have h1 := (decode_fold (pack ((cells data.M data.N).map fun p => field p.1 p.2)) _
    (nodup_cells _ _) { field := field0, half := 0, value := 0, idx := 0 } 0
    (Or.inl ⟨rfl, rfl⟩)).1 k hk
  rw [hget] at h1
  simp only [Nat.zero_add] at h1
  rw [h1, nibble_pack _ _ k (by simpa using hk)]
  · simp only [List.get_eq_getElem] at hget
    simp [List.getD_eq_getElem?_getD, List.getElem?_eq_getElem hk, hget]
  · intro v hv
    obtain ⟨p, hp, rfl⟩ := List.mem_map.mp hv
    obtain ⟨⟨h1, h2⟩, h3, h4⟩ := mem_cells.mp hp
    exact hf p.1 p.2 h1 h2 h3 h4

/-! ## C1: the codec round trip -/

/-- C1.  For every board size `1 ≤ M, N ≤ 15` and every board whose cells in rows `1..M`,
columns `1..N` hold values below 16, `decode_position` applied to the buffer produced by
`encode_position` gives an array equal to the board on every cell of rows `1..M`, columns
`1..N`, whatever the array `field0` decoded into held before. -/
theorem decode_encode_roundtrip (data : taskdata) (field field0 : Field)
    (_hM : 1 ≤ data.M ∧ data.M ≤ 15) (_hN : 1 ≤ data.N ∧ data.N ≤ 15)
    (hcells : ∀ i j, 1 ≤ i → i ≤ data.M → 1 ≤ j → j ≤ data.N → field i j < 16) :
    ∀ i j, 1 ≤ i → i ≤ data.M → 1 ≤ j → j ≤ data.N →
      decode_position (encode_position field data) field0 data i j = field i j :=
  fun i j h1 h2 h3 h4 => decode_encode_inside field field0 data hcells i j ⟨h1, h2⟩ ⟨h3, h4⟩

/-- C1 at the 2 x 3 board with cell `(i, j)` holding `(5 * i + 3 * j) % 16`, decoded into an
array of walls: cell `(2, 3)` comes back as 3. -/
theorem decode_encode_roundtrip_witness :
    decode_position (encode_position (fun i j => (5 * i + 3 * j) % 16)
      (taskdata.init 2 3 1 1)) (fun _ _ => WALL) (taskdata.init 2 3 1 1) 2 3 = 3 :=
  decode_encode_roundtrip (taskdata.init 2 3 1 1) (fun i j => (5 * i + 3 * j) % 16)
    (fun _ _ => WALL) (by decide) (by decide)
    (fun _ _ _ _ _ _ => Nat.mod_lt _ (by decide)) 2 3 (by decide) (by decide) (by decide)
    (by decide)

/-! ## C2: the goal test on a board that is not square -/

/-- C2 (failing input).  In the 1 x 3 puzzle `x s o` the player steps right onto the goal.
On the resulting board the goal cell `(1, 3)` has `DEST` and no `BOX`, yet `check_solved`
returns 1: it reads `field[1][1]`, `field[2][1]`, `field[3][1]` and never `field[1][3]`. -/
theorem check_solved_transposed :
    ∃ field data, input 1 3 ['x', 's', 'o'] = Except.ok (field, data) ∧
      check_solved (move_field field 2 1 3 1) data = 1 ∧
      move_field field 2 1 3 1 1 3 &&& DEST ≠ 0 ∧
      move_field field 2 1 3 1 1 3 &&& BOX = 0 :=
  ⟨_, _, rfl, by decide, by decide, by decide⟩

/-! ## C3, C4, C7, C8: runs of the program on small puzzles -/

/-- C3 (failing input).  On the 1 x 4 puzzle `s x . o`, whose shortest solution is two pushes
to the right, the program reports a solution of 1 step, and the board it prints as solved has
the box at column 3 and the goal at column 4 still without a box. -/
theorem solve_reports_one_step_for_two_push_puzzle (fuel : Nat) :
    ∃ data, main (fuel + 1) 1 4 ['s', 'x', '.', 'o'] = Except.ok (some data) ∧
      data.solved = 1 ∧
      data.stdout = [Event.start 1 1, Event.initial_position [[CURR, BOX, 0, DEST]],
        Event.queue_size 0, Event.solution_found 1,
        Event.step 0 "start" [[CURR, BOX, 0, DEST]],
        Event.step 1 "right" [[0, CURR, BOX, DEST]],
        Event.solved, Event.final_queue_size 1] := by
  cases fuel <;> exact ⟨_, rfl, by decide, by decide⟩

/-- C4 (failing input).  The 1 x 3 puzzle `x s o` has no solution: the box stands against the
left wall and the player cannot get behind it.  The program nevertheless calls
`show_solution` after the player steps right, and prints a board whose goal has no box. -/
theorem solve_reports_solution_for_unsolvable_puzzle (fuel : Nat) :
    ∃ data, main (fuel + 1) 1 3 ['x', 's', 'o'] = Except.ok (some data) ∧
      data.solved = 1 ∧
      data.stdout = [Event.start 2 1, Event.initial_position [[BOX, CURR, DEST]],
        Event.queue_size 0, Event.solution_found 1,
        Event.step 0 "start" [[BOX, CURR, DEST]],
        Event.step 1 "right" [[BOX, 0, DEST ||| CURR]],
        Event.solved, Event.final_queue_size 1] := by
  cases fuel <;> exact ⟨_, rfl, by decide, by decide⟩

/-- C7 (failing input).  On the 1 x 1 puzzle `s` (only the player, no box, no goal) the
program expands the start state, finds no direction to try, and ends with `solved = 0` and
"No solution.". -/
theorem solve_reports_no_solution_for_solved_puzzle (fuel : Nat) :
    ∃ data, main (fuel + 1) 1 1 ['s'] = Except.ok (some data) ∧
      data.solved = 0 ∧
      data.stdout = [Event.start 1 1, Event.initial_position [[CURR]],
        Event.queue_size 0, Event.no_solution, Event.final_queue_size 1] := by
  cases fuel <;> exact ⟨_, rfl, by decide, by decide⟩

/-- C8.  On the 1 x 3 puzzle `s x o` the program, given at least one iteration of the loop,
reports a solution of exactly 1 step.  The first iteration is the call of `show_solution`
with `prev = 0` and direction `RIGHT` on the board `push_field` builds from the decoded start
board (the target cell, column 2, holds a box and the cell beyond is column 3): the action
is a push.  The trace printed is the stored root (action start) followed by the step `right`,
whose board has the player at row 1, column 2 and the box on the goal at row 1, column 3;
the queue holds only the root. -/
theorem solve_scenario_A (fuel : Nat) :
    ∃ field data0 data, input 1 3 ['s', 'x', 'o'] = Except.ok (field, data0) ∧
      main (fuel + 1) 1 3 ['s', 'x', 'o'] = Except.ok (some data) ∧
      data.solved = 1 ∧
      data.stdout = [Event.start 1 1, Event.initial_position [[CURR, BOX, DEST]],
        Event.queue_size 0, Event.solution_found 1,
        Event.step 0 (direction START) [[CURR, BOX, DEST]],
        Event.step 1 (direction RIGHT) [[0, CURR, BOX ||| DEST]],
        Event.solved, Event.final_queue_size 1] ∧
      data.queue.map (fun e => e.prev) = [0] ∧
      empty (field 1 2) = 0 ∧ field 1 2 &&& BOX ≠ 0 ∧ beyond 1 2 = 3 ∧ beyond 1 1 = 1 ∧
      print_position (push_field (decode_position [40, 4] field data0) 1 1 2 1 3 1) data0
        = [[0, CURR, BOX ||| DEST]] ∧
      solve_body field (solve_init field data0) =
        (show_solution (push_field (decode_position [40, 4] field data0) 1 1 2 1 3 1) 0 RIGHT
          { solve_init field data0 with queuecurr := 1 }).map
          (fun d => (decode_position [40, 4] field data0, d)) := by
  cases fuel <;>
    exact ⟨_, _, _, rfl, rfl, by decide, by decide, by decide, by decide, by decide,
      by decide, by decide, by decide, rfl⟩

/-! ## The visited set -/

theorem foldl_congr_mem {σ α : Type} (f g : σ → α → σ) (l : List α) (s : σ)
    (h : ∀ a ∈ l, ∀ r, f r a = g r a) : l.foldl f s = l.foldl g s := by
  induction l generalizing s with
  | nil => rfl
  | cons a l ih =>
    simp only [List.foldl_cons]
    rw [h a (by simp), ih _ (fun b hb => h b (by simp [hb]))]

theorem getD_take_of_lt (l : List Nat) (n i : Nat) (h : i < n) :
    (l.take n).getD i 0 = l.getD i 0 := by
  simp [List.getD_eq_getElem?_getD, List.getElem?_take, h]

/-- The hash code is a function of the key. -/
theorem hashcode_eq_of_key (data : taskdata) (a b : queueitem) (h : key data a = key data b) :
    hashcode a data = hashcode b data := by
  obtain ⟨hc, hp⟩ := Prod.mk.inj h
  unfold hashcode
  rw [hc]
  congr 1
  apply foldl_congr_mem
  intro i hi r
  have hi2 : i < data.codelength := List.mem_range.mp hi
  rw [← getD_take_of_lt a.position _ i hi2, ← getD_take_of_lt b.position _ i hi2, hp]

theorem hashcode_lt (item : queueitem) (data : taskdata) : hashcode item data < HASHSIZE :=
  Nat.mod_lt _ (by decide)

/-- The chain scan succeeds exactly when the chain refers to an entry with the key of the
item. -/
theorem enqueue_scan_iff (item : queueitem) (data : taskdata) (chain : List Nat) :
    enqueue_scan item data chain = true ↔
      ∃ idx ∈ chain, key data (data.queue.getD idx default) = key data item := by
  induction chain with
  | nil => simp [enqueue_scan]
  | cons idx next ih =>
    unfold enqueue_scan
    rw [List.exists_mem_cons_iff]
    generalize data.queue.getD idx default = q
    by_cases h1 : q.curr = item.curr
    · by_cases h2 : q.position.take data.codelength = item.position.take data.codelength
      · simp [h1, h2, differ, key]
      · simp [h1, h2, differ, key, ih]
    · simp [h1, key, ih]

theorem enqueue_if_unique_of_scan {item : queueitem} {data : taskdata}
    (h : enqueue_scan item data (data.H (hashcode item data)) = true) :
    enqueue_if_unique item data = data := by
  simp [enqueue_if_unique, h]

theorem enqueue_if_unique_of_not_scan {item : queueitem} {data : taskdata}
    (h : enqueue_scan item data (data.H (hashcode item data)) = false) :
    enqueue_if_unique item data =
      { data with
        queue := data.queue ++ [item]
        H := fun h => if h = hashcode item data
          then data.queuesize :: data.H (hashcode item data) else data.H h
        stdout := if data.queuesize % 100000 = 0
          then data.stdout ++ [Event.queue_size data.queuesize] else data.stdout } := by
  simp [enqueue_if_unique, h]

/-- An item whose key is stored already is dropped, if every entry is in its chain. -/
theorem enqueue_if_unique_of_mem {item : queueitem} {data : taskdata} (hch : Chained data)
    (h : ∃ e ∈ data.queue, key data e = key data item) :
    enqueue_if_unique item data = data := by
  obtain ⟨e, he, hk⟩ := h
  obtain ⟨i, hi, rfl⟩ := List.getElem_of_mem he
  apply enqueue_if_unique_of_scan
  rw [enqueue_scan_iff]
  have hget : data.queue.getD i default = data.queue[i] := by
    simp [List.getD_eq_getElem?_getD, List.getElem?_eq_getElem hi]
  refine ⟨i, ?_, by rw [hget]; exact hk⟩
  have := hch i hi
  rw [hget, hashcode_eq_of_key data _ _ hk] at this
  exact this

/-- When an item is stored, no entry had its key, if every entry is in its chain. -/
theorem not_mem_of_not_scan {item : queueitem} {data : taskdata} (hch : Chained data)
    (h : enqueue_scan item data (data.H (hashcode item data)) = false) :
    key data item ∉ data.queue.map (key data) := by
  intro hm
  obtain ⟨e, he, hk⟩ := List.mem_map.mp hm
  have h2 := enqueue_if_unique_of_mem hch ⟨e, he, hk⟩
  rw [enqueue_if_unique_of_not_scan h] at h2
  have := congrArg (fun d => d.queue.length) h2
  simp at this

theorem enqueue_if_unique_codelength (item : queueitem) (data : taskdata) :
    (enqueue_if_unique item data).codelength = data.codelength := by
  cases h : enqueue_scan item data (data.H (hashcode item data)) with
  | true => rw [enqueue_if_unique_of_scan h]
  | false => rw [enqueue_if_unique_of_not_scan h]

theorem hashcode_congr_data (item : queueitem) {d1 d2 : taskdata}
    (h : d1.codelength = d2.codelength) : hashcode item d1 = hashcode item d2 := by
  unfold hashcode
  rw [h]

theorem key_congr_data {d1 d2 : taskdata} (h : d1.codelength = d2.codelength) :
    key d1 = key d2 := by
  funext item
  unfold key
  rw [h]

theorem enqueue_if_unique_chained (item : queueitem) (data : taskdata) (hch : Chained data) :
    Chained (enqueue_if_unique item data) := by
  cases h : enqueue_scan item data (data.H (hashcode item data)) with
  | true => rw [enqueue_if_unique_of_scan h]; exact hch
  | false =>
    rw [enqueue_if_unique_of_not_scan h]
    intro i hi
    simp only [List.length_append, List.length_singleton] at hi
    have hcode : ∀ it : queueitem, hashcode it
        { data with
          queue := data.queue ++ [item]
          H := fun h => if h = hashcode item data
            then data.queuesize :: data.H (hashcode item data) else data.H h
          stdout := if data.queuesize % 100000 = 0
            then data.stdout ++ [Event.queue_size data.queuesize] else data.stdout }
        = hashcode it data := fun it => rfl
    rw [hcode]
    by_cases hlt : i < data.queue.length
    · have hget : (data.queue ++ [item]).getD i default = data.queue.getD i default := by
        simp [List.getD_eq_getElem?_getD, List.getElem?_append_left hlt]
      simp only [hget]
      have := hch i hlt
      split
      · rename_i heq
        rw [heq] at this
        exact List.mem_cons_of_mem _ this
      · exact this
    · have hi2 : i = data.queue.length := by omega
      subst hi2
      have hget : (data.queue ++ [item]).getD data.queue.length default = item := by
        simp [List.getD_eq_getElem?_getD]
      simp [hget, taskdata.queuesize]

theorem enqueue_if_unique_distinct (item : queueitem) (data : taskdata) (hch : Chained data)
    (hd : DistinctKeys data) : DistinctKeys (enqueue_if_unique item data) := by
  cases h : enqueue_scan item data (data.H (hashcode item data)) with
  | true => rw [enqueue_if_unique_of_scan h]; exact hd
  | false =>
    have hnm := not_mem_of_not_scan hch h
    rw [enqueue_if_unique_of_not_scan h]
    unfold DistinctKeys at hd ⊢
    have hk : key { data with
          queue := data.queue ++ [item]
          H := fun h => if h = hashcode item data
            then data.queuesize :: data.H (hashcode item data) else data.H h
          stdout := if data.queuesize % 100000 = 0
            then data.stdout ++ [Event.queue_size data.queuesize] else data.stdout }
        = key data := key_congr_data rfl
    rw [hk]
    simp only [List.map_append, List.map_cons, List.map_nil]
    rw [List.nodup_append]
    refine ⟨hd, List.nodup_singleton _, ?_⟩
    intro k hk1 hk2
    rw [List.mem_singleton] at hk2
    subst hk2
    exact hnm hk1

theorem enqueue_all_inv (items : List queueitem) (data : taskdata) (hch : Chained data)
    (hd : DistinctKeys data) :
    Chained (enqueue_all items data) ∧ DistinctKeys (enqueue_all items data) := by
  induction items generalizing data with
  | nil => exact ⟨hch, hd⟩
  | cons a l ih =>
    exact ih _ (enqueue_if_unique_chained a data hch) (enqueue_if_unique_distinct a data hch hd)

theorem chained_of_empty {data : taskdata} (hq : data.queue = []) : Chained data := by
  intro i hi
  rw [hq] at hi
  exact absurd hi (by simp)

theorem distinct_of_empty {data : taskdata} (hq : data.queue = []) : DistinctKeys data := by
  simp [DistinctKeys, hq]

theorem enqueue_all_codelength (items : List queueitem) (data : taskdata) :
    (enqueue_all items data).codelength = data.codelength := by
  induction items generalizing data with
  | nil => rfl
  | cons a l ih =>
    show (enqueue_all l (enqueue_if_unique a data)).codelength = _
    rw [ih, enqueue_if_unique_codelength]

theorem enqueue_first {data0 : taskdata} (hq : data0.queue = []) (hH : ∀ h, data0.H h = [])
    (a : queueitem) : (enqueue_if_unique a data0).queue = [a] := by
  have h : enqueue_scan a data0 (data0.H (hashcode a data0)) = false := by
    rw [hH]
    rfl
  rw [enqueue_if_unique_of_not_scan h]
  simp [hq]

/-! ## C5: duplicates are rejected -/

/-- C5.  Let `data` be the context reached from a context with an empty queue and an empty
hash table by any sequence of `enqueue_if_unique` calls.  An item whose key (`curr` and the
`codelength` position bytes) equals the key of an entry in the queue is rejected:
`enqueue_if_unique` returns `data` itself, so `queuesize`, the queue entries and every hash
chain are unchanged.  The keys of the entries of `data` are pairwise distinct.  And
inserting two items with the same key into the empty context leaves the queue with exactly
one entry, the first item. -/
theorem enqueue_if_unique_rejects_duplicates (data0 : taskdata) (hq : data0.queue = [])
    (hH : ∀ h, data0.H h = []) (items : List queueitem) (item : queueitem) :
    ((∃ e ∈ (enqueue_all items data0).queue,
        key (enqueue_all items data0) e = key (enqueue_all items data0) item) →
      enqueue_if_unique item (enqueue_all items data0) = enqueue_all items data0) ∧
    ((enqueue_all items data0).queue.map (key (enqueue_all items data0))).Nodup ∧
    (∀ a b, key data0 a = key data0 b →
      (enqueue_if_unique b (enqueue_if_unique a data0)).queue = [a] ∧
      (enqueue_if_unique b (enqueue_if_unique a data0)).queuesize = 1) := by
  obtain ⟨hch, hd⟩ := enqueue_all_inv items data0 (chained_of_empty hq) (distinct_of_empty hq)
  refine ⟨fun h => enqueue_if_unique_of_mem hch h, hd, ?_⟩
  intro a b hab
  have h1 : (enqueue_if_unique a data0).queue = [a] := enqueue_first hq hH a
  have hch1 : Chained (enqueue_if_unique a data0) :=
    enqueue_if_unique_chained a data0 (chained_of_empty hq)
  have hk : key (enqueue_if_unique a data0) = key data0 :=
    key_congr_data (enqueue_if_unique_codelength a data0)
  have h2 : enqueue_if_unique b (enqueue_if_unique a data0) = enqueue_if_unique a data0 :=
    enqueue_if_unique_of_mem hch1 ⟨a, by simp [h1], by rw [hk]; exact hab⟩
  rw [h2, taskdata.queuesize, h1]
  exact ⟨rfl, rfl⟩

/-- C5 on the empty context of a 1 x 3 board with `codelength = 2`: after two items are
stored, a third one that repeats the key of the first with another predecessor and direction
leaves the queue as it is, with two entries. -/
theorem enqueue_if_unique_rejects_duplicates_witness :
    (enqueue_if_unique { position := [40, 4], curr := 17, prev := 1, direction := LEFT }
      (enqueue_all
        [{ position := [40, 4], curr := 17, prev := 0, direction := START },
         { position := [128, 6], curr := 33, prev := 0, direction := RIGHT }]
        { taskdata.init 1 3 1 1 with codelength := 2 })).queue
    = [{ position := [40, 4], curr := 17, prev := 0, direction := START },
       { position := [128, 6], curr := 33, prev := 0, direction := RIGHT }] := by
  rw [(enqueue_if_unique_rejects_duplicates { taskdata.init 1 3 1 1 with codelength := 2 }
    rfl (fun _ => rfl)
    [{ position := [40, 4], curr := 17, prev := 0, direction := START },
     { position := [128, 6], curr := 33, prev := 0, direction := RIGHT }]
    { position := [40, 4], curr := 17, prev := 1, direction := LEFT }).1 (by decide)]
  decide

/-! ## One call of `process_coords` -/

theorem process_coords_eq (field : Field) (x y nx ny prev dir : Nat) (data : taskdata) :
    process_coords field x y nx ny prev dir data =
      if data.solved ≠ 0 then some data
      else match candidate field x y nx ny with
        | none => some data
        | some tmpfield => process_candidate tmpfield nx ny prev dir data := by
  unfold process_coords candidate
  by_cases h1 : data.solved ≠ 0
  · simp only [if_pos h1]
  · by_cases h2 : empty (field ny nx) ≠ 0
    · simp only [if_neg h1, if_pos h2]
    · by_cases h3 : field ny nx &&& BOX ≠ 0
      · by_cases h4 : empty (field (beyond y ny) (beyond x nx)) ≠ 0
        · simp only [if_neg h1, if_neg h2, if_pos h3, if_pos h4]
        · simp only [if_neg h1, if_neg h2, if_pos h3, if_neg h4]
      · simp only [if_neg h1, if_neg h2, if_neg h3]

/-- A call made after `solved` is set does nothing. -/
theorem process_coords_of_solved (field : Field) (x y nx ny prev dir : Nat) (data : taskdata)
    (h : data.solved ≠ 0) : process_coords field x y nx ny prev dir data = some data := by
  simp [process_coords, h]

theorem process_candidate_eq (tmpfield : Field) (nx ny prev dir : Nat) (data : taskdata) :
    process_candidate tmpfield nx ny prev dir data =
      if check_solved tmpfield data ≠ 0 then show_solution tmpfield prev dir data
      else some (enqueue_if_unique (candidate_item tmpfield nx ny prev dir data) data) := rfl

/-- What `enqueue_if_unique` can do to the queue, and what it leaves alone. -/
theorem enqueue_if_unique_queue (item : queueitem) (data : taskdata) :
    ((enqueue_if_unique item data).queue = data.queue ∨
      (enqueue_if_unique item data).queue = data.queue ++ [item]) ∧
    (enqueue_if_unique item data).M = data.M ∧
    (enqueue_if_unique item data).N = data.N ∧
    (enqueue_if_unique item data).solved = data.solved ∧
    (enqueue_if_unique item data).queuecurr = data.queuecurr ∧
    (enqueue_if_unique item data).codelength = data.codelength := by
  cases h : enqueue_scan item data (data.H (hashcode item data)) with
  | true => rw [enqueue_if_unique_of_scan h]; simp
  | false => rw [enqueue_if_unique_of_not_scan h]; simp

/-- What `show_solution` changes: the output and `solved`. -/
theorem show_solution_some {field : Field} {prev dir : Nat} {data data' : taskdata}
    (h : show_solution field prev dir data = some data') :
    data'.queue = data.queue ∧ data'.M = data.M ∧ data'.N = data.N ∧ data'.solved = 1 ∧
    data'.queuecurr = data.queuecurr ∧ data'.codelength = data.codelength ∧
    data'.H = data.H := by
  unfold show_solution at h
  split at h
  · exact absurd h (by simp)
  · injection h with h
    subst h
    simp

/-- The three outcomes of a call of `process_coords` that returns: nothing happens; the
candidate passes the goal test and goes to `show_solution`; or the candidate fails the goal
test and is submitted to the queue. -/
theorem process_coords_cases {field : Field} {x y nx ny prev dir : Nat}
    {data data' : taskdata} (h : process_coords field x y nx ny prev dir data = some data') :
    data' = data ∨
    (∃ tmpfield, candidate field x y nx ny = some tmpfield ∧ data.solved = 0 ∧
      check_solved tmpfield data ≠ 0 ∧ show_solution tmpfield prev dir data = some data') ∨
    (∃ tmpfield, candidate field x y nx ny = some tmpfield ∧ data.solved = 0 ∧
      check_solved tmpfield data = 0 ∧
      data' = enqueue_if_unique (candidate_item tmpfield nx ny prev dir data) data) := by
  rw [process_coords_eq] at h
  by_cases hs : data.solved ≠ 0
  · rw [if_pos hs] at h
    exact Or.inl (Option.some.inj h).symm
  · rw [if_neg hs] at h
    have hs0 : data.solved = 0 := by simpa using hs
    cases hc : candidate field x y nx ny with
    | none =>
      rw [hc] at h
      exact Or.inl (Option.some.inj h).symm
    | some tmpfield =>
      rw [hc] at h
      simp only [process_candidate_eq] at h
      by_cases hg : check_solved tmpfield data ≠ 0
      · rw [if_pos hg] at h
        exact Or.inr (Or.inl ⟨tmpfield, rfl, hs0, hg, h⟩)
      · rw [if_neg hg] at h
        exact Or.inr (Or.inr ⟨tmpfield, rfl, hs0, by simpa using hg,
          (Option.some.inj h).symm⟩)

/-! ## Flags of the candidate boards -/

theorem Field.set_apply (field : Field) (i j v a b : Nat) :
    field.set i j v a b = if a = i ∧ b = j then v else field a b := rfl

/-- Clearing `CURR` or `BOX` and setting `CURR` or `BOX` leaves any other flag as it was. -/
theorem land_mask (c m f : Nat) (h : m &&& f = f) : (c &&& m) &&& f = c &&& f := by
  rw [Nat.and_assoc, h]

theorem lor_mask (c b f : Nat) (h : b &&& f = 0) : (c ||| b) &&& f = c &&& f := by
  rw [Nat.and_distrib_right, h, Nat.or_zero]

theorem lor_box_ne_zero (c : Nat) : (c ||| BOX) &&& BOX ≠ 0 := by
  have h : (c ||| BOX).testBit 1 = true := by
    rw [Nat.testBit_lor, show BOX.testBit 1 = true from by decide, Bool.or_true]
  intro h0
  have h2 : ((c ||| BOX) &&& BOX).testBit 1 = true := by
    rw [Nat.testBit_land, h]
    decide
  rw [h0] at h2
  simp at h2

theorem land_not_box (c : Nat) : (c &&& (0xff - BOX)) &&& BOX = 0 := by
  rw [Nat.and_assoc]
  exact Nat.and_zero c

/-- A flag other than `CURR` is the same, cell by cell, before and after a move. -/
theorem move_field_flag (field : Field) (x y nx ny f : Nat) (h1 : (0xff - CURR) &&& f = f)
    (h2 : CURR &&& f = 0) (i j : Nat) :
    move_field field x y nx ny i j &&& f = field i j &&& f := by
  have e1 : ∀ c, (c &&& (0xff - CURR)) &&& f = c &&& f := fun c => land_mask c _ f h1
  have e2 : ∀ c, (c ||| CURR) &&& f = c &&& f := fun c => lor_mask c _ f h2
  unfold move_field
  simp only [Field.set_apply]
  split_ifs with h3 h4 h5
  · obtain ⟨rfl, rfl⟩ := h3
    obtain ⟨rfl, rfl⟩ := h4
    rw [e2, e1]
  · obtain ⟨rfl, rfl⟩ := h3
    rw [e2]
  · obtain ⟨rfl, rfl⟩ := h5
    rw [e1]
  · rfl

/-- A flag other than `CURR` and `BOX` is the same, cell by cell, before and after a push. -/
theorem push_field_flag (field : Field) (x y nx ny nextx nexty f : Nat)
    (h1 : (0xff - CURR) &&& f = f) (h2 : CURR &&& f = 0) (h3 : (0xff - BOX) &&& f = f)
    (h4 : BOX &&& f = 0) (i j : Nat) :
    push_field field x y nx ny nextx nexty i j &&& f = field i j &&& f := by
  have e1 : ∀ c, (c &&& (0xff - CURR)) &&& f = c &&& f := fun c => land_mask c _ f h1
  have e2 : ∀ c, (c ||| CURR) &&& f = c &&& f := fun c => lor_mask c _ f h2
  have e3 : ∀ c, (c &&& (0xff - BOX)) &&& f = c &&& f := fun c => land_mask c _ f h3
  have e4 : ∀ c, (c ||| BOX) &&& f = c &&& f := fun c => lor_mask c _ f h4
  unfold push_field
  simp only [Field.set_apply]
  split_ifs <;> simp only [e1, e2, e3, e4] <;> simp_all

/-- The `BOX` flag after a push: set on the cell beyond, cleared on the target cell, and as
before on every other cell. -/
theorem push_field_box (field : Field) (x y nx ny nextx nexty : Nat) (i j : Nat) :
    (i = nexty ∧ j = nextx → push_field field x y nx ny nextx nexty i j &&& BOX ≠ 0) ∧
    (¬ (i = nexty ∧ j = nextx) → i = ny ∧ j = nx →
      push_field field x y nx ny nextx nexty i j &&& BOX = 0) ∧
    (¬ (i = nexty ∧ j = nextx) → ¬ (i = ny ∧ j = nx) →
      push_field field x y nx ny nextx nexty i j &&& BOX = field i j &&& BOX) := by
  have h1 : (0xff - CURR) &&& BOX = BOX := by decide
  have h2 : CURR &&& BOX = 0 := by decide
  unfold push_field
  simp only [Field.set_apply]
  refine ⟨fun h => ?_, fun h h' => ?_, fun h h' => ?_⟩
  · rw [if_pos h]
    exact lor_box_ne_zero _
  · rw [if_neg h, if_pos h']
    exact land_not_box _
  · rw [if_neg h, if_neg h']
    split_ifs with h5
    · obtain ⟨rfl, rfl⟩ := h5
      rw [land_mask _ _ _ h1]
    · rfl

/-! ## One iteration of the loop as a list of calls -/

theorem process_coords_MN {field : Field} {x y nx ny prev dir : Nat} {data data' : taskdata}
    (h : process_coords field x y nx ny prev dir data = some data') :
    data'.M = data.M ∧ data'.N = data.N ∧ data'.queuecurr = data.queuecurr ∧
    data'.codelength = data.codelength := by
  rcases process_coords_cases h with rfl | ⟨t, -, -, -, hs⟩ | ⟨t, -, -, -, rfl⟩
  · exact ⟨rfl, rfl, rfl, rfl⟩
  · obtain ⟨-, h1, h2, -, h3, h4, -⟩ := show_solution_some hs
    exact ⟨h1, h2, h3, h4⟩
  · obtain ⟨-, h1, h2, -, h3, h4⟩ := enqueue_if_unique_queue
      (candidate_item t nx ny prev dir data) data
    exact ⟨h1, h2, h3, h4⟩

theorem guarded_MN {field : Field} {x y nx ny prev dir : Nat} {g : Prop} [Decidable g]
    {data data' : taskdata}
    (h : (if g then process_coords field x y nx ny prev dir data else some data) = some data') :
    data'.M = data.M ∧ data'.N = data.N := by
  split at h
  · exact ⟨(process_coords_MN h).1, (process_coords_MN h).2.1⟩
  · cases h
    exact ⟨rfl, rfl⟩

/-- One iteration of the loop of `solve` makes the calls of `solve_calls` in order. -/
theorem solve_body_eq (field : Field) (data : taskdata) :
    solve_body field data =
      (dequeue data).bind fun r =>
        (run_calls (decode_position r.1.position field r.2.2) (decode_curr r.1.curr).1
          (decode_curr r.1.curr).2 r.2.1
          (solve_calls (decode_curr r.1.curr).1 (decode_curr r.1.curr).2 r.2.2.M r.2.2.N)
          r.2.2).map
        fun d => (decode_position r.1.position field r.2.2, d) := by
  unfold solve_body
  cases hd : dequeue data with
  | none => rfl
  | some r =>
    obtain ⟨item, queueidx, d⟩ := r
    simp only [Option.some_bind, solve_calls, run_calls, decide_eq_true_eq]
    cases h1 : (if (decode_curr item.curr).2 > 1 then
        process_coords (decode_position item.position field d) (decode_curr item.curr).1
          (decode_curr item.curr).2 (decode_curr item.curr).1 ((decode_curr item.curr).2 - 1)
          queueidx UP d else some d) with
    | none => rfl
    | some d1 =>
      obtain ⟨m1, n1⟩ := guarded_MN h1
      simp only [Option.some_bind, m1]
      cases h2 : (if (decode_curr item.curr).2 < d.M then
          process_coords (decode_position item.position field d) (decode_curr item.curr).1
            (decode_curr item.curr).2 (decode_curr item.curr).1
            (((decode_curr item.curr).2 + 1) % 256) queueidx DOWN d1 else some d1) with
      | none => rfl
      | some d2 =>
        obtain ⟨m2, n2⟩ := guarded_MN h2
        simp only [Option.some_bind]
        cases h3 : (if (decode_curr item.curr).1 > 1 then
            process_coords (decode_position item.position field d) (decode_curr item.curr).1
              (decode_curr item.curr).2 ((decode_curr item.curr).1 - 1)
              (decode_curr item.curr).2 queueidx LEFT d2 else some d2) with
        | none => rfl
        | some d3 =>
          obtain ⟨m3, n3⟩ := guarded_MN h3
          simp only [Option.some_bind, n3, n2, n1]
          cases h4 : (if (decode_curr item.curr).1 < d.N then
              process_coords (decode_position item.position field d) (decode_curr item.curr).1
                (decode_curr item.curr).2 (((decode_curr item.curr).1 + 1) % 256)
                (decode_curr item.curr).2 queueidx RIGHT d3 else some d3) with
          | none => rfl
          | some d4 => rfl

theorem check_solved_congr (field : Field) {d1 d2 : taskdata} (hM : d1.M = d2.M)
    (hN : d1.N = d2.N) : check_solved field d1 = check_solved field d2 := by
  unfold check_solved
  rw [hM, hN]

theorem encode_position_congr (field : Field) {d1 d2 : taskdata} (hM : d1.M = d2.M)
    (hN : d1.N = d2.N) : encode_position field d1 = encode_position field d2 := by
  unfold encode_position
  rw [hM, hN]

theorem decode_position_congr (buffer : List Nat) (field : Field) {d1 d2 : taskdata}
    (hM : d1.M = d2.M) (hN : d1.N = d2.N) :
    decode_position buffer field d1 = decode_position buffer field d2 := by
  unfold decode_position
  rw [hM, hN]

/-- Once `solved` is set, the remaining calls of the iteration do nothing. -/
theorem run_calls_of_solved (field : Field) (x y queueidx : Nat)
    (cs : List (Bool × Nat × Nat × Nat)) (data : taskdata) (h : data.solved ≠ 0) :
    run_calls field x y queueidx cs data = some data := by
  induction cs with
  | nil => rfl
  | cons c cs ih =>
    unfold run_calls
    rw [process_coords_of_solved _ _ _ _ _ _ _ _ h, ite_self, Option.some_bind, ih]

/-- The entries that a list of calls adds to the queue are, in order, entries of some of
the calls, in the order of the calls. -/
theorem run_calls_queue (field : Field) (x y queueidx : Nat)
    (cs : List (Bool × Nat × Nat × Nat)) (data data' : taskdata)
    (h : run_calls field x y queueidx cs data = some data') :
    ∃ new, data'.queue = data.queue ++ new ∧
      (new.map queueitem.label).Sublist (cs.map (call_label queueidx)) := by
  induction cs generalizing data with
  | nil =>
    cases h
    exact ⟨[], by simp, by simp⟩
  | cons c cs ih =>
    unfold run_calls at h
    cases h1 : (if c.1 = true then
        process_coords field x y c.2.1 c.2.2.1 queueidx c.2.2.2 data else some data) with
    | none => rw [h1] at h; cases h
    | some d1 =>
      rw [h1, Option.some_bind] at h
      obtain ⟨new, hq, hsub⟩ := ih d1 h
      have hstep : d1.queue = data.queue ∨
          ∃ e : queueitem, d1.queue = data.queue ++ [e] ∧ e.label = call_label queueidx c := by
        split at h1
        · rcases process_coords_cases h1 with rfl | ⟨t, -, -, -, hs⟩ | ⟨t, -, -, -, rfl⟩
          · exact Or.inl rfl
          · exact Or.inl (show_solution_some hs).1
          · rcases (enqueue_if_unique_queue
              (candidate_item t c.2.1 c.2.2.1 queueidx c.2.2.2 data) data).1 with h2 | h2
            · exact Or.inl h2
            · exact Or.inr ⟨_, h2, rfl⟩
        · cases h1
          exact Or.inl rfl
      rcases hstep with h2 | ⟨e, h2, he⟩
      · exact ⟨new, by rw [hq, h2], by
          rw [List.map_cons]
          exact hsub.cons _⟩
      · exact ⟨e :: new, by rw [hq, h2]; simp, by
          rw [List.map_cons, List.map_cons, he]
          exact hsub.cons₂ _⟩

theorem yields_solved_congr {field : Field} {x y : Nat} {d1 d2 : taskdata}
    (hM : d1.M = d2.M) (hN : d1.N = d2.N) (c : Bool × Nat × Nat × Nat) (t : Field) :
    yields_solved field x y d1 c t ↔ yields_solved field x y d2 c t := by
  unfold yields_solved
  rw [check_solved_congr t hM hN]

/-- A call that does not yield a solved candidate returns, and leaves `solved` at 0. -/
theorem guarded_not_solved (field : Field) (x y queueidx : Nat) (c : Bool × Nat × Nat × Nat)
    (data : taskdata) (hs : data.solved = 0)
    (hc : ∀ t, ¬ yields_solved field x y data c t) :
    ∃ d1, (if c.1 = true then process_coords field x y c.2.1 c.2.2.1 queueidx c.2.2.2 data
        else some data) = some d1 ∧ d1.solved = 0 ∧ d1.M = data.M ∧ d1.N = data.N := by
  by_cases hg : c.1 = true
  · rw [if_pos hg, process_coords_eq, if_neg (by simp [hs])]
    cases hcand : candidate field x y c.2.1 c.2.2.1 with
    | none => exact ⟨data, rfl, hs, rfl, rfl⟩
    | some t =>
      have h0 : ¬ check_solved t data ≠ 0 := fun h => hc t ⟨hg, hcand, h⟩
      simp only [process_candidate_eq, if_neg h0]
      obtain ⟨-, h1, h2, h3, -⟩ := enqueue_if_unique_queue
        (candidate_item t c.2.1 c.2.2.1 queueidx c.2.2.2 data) data
      exact ⟨_, rfl, by rw [h3, hs], h1, h2⟩
  · rw [if_neg hg]
    exact ⟨data, rfl, hs, rfl, rfl⟩

/-- In a list of calls, the first call that yields a solved candidate is the one whose
candidate goes to `show_solution`; the calls before it have run with `solved` still 0 and
the calls after it do nothing. -/
theorem run_calls_first_solved (field : Field) (x y queueidx : Nat)
    (pre : List (Bool × Nat × Nat × Nat)) (c : Bool × Nat × Nat × Nat)
    (post : List (Bool × Nat × Nat × Nat)) (tmpfield : Field) (data : taskdata)
    (hs : data.solved = 0)
    (hpre : ∀ c' ∈ pre, ∀ t, ¬ yields_solved field x y data c' t)
    (hc : yields_solved field x y data c tmpfield) :
    ∃ d1, run_calls field x y queueidx pre data = some d1 ∧ d1.solved = 0 ∧
      run_calls field x y queueidx (pre ++ c :: post) data =
        show_solution tmpfield queueidx c.2.2.2 d1 := by
  induction pre generalizing data with
  | nil =>
    refine ⟨data, rfl, hs, ?_⟩
    obtain ⟨hg, hcand, hchk⟩ := hc
    simp only [List.nil_append, run_calls]
    rw [if_pos hg, process_coords_eq, if_neg (by simp [hs]), hcand]
    simp only [process_candidate_eq, if_pos hchk]
    cases hsol : show_solution tmpfield queueidx c.2.2.2 data with
    | none => rfl
    | some d' =>
      rw [Option.some_bind]
      exact run_calls_of_solved _ _ _ _ _ _ (by rw [(show_solution_some hsol).2.2.2.1]; decide)
  | cons c' pre ih =>
    obtain ⟨d1, h1, hs1, hM1, hN1⟩ := guarded_not_solved field x y queueidx c' data hs
      (hpre c' (by simp))
    obtain ⟨d2, h2, hs2, h3⟩ := ih d1 hs1
      (fun c'' hc'' t ht => hpre c'' (by simp [hc'']) t
        ((yields_solved_congr hM1 hN1 c'' t).mp ht))
      ((yields_solved_congr hM1 hN1 c tmpfield).mpr hc)
    refine ⟨d2, ?_, hs2, ?_⟩
    · simp only [run_calls]
      rw [h1, Option.some_bind, h2]
    · rw [List.cons_append, run_calls, h1, Option.some_bind, h3]

theorem dequeue_some {data : taskdata} {item : queueitem} {queueidx : Nat} {d : taskdata}
    (h : dequeue data = some (item, queueidx, d)) :
    data.queue.get? data.queuecurr = some item ∧ queueidx = data.queuecurr ∧
    d = { data with queuecurr := data.queuecurr + 1 } := by
  unfold dequeue at h
  split at h
  · cases h
  · rename_i it hit
    simp only [Option.some.injEq, Prod.mk.injEq] at h
    obtain ⟨rfl, rfl, rfl⟩ := h
    exact ⟨hit, rfl, rfl⟩

/-! ## C10: the order of the directions -/

/-- C10.  Let `solve` expand the entry `item` at index `queueidx`, with the board decoded
into `fld` and the player at `(x, y)`, while `solved` is 0.  The iteration is the four calls
of `process_coords` for `(x, y-1)` labelled `UP`, `(x, y+1)` labelled `DOWN`, `(x-1, y)`
labelled `LEFT` and `(x+1, y)` labelled `RIGHT`, each under its guard, made in this order.
The queue after the iteration is the queue before it followed by new entries whose
direction, player byte and predecessor are, in order, those of some of the four calls in
the order of the calls.  And when a call yields a candidate that passes the goal test while
no call before it in the order does, the calls before it run with `solved` still 0 and the
result of the iteration is what `show_solution` returns for that candidate and that
direction: later calls change nothing. -/
theorem solve_direction_order (field : Field) (data : taskdata) (item : queueitem)
    (queueidx : Nat) (d : taskdata) (hd : dequeue data = some (item, queueidx, d))
    (hs : data.solved = 0) :
    solve_calls (decode_curr item.curr).1 (decode_curr item.curr).2 d.M d.N =
      [(decide ((decode_curr item.curr).2 > 1), (decode_curr item.curr).1,
          (decode_curr item.curr).2 - 1, UP),
       (decide ((decode_curr item.curr).2 < d.M), (decode_curr item.curr).1,
          ((decode_curr item.curr).2 + 1) % 256, DOWN),
       (decide ((decode_curr item.curr).1 > 1), (decode_curr item.curr).1 - 1,
          (decode_curr item.curr).2, LEFT),
       (decide ((decode_curr item.curr).1 < d.N), ((decode_curr item.curr).1 + 1) % 256,
          (decode_curr item.curr).2, RIGHT)] ∧
    solve_body field data =
      (run_calls (decode_position item.position field d) (decode_curr item.curr).1
        (decode_curr item.curr).2 queueidx
        (solve_calls (decode_curr item.curr).1 (decode_curr item.curr).2 d.M d.N) d).map
        (fun d' => (decode_position item.position field d, d')) ∧
    (∀ s', solve_body field data = some s' →
      ∃ new, s'.2.queue = data.queue ++ new ∧
        (new.map queueitem.label).Sublist
          ((solve_calls (decode_curr item.curr).1 (decode_curr item.curr).2 d.M d.N).map
            (call_label queueidx))) ∧
    (∀ pre c post tmpfield,
      solve_calls (decode_curr item.curr).1 (decode_curr item.curr).2 d.M d.N
        = pre ++ c :: post →
      (∀ c' ∈ pre, ∀ t, ¬ yields_solved (decode_position item.position field d)
        (decode_curr item.curr).1 (decode_curr item.curr).2 d c' t) →
      yields_solved (decode_position item.position field d)
        (decode_curr item.curr).1 (decode_curr item.curr).2 d c tmpfield →
      ∃ d1, run_calls (decode_position item.position field d) (decode_curr item.curr).1
          (decode_curr item.curr).2 queueidx pre d = some d1 ∧ d1.solved = 0 ∧
        solve_body field data =
          (show_solution tmpfield queueidx c.2.2.2 d1).map
            (fun d' => (decode_position item.position field d, d'))) := by
  have hbody := solve_body_eq field data
  rw [hd, Option.some_bind] at hbody
  obtain ⟨-, -, hd3⟩ := dequeue_some hd
  have hsd : d.solved = 0 := by rw [hd3]; exact hs
  have hqd : d.queue = data.queue := by rw [hd3]
  refine ⟨rfl, hbody, ?_, ?_⟩
  · intro s' hs'
    rw [hbody] at hs'
    obtain ⟨d', hd', rfl⟩ := Option.map_eq_some'.mp hs'
    obtain ⟨new, h1, h2⟩ := run_calls_queue _ _ _ _ _ _ _ hd'
    exact ⟨new, by rw [h1, hqd], h2⟩
  · intro pre c post tmpfield hcalls hpre hc
    obtain ⟨d1, h1, h2, h3⟩ := run_calls_first_solved _ _ _ queueidx pre c post tmpfield d hsd
      hpre hc
    refine ⟨d1, h1, h2, ?_⟩
    rw [hbody, hcalls, h3]

/-- C10 on the first iteration for the empty 2 x 2 puzzle with the player at `(1, 1)`.  The
call for `UP` is not made; the calls for `DOWN` and for `RIGHT` would both yield a board that
passes the goal test; the result of the iteration is what `show_solution` returns for the
candidate of `DOWN`. -/
theorem solve_direction_order_witness :
    yields_solved (decode_position [8, 0] open_field { open_data with queuecurr := 1 }) 1 1
      { open_data with queuecurr := 1 } (decide (1 < 2), 2, 1, RIGHT)
      (move_field (decode_position [8, 0] open_field { open_data with queuecurr := 1 })
        1 1 2 1) ∧
    ∃ d1, run_calls (decode_position [8, 0] open_field { open_data with queuecurr := 1 })
        1 1 0 [(decide (1 > 1), 1, 0, UP)] { open_data with queuecurr := 1 } = some d1 ∧
      d1.solved = 0 ∧
      solve_body open_field open_data =
        (show_solution
          (move_field (decode_position [8, 0] open_field { open_data with queuecurr := 1 })
            1 1 1 2) 0 DOWN d1).map
          (fun d' => (decode_position [8, 0] open_field { open_data with queuecurr := 1 },
            d')) :=
  ⟨⟨by decide, by unfold candidate; rw [if_pos (by decide)], by decide⟩,
   (solve_direction_order open_field open_data
    { position := [8, 0], curr := 17, prev := 0, direction := START } 0
    { open_data with queuecurr := 1 } rfl rfl).2.2.2
    [(decide (1 > 1), 1, 0, UP)] (decide (1 < 2), 1, 2, DOWN)
    [(decide (1 > 1), 0, 1, LEFT), (decide (1 < 2), 2, 1, RIGHT)]
    (move_field (decode_position [8, 0] open_field { open_data with queuecurr := 1 }) 1 1 1 2)
    (by decide)
    (fun c' hc' t ht => by
      rw [List.mem_singleton] at hc'
      subst hc'
      exact absurd ht.1 (by decide))
    ⟨by decide, by unfold candidate; rw [if_pos (by decide)]; rfl, by decide⟩⟩

/-! ## Counting boxes -/

theorem countP_flip {α : Type} [DecidableEq α] (l : List α) (hl : l.Nodup) (p : α)
    (hp : p ∈ l) (f g : α → Bool) (hf : f p = true) (hg : g p = false)
    (hfg : ∀ q ∈ l, q ≠ p → f q = g q) : l.countP f = l.countP g + 1 := by
  induction l with
  | nil => simp at hp
  | cons a t ih =>
    obtain ⟨hat, ht⟩ := List.nodup_cons.mp hl
    by_cases hap : a = p
    · subst hap
      have hcongr : t.countP f = t.countP g :=
        List.countP_congr (fun q hq => by
          have hne : q ≠ a := fun e => hat (e ▸ hq)
          rw [hfg q (List.mem_cons_of_mem _ hq) hne])
      rw [List.countP_cons_of_pos _ _ hf, List.countP_cons_of_neg _ _ (by simp [hg]), hcongr]
    · have hpt : p ∈ t := by
        rcases List.mem_cons.mp hp with h | h
        · exact absurd h.symm hap
        · exact h
      have ih2 := ih ht hpt (fun q hq hne => hfg q (List.mem_cons_of_mem _ hq) hne)
      have hfa : f a = g a := hfg a (by simp) hap
      simp only [List.countP_cons, ih2, hfa]
      omega

theorem countP_swap {α : Type} [DecidableEq α] (l : List α) (hl : l.Nodup) (p1 p2 : α)
    (h1 : p1 ∈ l) (h2 : p2 ∈ l) (f g : α → Bool) (hf1 : f p1 = true) (hf2 : f p2 = false)
    (hg1 : g p1 = false) (hg2 : g p2 = true)
    (hfg : ∀ q ∈ l, q ≠ p1 → q ≠ p2 → f q = g q) : l.countP f = l.countP g := by
  have hne : p1 ≠ p2 := fun e => by rw [e, hf2] at hf1; cases hf1
  have e1 := countP_flip l hl p1 h1 f (fun q => if q = p1 then false else f q) hf1 (by simp)
    (fun q _ hq => by simp [hq])
  have e2 := countP_flip l hl p2 h2 g (fun q => if q = p1 then false else f q) hg2
    (by simp [hne.symm, hf2])
    (fun q hq hq2 => by
      by_cases hq1 : q = p1
      · simp [hq1, hg1]
      · simp [hq1, hfg q hq hq1 hq2])
  omega

/-- A move leaves the number of boxes of any region as it was. -/
theorem boxcount_move (region : List (Nat × Nat)) (field : Field) (x y nx ny : Nat) :
    boxcount region (move_field field x y nx ny) = boxcount region field := by
  unfold boxcount
  apply List.countP_congr
  intro p _
  rw [move_field_flag field x y nx ny BOX (by decide) (by decide)]

/-- A push of a box into a cell without a box leaves the number of boxes as it was, in any
region that holds both the cell of the box and the cell beyond. -/
theorem boxcount_push (region : List (Nat × Nat)) (hr : region.Nodup) (field : Field)
    (x y nx ny nextx nexty : Nat) (h1 : (ny, nx) ∈ region) (h2 : (nexty, nextx) ∈ region)
    (hbox : field ny nx &&& BOX ≠ 0) (hfree : field nexty nextx &&& BOX = 0) :
    boxcount region (push_field field x y nx ny nextx nexty) = boxcount region field := by
  unfold boxcount
  have hne : ¬ (ny = nexty ∧ nx = nextx) := fun e => by
    rw [e.1, e.2] at hbox
    exact hbox hfree
  symm
  apply countP_swap region hr (ny, nx) (nexty, nextx) h1 h2
  · simpa using hbox
  · simpa using hfree
  · simpa using (push_field_box field x y nx ny nextx nexty ny nx).2.1 hne ⟨rfl, rfl⟩
  · simpa using (push_field_box field x y nx ny nextx nexty nexty nextx).1 ⟨rfl, rfl⟩
  · intro q _ hq1 hq2
    have a1 : ¬ (q.1 = nexty ∧ q.2 = nextx) := fun e => hq2 (Prod.ext e.1 e.2)
    have a2 : ¬ (q.1 = ny ∧ q.2 = nx) := fun e => hq1 (Prod.ext e.1 e.2)
    rw [(push_field_box field x y nx ny nextx nexty q.1 q.2).2.2 a1 a2]

/-! ## Candidate boards keep cell values below 16 -/

theorem cell_ops_lt : ∀ c < 16, c &&& (0xff - CURR) < 16 ∧ c ||| CURR < 16 ∧
    c &&& (0xff - BOX) < 16 ∧ c ||| BOX < 16 := by
  decide

theorem move_field_lt (field : Field) (x y nx ny i j : Nat) (h : field i j < 16) :
    move_field field x y nx ny i j < 16 := by
  unfold move_field
  simp only [Field.set_apply]
  split_ifs with h3 h4 h5
  · obtain ⟨rfl, rfl⟩ := h3
    obtain ⟨rfl, rfl⟩ := h4
    exact (cell_ops_lt _ (cell_ops_lt _ h).1).2.1
  · obtain ⟨rfl, rfl⟩ := h3
    exact (cell_ops_lt _ h).2.1
  · obtain ⟨rfl, rfl⟩ := h5
    exact (cell_ops_lt _ h).1
  · exact h

theorem push_field_eq (field : Field) (x y nx ny nextx nexty : Nat) :
    push_field field x y nx ny nextx nexty =
      ((move_field field x y nx ny).set ny nx
        (move_field field x y nx ny ny nx &&& (0xff - BOX))).set nexty nextx
        (((move_field field x y nx ny).set ny nx
          (move_field field x y nx ny ny nx &&& (0xff - BOX))) nexty nextx ||| BOX) := rfl

theorem push_field_lt (field : Field) (x y nx ny nextx nexty i j : Nat) (h : field i j < 16) :
    push_field field x y nx ny nextx nexty i j < 16 := by
  have hm := move_field_lt field x y nx ny i j h
  rw [push_field_eq]
  simp only [Field.set_apply]
  split_ifs with h3 h4 h5
  · obtain ⟨rfl, rfl⟩ := h3
    obtain ⟨rfl, rfl⟩ := h4
    exact (cell_ops_lt _ (cell_ops_lt _ hm).2.2.1).2.2.2
  · obtain ⟨rfl, rfl⟩ := h3
    exact (cell_ops_lt _ hm).2.2.2
  · obtain ⟨rfl, rfl⟩ := h5
    exact (cell_ops_lt _ hm).2.2.1
  · exact hm

/-! ## The cell beyond a box -/

theorem beyond_spec : ∀ x < 16, beyond x x = x ∧ beyond x ((x + 1) % 256) = x + 2 ∧
    (1 < x → beyond x (x - 1) = x - 2) := by
  decide

theorem empty_ne_zero_iff (c : Nat) : empty c ≠ 0 ↔ c &&& WALL = 0 ∧ c &&& BOX = 0 := by
  unfold empty
  split_ifs with h
  · simp only [ne_eq, not_true_eq_false, false_iff]
    intro h2
    rcases h with h | h
    · exact h h2.1
    · exact h h2.2
  · simp only [not_or, not_not] at h
    simpa using h

/-- On an array with walls around an `M` x `N` board, `M, N ≤ 14`, and a player on the
board: every call that `solve` makes has its target cell on the board, and when the cell
beyond the target is empty it is on the board as well. -/
theorem call_inside (M N : Nat) (hM : M ≤ 14) (hN : N ≤ 14) (field : Field)
    (hwall : ∀ i < NMAX, ∀ j < NMAX, ¬ inside M N i j → field i j &&& WALL ≠ 0)
    (x y : Nat) (hxy : inside M N y x) (c : Bool × Nat × Nat × Nat)
    (hc : c ∈ solve_calls x y M N) (hg : c.1 = true) :
    inside M N c.2.2.1 c.2.1 ∧
    (empty (field (beyond y c.2.2.1) (beyond x c.2.1)) ≠ 0 →
      inside M N (beyond y c.2.2.1) (beyond x c.2.1)) := by
  obtain ⟨⟨hy1, hy2⟩, hx1, hx2⟩ := hxy
  obtain ⟨bxx, bxr, bxl⟩ := beyond_spec x (by omega)
  obtain ⟨byy, byd, byu⟩ := beyond_spec y (by omega)
  have key : ∀ i j, i < NMAX → j < NMAX → empty (field i j) ≠ 0 → inside M N i j := by
    intro i j hi hj he
    by_contra hin
    exact hwall i hi j hj hin ((empty_ne_zero_iff _).mp he).1
  simp only [solve_calls, List.mem_cons, List.mem_singleton, List.not_mem_nil, or_false] at hc
  have e1 : (x + 1) % 256 = x + 1 := Nat.mod_eq_of_lt (by omega)
  have e2 : (y + 1) % 256 = y + 1 := Nat.mod_eq_of_lt (by omega)
  rcases hc with rfl | rfl | rfl | rfl
  · have hg' : y > 1 := by simpa using hg
    dsimp only
    refine ⟨⟨⟨by omega, by omega⟩, hx1, hx2⟩, fun he => ?_⟩
    simp only [bxx, byu hg'] at he ⊢
    exact key _ _ (by unfold NMAX; omega) (by unfold NMAX; omega) he
  · have hg' : y < M := by simpa using hg
    dsimp only
    refine ⟨⟨⟨by omega, by omega⟩, hx1, hx2⟩, fun he => ?_⟩
    simp only [bxx, byd] at he ⊢
    exact key _ _ (by unfold NMAX; omega) (by unfold NMAX; omega) he
  · have hg' : x > 1 := by simpa using hg
    dsimp only
    refine ⟨⟨⟨hy1, hy2⟩, by omega, by omega⟩, fun he => ?_⟩
    simp only [byy, bxl hg'] at he ⊢
    exact key _ _ (by unfold NMAX; omega) (by unfold NMAX; omega) he
  · have hg' : x < N := by simpa using hg
    dsimp only
    refine ⟨⟨⟨hy1, hy2⟩, by omega, by omega⟩, fun he => ?_⟩
    simp only [byy, bxr] at he ⊢
    exact key _ _ (by unfold NMAX; omega) (by unfold NMAX; omega) he

/-! ## Invariants of the loop of `solve` -/

/-- The array that `decode_position` produces depends on the array before only outside the
board. -/
theorem decode_position_eq_of_outside (buffer : List Nat) (f1 f2 : Field) (data : taskdata)
    (h : ∀ i j, ¬ inside data.M data.N i j → f1 i j = f2 i j) :
    decode_position buffer f1 data = decode_position buffer f2 data := by
  funext i j
  by_cases hin : inside data.M data.N i j
  · rw [decode_position_eq, decode_position_eq]
    obtain ⟨⟨k, hk⟩, hget⟩ := List.mem_iff_get.mp (mem_cells.mpr hin)
    have h1 := (decode_fold buffer _ (nodup_cells data.M data.N)
      { field := f1, half := 0, value := 0, idx := 0 } 0 (Or.inl ⟨rfl, rfl⟩)).1 k hk
    have h2 := (decode_fold buffer _ (nodup_cells data.M data.N)
      { field := f2, half := 0, value := 0, idx := 0 } 0 (Or.inl ⟨rfl, rfl⟩)).1 k hk
    rw [hget] at h1 h2
    rw [h1, h2]
  · rw [decode_position_outside _ _ _ _ _ hin, decode_position_outside _ _ _ _ _ hin]
    exact h i j hin

theorem run_calls_inv (M N : Nat) (P : queueitem → Prop) (field : Field)
    (x y queueidx : Nat) (cs : List (Bool × Nat × Nat × Nat)) (data data' : taskdata)
    (hM : data.M = M) (hN : data.N = N) (hq : ∀ e ∈ data.queue, P e)
    (hcand : ∀ c ∈ cs, c.1 = true → ∀ tmpfield d1, d1.M = M → d1.N = N →
      candidate field x y c.2.1 c.2.2.1 = some tmpfield →
      P (candidate_item tmpfield c.2.1 c.2.2.1 queueidx c.2.2.2 d1))
    (h : run_calls field x y queueidx cs data = some data') :
    data'.M = M ∧ data'.N = N ∧ ∀ e ∈ data'.queue, P e := by
  induction cs generalizing data with
  | nil =>
    cases h
    exact ⟨hM, hN, hq⟩
  | cons c cs ih =>
    unfold run_calls at h
    cases h1 : (if c.1 = true then
        process_coords field x y c.2.1 c.2.2.1 queueidx c.2.2.2 data else some data) with
    | none => rw [h1] at h; cases h
    | some d1 =>
      rw [h1, Option.some_bind] at h
      have hstep : d1.M = M ∧ d1.N = N ∧ ∀ e ∈ d1.queue, P e := by
        split at h1
        · rename_i hg
          rcases process_coords_cases h1 with rfl | ⟨t, -, -, -, hs⟩ | ⟨t, ht, -, -, rfl⟩
          · exact ⟨hM, hN, hq⟩
          · obtain ⟨e1, e2, e3, -⟩ := show_solution_some hs
            exact ⟨by rw [e2, hM], by rw [e3, hN], by rw [e1]; exact hq⟩
          · obtain ⟨e1, e2, e3, -⟩ := enqueue_if_unique_queue
              (candidate_item t c.2.1 c.2.2.1 queueidx c.2.2.2 data) data
            refine ⟨by rw [e2, hM], by rw [e3, hN], ?_⟩
            rcases e1 with e1 | e1
            · rw [e1]; exact hq
            · rw [e1]
              intro e he
              rcases List.mem_append.mp he with he | he
              · exact hq e he
              · rw [List.mem_singleton] at he
                subst he
                exact hcand c (by simp) hg t data hM hN ht
        · cases h1
          exact ⟨hM, hN, hq⟩
      exact ih d1 hstep.1 hstep.2.1 hstep.2.2
        (fun c' hc' => hcand c' (List.mem_cons_of_mem _ hc')) h

theorem solve_body_inv (M N : Nat) (field0 : Field) (P : queueitem → Prop)
    (hP : Inherited M N field0 P) (s s' : Field × taskdata) (hs : LoopInv M N field0 P s)
    (h : solve_body s.1 s.2 = some s') : LoopInv M N field0 P s' := by
  rw [solve_body_eq] at h
  cases hd : dequeue s.2 with
  | none => rw [hd] at h; cases h
  | some r =>
    obtain ⟨item, queueidx, d⟩ := r
    rw [hd, Option.some_bind] at h
    obtain ⟨d', hd', rfl⟩ := Option.map_eq_some'.mp h
    obtain ⟨hget, -, hd3⟩ := dequeue_some hd
    have hdM : d.M = M := by rw [hd3]; exact hs.hM
    have hdN : d.N = N := by rw [hd3]; exact hs.hN
    have hdq : d.queue = s.2.queue := by rw [hd3]
    have hitem : item ∈ s.2.queue := List.get?_mem hget
    have hfld : decode_position item.position s.1 d = decode_position item.position field0 d :=
      decode_position_eq_of_outside _ _ _ _ (by rw [hdM, hdN]; exact hs.hout)
    dsimp only at hd'
    rw [hdM, hdN] at hd'
    obtain ⟨h1, h2, h3⟩ := run_calls_inv M N P _ _ _ queueidx _ d d' hdM hdN
      (by rw [hdq]; exact hs.hq)
      (fun c hc hg t d1 hM1 hN1 ht => by
        have := hP item queueidx d1 c t (hs.hq item hitem) hM1 hN1 hc hg
          (by
            rw [decode_position_congr _ _ (hM1.trans hdM.symm) (hN1.trans hdN.symm), ← hfld]
            exact ht)
        exact this) hd'
    refine ⟨h1, h2, fun i j hin => ?_, h3⟩
    dsimp only
    rw [decode_position_outside _ _ _ _ _ (by rw [hdM, hdN]; exact hin)]
    exact hs.hout i j hin

theorem solve_iter_inv (M N : Nat) (field0 : Field) (P : queueitem → Prop)
    (hP : Inherited M N field0 P) (field : Field) (data : taskdata)
    (h0 : LoopInv M N field0 P (field, data)) (k : Nat) (s : Field × taskdata)
    (h : solve_iter k field data = some s) : LoopInv M N field0 P s := by
  induction k generalizing s with
  | zero =>
    cases h
    exact h0
  | succ k ih =>
    unfold solve_iter at h
    cases h1 : solve_iter k field data with
    | none => rw [h1] at h; cases h
    | some s1 =>
      rw [h1, Option.some_bind] at h
      split at h
      · exact solve_body_inv M N field0 P hP s1 s (ih s1 h1) h
      · cases h

theorem decode_encode_curr : ∀ x < 16, ∀ y < 16, decode_curr (encode_curr x y) = (x, y) := by
  decide

/-- Every call that `solve` makes for a player on the board has its target cell on the
board. -/
theorem call_target_inside (M N x y : Nat) (hM : M ≤ 14) (hN : N ≤ 14)
    (hxy : inside M N y x) (c : Bool × Nat × Nat × Nat) (hc : c ∈ solve_calls x y M N)
    (hg : c.1 = true) : inside M N c.2.2.1 c.2.1 :=
  (call_inside M N hM hN (fun _ _ => WALL)
    (fun _ _ _ _ _ => (by decide : WALL &&& WALL ≠ 0)) x y hxy c hc hg).1

theorem playerInside_inherited (M N : Nat) (hM : M ≤ 14) (hN : N ≤ 14) (field0 : Field) :
    Inherited M N field0 (PlayerInside M N) := by
  intro item queueidx d c t hitem _ _ hc hg _
  obtain ⟨⟨h1, h2⟩, h3, h4⟩ := call_target_inside M N _ _ hM hN hitem c hc hg
  unfold PlayerInside candidate_item
  dsimp only
  rw [decode_encode_curr _ (by omega) _ (by omega)]
  exact ⟨⟨h1, h2⟩, h3, h4⟩

/-! ## Reading the puzzle -/

theorem foldlM_inv {σ α : Type} (Inv : σ → Prop) (f : σ → α → Except String σ) (l : List α)
    (hf : ∀ a ∈ l, ∀ s s', Inv s → f s a = Except.ok s' → Inv s') (s s' : σ) (hs : Inv s)
    (h : l.foldlM f s = Except.ok s') : Inv s' := by
  induction l generalizing s with
  | nil =>
    cases h
    exact hs
  | cons a l ih =>
    rw [List.foldlM_cons] at h
    cases h1 : f s a with
    | error e => rw [h1] at h; cases h
    | ok s1 =>
      rw [h1] at h
      exact ih (fun b hb => hf b (List.mem_cons_of_mem _ hb)) s1
        (hf a (by simp) s s1 hs h1) h

theorem inputInv_set {M N : Nat} {s : InputState} (hs : InputInv M N s) (i j v : Nat)
    (hin : inside M N i j) (hv : v < 16) (f : List Char) (b d : Nat) :
    InputInv M N { s with field := s.field.set i j v, boxcount := b, destcount := d, f := f } := by
  refine ⟨fun a c => ?_, fun a ha c hc hout => ?_, hs.hstart, hs.hM, hs.hN, hs.fresh, hs.hout⟩
  · simp only [Field.set_apply]
    split
    · exact hv
    · exact hs.hlt a c
  · simp only [Field.set_apply]
    rw [if_neg (fun e => hout (by rw [e.1, e.2]; exact hin))]
    exact hs.hwall a ha c hc hout

theorem inputInv_start {M N : Nat} {s : InputState} (hs : InputInv M N s) (i j v : Nat)
    (hin : inside M N i j) (hv : v < 16) (f : List Char) (b d : Nat) :
    InputInv M N { s with field := s.field.set i j v,
                          data := { s.data with xstart := j, ystart := i },
                          boxcount := b, destcount := d, f := f } := by
  have h := inputInv_set hs i j v hin hv f b d
  exact ⟨h.hlt, h.hwall, Or.inr hin, hs.hM, hs.hN,
    ⟨hs.fresh.hqueue, hs.fresh.hH, hs.fresh.hcurr, hs.fresh.hsolved⟩, hs.hout⟩

/-- Reading one cell of the board keeps the invariant of `input`. -/
theorem input_cell_inv {M N : Nat} {s s' : InputState} (hs : InputInv M N s) (i j : Nat)
    (hin : inside M N i j) (h : input_cell s i j = Except.ok s') : InputInv M N s' := by
  unfold input_cell at h
  split at h
  · cases h
  · rename_i c f _
    split_ifs at h <;> cases h <;> first
      | exact inputInv_set hs i j BOX hin (by decide) _ _ _
      | exact inputInv_set hs i j (BOX ||| DEST) hin (by decide) _ _ _
      | exact inputInv_set hs i j DEST hin (by decide) _ _ _
      | exact inputInv_set hs i j WALL hin (by decide) _ _ _
      | exact inputInv_set hs i j 0 hin (by decide) _ _ _
      | exact inputInv_start hs i j CURR hin (by decide) _ _ _
      | exact inputInv_start hs i j (CURR ||| DEST) hin (by decide) _ _ _

/-- The array and context that `input` returns for an `M` x `N` file, `M, N ≤ 14`, form a
valid puzzle. -/
theorem input_valid (M N : Nat) (f : List Char) (field : Field) (data : taskdata)
    (hM : M ≤ 14) (hN : N ≤ 14) (h : input M N f = Except.ok (field, data)) :
    ValidPuzzle field data := by
  unfold input at h
  dsimp only at h
  split at h
  · cases h
  · rename_i s hs
    have hinv : InputInv M N s := by
      refine foldlM_inv (InputInv M N) _ (List.range' 1 M) ?_ _ s ?_ hs
      · intro i hi s1 s2 h1 h2
        refine foldlM_inv (InputInv M N) _ (List.range' 1 N) ?_ s1 s2 h1 h2
        intro j hj s3 s4 h3 h4
        have hi' := List.mem_range'_1.mp hi
        have hj' := List.mem_range'_1.mp hj
        exact input_cell_inv h3 i j ⟨⟨hi'.1, by omega⟩, hj'.1, by omega⟩ h4
      · refine ⟨fun i j => ?_, fun i hi j hj _ => ?_, Or.inl rfl, rfl, rfl,
          ⟨rfl, fun _ => rfl, rfl, rfl⟩, rfl⟩
        · dsimp only
          split <;> decide
        · dsimp only
          rw [if_pos ⟨hi, hj⟩]
    split_ifs at h with h1 h2
    injection h with h
    injection h with hf hd
    subst hf hd
    have hst : inside M N s.data.ystart s.data.xstart := by
      rcases hinv.hstart with h3 | h3
      · exact absurd h3 h2
      · exact h3
    obtain ⟨⟨y1, y2⟩, x1, x2⟩ := hst
    refine ⟨⟨hinv.fresh.hqueue, hinv.fresh.hH, hinv.fresh.hcurr, hinv.fresh.hsolved⟩,
      ?_, ?_, ?_, ?_, ?_, ?_⟩
    · show 1 ≤ s.data.M ∧ s.data.M ≤ 14
      rw [hinv.hM]; omega
    · show 1 ≤ s.data.N ∧ s.data.N ≤ 14
      rw [hinv.hN]; omega
    · show 1 ≤ s.data.xstart ∧ s.data.xstart ≤ s.data.N
      rw [hinv.hN]; omega
    · show 1 ≤ s.data.ystart ∧ s.data.ystart ≤ s.data.M
      rw [hinv.hM]; omega
    · intro i hi j hj hout
      have hout' : ¬ inside M N i j := by
        have e1 : s.data.M = M := hinv.hM
        have e2 : s.data.N = N := hinv.hN
        simpa [e1, e2] using hout
      rw [hinv.hwall i hi j hj hout']
      decide
    · intro i j _
      exact hinv.hlt i j

/-! ## Entering the loop -/

theorem solve_init_eq (field : Field) (data0 : taskdata) (h0 : Fresh data0) :
    (solve_init field data0).queue =
      [{ position := encode_position field data0,
         curr := encode_curr (data0.xstart % 256) (data0.ystart % 256), prev := 0,
         direction := START }] ∧
    (solve_init field data0).M = data0.M ∧
    (solve_init field data0).N = data0.N ∧
    (solve_init field data0).solved = 0 ∧
    (solve_init field data0).queuecurr = 0 := by
  unfold solve_init
  dsimp only
  refine ⟨?_, ?_, ?_, ?_, ?_⟩
  · have hq : ({ data0 with codelength :=
        (data0.N * data0.M % 2 ^ 32 / 2 + data0.N * data0.M % 2 ^ 32 % 2) % 2 ^ 32 }
        : taskdata).queue = [] := h0.hqueue
    rw [enqueue_first hq h0.hH]
    rfl
  · rw [(enqueue_if_unique_queue _ _).2.1]
  · rw [(enqueue_if_unique_queue _ _).2.2.1]
  · rw [(enqueue_if_unique_queue _ _).2.2.2.1]
    exact h0.hsolved
  · rw [(enqueue_if_unique_queue _ _).2.2.2.2.1]
    exact h0.hcurr

/-- The loop of `solve` is entered with the invariant for any property that the root entry
has. -/
theorem solve_init_inv (field0 : Field) (data0 : taskdata) (h0 : Fresh data0)
    (P : queueitem → Prop)
    (hP : P { position := encode_position field0 data0,
              curr := encode_curr (data0.xstart % 256) (data0.ystart % 256), prev := 0,
              direction := START }) :
    LoopInv data0.M data0.N field0 P (field0, solve_init field0 data0) := by
  obtain ⟨h1, h2, h3, -, -⟩ := solve_init_eq field0 data0 h0
  refine ⟨h2, h3, fun _ _ _ => rfl, fun e he => ?_⟩
  rw [h1, List.mem_singleton] at he
  subst he
  exact hP

theorem root_playerInside (data0 : taskdata) (hM : data0.M ≤ 14) (hN : data0.N ≤ 14)
    (hx : 1 ≤ data0.xstart ∧ data0.xstart ≤ data0.N)
    (hy : 1 ≤ data0.ystart ∧ data0.ystart ≤ data0.M) (position : List Nat) :
    PlayerInside data0.M data0.N
      { position := position, curr := encode_curr (data0.xstart % 256) (data0.ystart % 256),
        prev := 0, direction := START } := by
  unfold PlayerInside
  dsimp only
  rw [Nat.mod_eq_of_lt (by omega : data0.xstart < 256),
    Nat.mod_eq_of_lt (by omega : data0.ystart < 256),
    decode_encode_curr _ (by omega) _ (by omega)]
  exact ⟨hy, hx⟩

/-- During `solve` on a puzzle with `M, N ≤ 14` and the start cell on the board, the array
keeps its content outside the board and every queue entry stores a player cell on the
board. -/
theorem solve_iter_player (field0 : Field) (data0 : taskdata) (h0 : Fresh data0)
    (hM : data0.M ≤ 14) (hN : data0.N ≤ 14)
    (hx : 1 ≤ data0.xstart ∧ data0.xstart ≤ data0.N)
    (hy : 1 ≤ data0.ystart ∧ data0.ystart ≤ data0.M) (k : Nat) (s : Field × taskdata)
    (h : solve_iter k field0 (solve_init field0 data0) = some s) :
    LoopInv data0.M data0.N field0 (PlayerInside data0.M data0.N) s :=
  solve_iter_inv data0.M data0.N field0 _ (playerInside_inherited _ _ hM hN field0) _ _
    (solve_init_inv field0 data0 h0 _ (root_playerInside data0 hM hN hx hy _)) k s h

theorem goodBoard_congr (M N : Nat) (field0 b b' : Field)
    (h : ∀ i j, inside M N i j → b' i j = b i j) (hb : GoodBoard M N field0 b) :
    GoodBoard M N field0 b' := by
  refine ⟨fun i j hin => ?_, ?_⟩
  · rw [h i j hin]
    exact hb.1 i j hin
  · rw [← hb.2]
    unfold boxcount
    apply List.countP_congr
    intro p hp
    rw [h p.1 p.2 (mem_cells.mp hp)]

/-- A candidate built for a call of `solve` from a good board with walls around is good. -/
theorem candidate_good (M N : Nat) (hM : M ≤ 14) (hN : N ≤ 14) (field0 b : Field)
    (hb : GoodBoard M N field0 b)
    (hwall : ∀ i < NMAX, ∀ j < NMAX, ¬ inside M N i j → b i j &&& WALL ≠ 0)
    (x y : Nat) (hxy : inside M N y x) (c : Bool × Nat × Nat × Nat)
    (hc : c ∈ solve_calls x y M N) (hg : c.1 = true) (t : Field)
    (ht : candidate b x y c.2.1 c.2.2.1 = some t) : GoodBoard M N field0 t := by
  obtain ⟨a1, a2⟩ := call_inside M N hM hN b hwall x y hxy c hc hg
  unfold candidate at ht
  split at ht
  · cases ht
    refine ⟨fun i j hin => ⟨move_field_lt _ _ _ _ _ _ _ (hb.1 i j hin).1, ?_, ?_⟩, ?_⟩
    · rw [move_field_flag _ _ _ _ _ WALL (by decide) (by decide)]
      exact (hb.1 i j hin).2.1
    · rw [move_field_flag _ _ _ _ _ DEST (by decide) (by decide)]
      exact (hb.1 i j hin).2.2
    · rw [boxcount_move]
      exact hb.2
  · split at ht
    · rename_i hbox
      split at ht
      · rename_i hfree
        cases ht
        refine ⟨fun i j hin => ⟨push_field_lt _ _ _ _ _ _ _ _ _ (hb.1 i j hin).1, ?_, ?_⟩, ?_⟩
        · rw [push_field_flag _ _ _ _ _ _ _ WALL (by decide) (by decide) (by decide)
            (by decide)]
          exact (hb.1 i j hin).2.1
        · rw [push_field_flag _ _ _ _ _ _ _ DEST (by decide) (by decide) (by decide)
            (by decide)]
          exact (hb.1 i j hin).2.2
        · rw [boxcount_push _ (nodup_cells M N) _ _ _ _ _ _ _ (mem_cells.mpr a1)
            (mem_cells.mpr (a2 hfree)) hbox ((empty_ne_zero_iff _).mp hfree).2]
          exact hb.2
      · cases ht
    · cases ht

theorem goodEntry_inherited (M N : Nat) (hM : M ≤ 14) (hN : N ≤ 14) (field0 : Field)
    (hwall : ∀ i < NMAX, ∀ j < NMAX, ¬ inside M N i j → field0 i j &&& WALL ≠ 0) :
    Inherited M N field0 (GoodEntry M N field0) := by
  intro item queueidx d c t hitem hdM hdN hc hg ht
  obtain ⟨hboard, hplayer⟩ := hitem
  have hcongr : decode_position item.position field0 d =
      decode_position item.position field0 (taskdata.init M N 0 0) :=
    decode_position_congr _ _ hdM hdN
  rw [hcongr] at ht
  have hw : ∀ i < NMAX, ∀ j < NMAX, ¬ inside M N i j →
      decode_position item.position field0 (taskdata.init M N 0 0) i j &&& WALL ≠ 0 := by
    intro i hi j hj hin
    rw [decode_position_outside item.position field0 (taskdata.init M N 0 0) i j hin]
    exact hwall i hi j hj hin
  have hgood := candidate_good M N hM hN field0 _ hboard hw _ _ hplayer c hc hg t ht
  refine ⟨?_, playerInside_inherited M N hM hN field0 item queueidx d c t hplayer hdM hdN hc hg
    (by rw [hcongr]; exact ht)⟩
  apply goodBoard_congr M N field0 t _ _ hgood
  intro i j hin
  show decode_position (encode_position t d) field0 (taskdata.init M N 0 0) i j = t i j
  have henc : encode_position t d = encode_position t (taskdata.init M N 0 0) :=
    @encode_position_congr t d (taskdata.init M N 0 0) hdM hdN
  rw [henc]
  exact decode_encode_inside t field0 (taskdata.init M N 0 0)
    (fun i j h1 h2 h3 h4 => (hgood.1 i j ⟨⟨h1, h2⟩, h3, h4⟩).1) i j hin.1 hin.2

/-- During `solve` on a valid puzzle every queue entry is good. -/
theorem solve_iter_good (field0 : Field) (data0 : taskdata) (hv : ValidPuzzle field0 data0)
    (k : Nat) (s : Field × taskdata)
    (h : solve_iter k field0 (solve_init field0 data0) = some s) :
    LoopInv data0.M data0.N field0 (GoodEntry data0.M data0.N field0) s := by
  refine solve_iter_inv data0.M data0.N field0 _
    (goodEntry_inherited _ _ hv.hM.2 hv.hN.2 field0 hv.hwall) _ _
    (solve_init_inv field0 data0 hv.fresh _ ⟨?_, ?_⟩) k s h
  · apply goodBoard_congr _ _ field0 field0 _ _
      ⟨fun i j hin => ⟨hv.hcell i j hin, rfl, rfl⟩, rfl⟩
    intro i j hin
    dsimp only
    have henc : encode_position field0 data0 =
        encode_position field0 (taskdata.init data0.M data0.N 0 0) :=
      @encode_position_congr field0 data0 (taskdata.init data0.M data0.N 0 0) rfl rfl
    rw [henc]
    exact decode_encode_inside field0 field0 (taskdata.init data0.M data0.N 0 0)
      (fun i j h1 h2 h3 h4 => hv.hcell i j ⟨⟨h1, h2⟩, h3, h4⟩) i j hin.1 hin.2
  · exact root_playerInside data0 hv.hM.2 hv.hN.2 hv.hx hv.hy _

/-! ## The puzzles used as instances -/

theorem row_valid : ValidPuzzle row_field (input_data 1 3 ['s', 'x', 'o']) :=
  input_valid 1 3 ['s', 'x', 'o'] _ _ (by decide) (by decide) rfl

theorem corner_valid : ValidPuzzle corner_field corner_data :=
  input_valid 2 2 ['s', 'x', '.', 'o'] _ _ (by decide) (by decide) rfl

/-! ## C6: pushes stay on the board -/

/-- A call of `process_coords` whose target cell holds a box.  If the call builds a
candidate, or changes the context it is given, then the cell beyond the box is empty; and
the candidate it builds is the push, which is the board it hands to the goal test and to the
queue. -/
theorem candidate_of_box (field : Field) (x y nx ny : Nat) (h2 : field ny nx &&& BOX ≠ 0) :
    (((∃ t, candidate field x y nx ny = some t) ∨
        (∃ d' p dir, process_coords field x y nx ny p dir d' ≠ some d')) →
      empty (field (beyond y ny) (beyond x nx)) ≠ 0) ∧
    ∀ t, candidate field x y nx ny = some t →
      t = push_field field x y nx ny (beyond x nx) (beyond y ny) ∧
      ∀ d' p dir, d'.solved = 0 →
        process_coords field x y nx ny p dir d' = process_candidate t nx ny p dir d' := by
  have h1 : ¬ empty (field ny nx) ≠ 0 := fun h => h2 ((empty_ne_zero_iff _).mp h).2
  have hc : ∀ t, candidate field x y nx ny = some t →
      empty (field (beyond y ny) (beyond x nx)) ≠ 0 ∧
      t = push_field field x y nx ny (beyond x nx) (beyond y ny) := by
    intro t ht
    unfold candidate at ht
    rw [if_neg h1, if_pos h2] at ht
    by_cases h3 : empty (field (beyond y ny) (beyond x nx)) ≠ 0
    · rw [if_pos h3] at ht
      exact ⟨h3, (Option.some.inj ht).symm⟩
    · rw [if_neg h3] at ht
      cases ht
  refine ⟨?_, ?_⟩
  · rintro (⟨t, ht⟩ | ⟨d', p, dir, hne⟩)
    · exact (hc t ht).1
    · rw [process_coords_eq] at hne
      by_cases hs : d'.solved ≠ 0
      · rw [if_pos hs] at hne
        exact absurd rfl hne
      · rw [if_neg hs] at hne
        cases hcand : candidate field x y nx ny with
        | none =>
          rw [hcand] at hne
          exact absurd rfl hne
        | some t => exact (hc t hcand).1
  · intro t ht
    refine ⟨(hc t ht).2, ?_⟩
    intro d' p dir hs
    rw [process_coords_eq, if_neg (by simp [hs]), ht]

/-- C6.  Take a puzzle with `M, N ≤ 14`, the start cell on the board and `WALL` on every
cell of the array outside rows `1..M`, columns `1..N`, in a context where `solve` has not
started.  At any iteration of `solve`, let `item` be the entry expanded, its board decoded
into the array, and `(x, y)` its player.  For every call
`process_coords(field, x, y, nx, ny, ..)` the iteration makes whose target `field[ny][nx]`
holds a box: `(nx, ny)` lies in columns `1..N`, rows `1..M`; if the call builds a candidate,
or changes any context it is run in (it stores the candidate or reports a solution), then
the cell beyond lies in columns `1..N`, rows `1..M` and has neither `WALL` nor `BOX` in the
board expanded; and the candidate built is the push of that box into the cell beyond, the
board `process_coords` hands to the goal test and to the queue. -/
theorem push_candidates_legal (field0 : Field) (data0 : taskdata) (h0 : Fresh data0)
    (hM : data0.M ≤ 14) (hN : data0.N ≤ 14)
    (hx : 1 ≤ data0.xstart ∧ data0.xstart ≤ data0.N)
    (hy : 1 ≤ data0.ystart ∧ data0.ystart ≤ data0.M)
    (hwall : ∀ i < NMAX, ∀ j < NMAX, ¬ inside data0.M data0.N i j → field0 i j &&& WALL ≠ 0)
    (k : Nat) (s : Field × taskdata)
    (hk : solve_iter k field0 (solve_init field0 data0) = some s)
    (item : queueitem) (queueidx : Nat) (d : taskdata)
    (hd : dequeue s.2 = some (item, queueidx, d))
    (c : Bool × Nat × Nat × Nat)
    (hc : c ∈ solve_calls (decode_curr item.curr).1 (decode_curr item.curr).2 d.M d.N)
    (hg : c.1 = true)
    (h2 : decode_position item.position s.1 d c.2.2.1 c.2.1 &&& BOX ≠ 0) :
    inside data0.M data0.N c.2.2.1 c.2.1 ∧
    (((∃ t, candidate (decode_position item.position s.1 d) (decode_curr item.curr).1
          (decode_curr item.curr).2 c.2.1 c.2.2.1 = some t) ∨
        (∃ d' p dir, process_coords (decode_position item.position s.1 d)
          (decode_curr item.curr).1 (decode_curr item.curr).2 c.2.1 c.2.2.1 p dir d'
            ≠ some d')) →
      inside data0.M data0.N (beyond (decode_curr item.curr).2 c.2.2.1)
        (beyond (decode_curr item.curr).1 c.2.1) ∧
      decode_position item.position s.1 d (beyond (decode_curr item.curr).2 c.2.2.1)
        (beyond (decode_curr item.curr).1 c.2.1) &&& WALL = 0 ∧
      decode_position item.position s.1 d (beyond (decode_curr item.curr).2 c.2.2.1)
        (beyond (decode_curr item.curr).1 c.2.1) &&& BOX = 0) ∧
    ∀ t, candidate (decode_position item.position s.1 d) (decode_curr item.curr).1
        (decode_curr item.curr).2 c.2.1 c.2.2.1 = some t →
      t = push_field (decode_position item.position s.1 d) (decode_curr item.curr).1
        (decode_curr item.curr).2 c.2.1 c.2.2.1 (beyond (decode_curr item.curr).1 c.2.1)
        (beyond (decode_curr item.curr).2 c.2.2.1) ∧
      ∀ d' p dir, d'.solved = 0 →
        process_coords (decode_position item.position s.1 d) (decode_curr item.curr).1
          (decode_curr item.curr).2 c.2.1 c.2.2.1 p dir d' =
        process_candidate t c.2.1 c.2.2.1 p dir d' := by
  have hinv := solve_iter_player field0 data0 h0 hM hN hx hy k s hk
  obtain ⟨hget, -, hd3⟩ := dequeue_some hd
  have hdM : d.M = data0.M := by rw [hd3]; exact hinv.hM
  have hdN : d.N = data0.N := by rw [hd3]; exact hinv.hN
  have hitem : PlayerInside data0.M data0.N item := hinv.hq item (List.get?_mem hget)
  rw [hdM, hdN] at hc
  have hw : ∀ i < NMAX, ∀ j < NMAX, ¬ inside data0.M data0.N i j →
      decode_position item.position s.1 d i j &&& WALL ≠ 0 := by
    intro i hi j hj hin
    rw [decode_position_outside _ _ _ _ _ (by rw [hdM, hdN]; exact hin), hinv.hout i j hin]
    exact hwall i hi j hj hin
  obtain ⟨a1, a2⟩ := call_inside _ _ hM hN _ hw _ _ hitem c hc hg
  obtain ⟨b1, b2⟩ := candidate_of_box (decode_position item.position s.1 d)
    (decode_curr item.curr).1 (decode_curr item.curr).2 c.2.1 c.2.2.1 h2
  refine ⟨a1, fun hgen => ?_, b2⟩
  have h3 := b1 hgen
  exact ⟨a2 h3, ((empty_ne_zero_iff _).mp h3).1, ((empty_ne_zero_iff _).mp h3).2⟩

/-- C6 on the first iteration for the puzzle `s x o`: the call for `RIGHT` finds the box at
column 2 and builds a candidate; the box and the cell beyond, column 3, are on the 1 x 3
board, and the cell beyond has no wall and no box. -/
theorem push_candidates_legal_witness :
    inside 1 3 1 2 ∧ inside 1 3 (beyond 1 1) (beyond 1 2) ∧
    decode_position [40, 4] row_field { row_data with queuecurr := 1 }
      (beyond 1 1) (beyond 1 2) &&& WALL = 0 ∧
    decode_position [40, 4] row_field { row_data with queuecurr := 1 }
      (beyond 1 1) (beyond 1 2) &&& BOX = 0 :=
  have h := push_candidates_legal row_field (input_data 1 3 ['s', 'x', 'o']) row_valid.fresh
    (by decide) (by decide) (by decide) (by decide) (by decide) 0 (row_field, row_data) rfl
    { position := [40, 4], curr := 17, prev := 0, direction := START } 0
    { row_data with queuecurr := 1 } rfl (decide (1 < 3), 2, 1, RIGHT) (by decide)
    (by decide) (by decide)
  have hgen := h.2.1 (Or.inl ⟨_, by
    unfold candidate
    rw [if_neg (by decide), if_pos (by decide), if_pos (by decide)]⟩)
  ⟨h.1, hgen⟩

/-! ## C9: walls, goals and the number of boxes -/

/-- C9.  First, for every source board and every candidate board that `process_coords`
builds from it, by a move or by a push: the `WALL` and `DEST` flags of every cell are the
same in both, and the number of cells with the `BOX` flag is the same over any set of cells
that holds the target cell and, for a push, the cell beyond it.  Second, during `solve` on a
valid puzzle, every board stored in the queue has, on rows `1..M`, columns `1..N`, the
`WALL` and `DEST` flags of the initial board and as many cells with `BOX` as the initial
board. -/
theorem boards_keep_layout :
    (∀ (field : Field) (x y nx ny : Nat) (tmpfield : Field),
      candidate field x y nx ny = some tmpfield →
      (∀ i j, tmpfield i j &&& WALL = field i j &&& WALL ∧
        tmpfield i j &&& DEST = field i j &&& DEST) ∧
      (∀ region : List (Nat × Nat), region.Nodup → (ny, nx) ∈ region →
        (empty (field ny nx) = 0 → (beyond y ny, beyond x nx) ∈ region) →
        boxcount region tmpfield = boxcount region field)) ∧
    (∀ (field0 : Field) (data0 : taskdata), ValidPuzzle field0 data0 →
      ∀ (k : Nat) (s : Field × taskdata),
      solve_iter k field0 (solve_init field0 data0) = some s →
      ∀ e ∈ s.2.queue,
        (∀ i j, inside data0.M data0.N i j →
          decode_position e.position field0 s.2 i j &&& WALL = field0 i j &&& WALL ∧
          decode_position e.position field0 s.2 i j &&& DEST = field0 i j &&& DEST) ∧
        boxcount (cells data0.M data0.N) (decode_position e.position field0 s.2) =
          boxcount (cells data0.M data0.N) field0) := by
  constructor
  · intro field x y nx ny t ht
    unfold candidate at ht
    split at ht
    · cases ht
      refine ⟨fun i j => ⟨move_field_flag _ _ _ _ _ WALL (by decide) (by decide) i j,
        move_field_flag _ _ _ _ _ DEST (by decide) (by decide) i j⟩, fun region _ _ _ => ?_⟩
      exact boxcount_move region field x y nx ny
    · rename_i hne
      split at ht
      · rename_i hbox
        split at ht
        · rename_i hfree
          cases ht
          refine ⟨fun i j =>
            ⟨push_field_flag _ _ _ _ _ _ _ WALL (by decide) (by decide) (by decide)
              (by decide) i j,
             push_field_flag _ _ _ _ _ _ _ DEST (by decide) (by decide) (by decide)
              (by decide) i j⟩, fun region hr h1 h2 => ?_⟩
          exact boxcount_push region hr field x y nx ny _ _ h1 (h2 (by simpa using hne)) hbox
            ((empty_ne_zero_iff _).mp hfree).2
        · cases ht
      · cases ht
  · intro field0 data0 hv k s hk e he
    have hinv := solve_iter_good field0 data0 hv k s hk
    obtain ⟨hboard, -⟩ := hinv.hq e he
    have hcongr : decode_position e.position field0 s.2 =
        decode_position e.position field0 (taskdata.init data0.M data0.N 0 0) :=
      @decode_position_congr e.position field0 s.2 (taskdata.init data0.M data0.N 0 0)
        hinv.hM hinv.hN
    rw [hcongr]
    exact ⟨fun i j hin => (hboard.1 i j hin).2, hboard.2⟩

/-- C9 on two puzzles.  In `s x o` the push of the first iteration keeps the wall and goal
flags of every cell and the number of boxes on the board.  In the 2 x 2 puzzle `s x` / `. o`
the loop runs two iterations, which store a second and a third entry, and each of the three
boards stored has one box on the board, as the initial board has. -/
theorem boards_keep_layout_witness :
    ((∀ i j, push_field row_field 1 1 2 1 3 1 i j &&& WALL = row_field i j &&& WALL ∧
        push_field row_field 1 1 2 1 3 1 i j &&& DEST = row_field i j &&& DEST) ∧
      boxcount (cells 1 3) (push_field row_field 1 1 2 1 3 1) = boxcount (cells 1 3) row_field) ∧
    ∃ s, solve_iter 2 corner_field (solve_init corner_field corner_data) = some s ∧
      s.2.queue.length = 3 ∧
      ∀ e ∈ s.2.queue, boxcount (cells 2 2) (decode_position e.position corner_field s.2) = 1 :=
  ⟨⟨(boards_keep_layout.1 row_field 1 1 2 1 (push_field row_field 1 1 2 1 3 1)
      (by unfold candidate; rw [if_neg (by decide), if_pos (by decide), if_pos (by decide)];
          rfl)).1,
    (boards_keep_layout.1 row_field 1 1 2 1 (push_field row_field 1 1 2 1 3 1)
      (by unfold candidate; rw [if_neg (by decide), if_pos (by decide), if_pos (by decide)];
          rfl)).2
      (cells 1 3) (by decide) (by decide) (fun _ => by decide)⟩,
   ⟨_, rfl, by decide, fun e he =>
      (boards_keep_layout.2 corner_field corner_data corner_valid 2 _ rfl e he).2⟩⟩

/-! ## C20: the goal test on square boards -/

/-- What `check_solved` tests: it returns 1 exactly when no cell `field[j][i]` with
`1 ≤ i ≤ M` and `1 ≤ j ≤ N` has `DEST` without `BOX`, and 0 otherwise. -/
theorem check_solved_iff (field : Field) (data : taskdata) :
    (check_solved field data = 1 ↔
      ∀ i j, 1 ≤ i → i ≤ data.M → 1 ≤ j → j ≤ data.N →
        field j i &&& DEST ≠ 0 → field j i &&& BOX ≠ 0) ∧
    (check_solved field data = 0 ∨ check_solved field data = 1) := by
  unfold check_solved
  split
  · rename_i h
    refine ⟨⟨fun h0 => absurd h0 (by decide), fun hall => ?_⟩, Or.inl rfl⟩
    rw [List.any_eq_true] at h
    obtain ⟨i, hi, h⟩ := h
    rw [List.any_eq_true] at h
    obtain ⟨j, hj, h⟩ := h
    rw [decide_eq_true_eq] at h
    have hi' := List.mem_range'_1.mp hi
    have hj' := List.mem_range'_1.mp hj
    exact absurd h.2 (hall i j hi'.1 (by omega) hj'.1 (by omega) h.1)
  · rename_i h
    refine ⟨⟨fun _ i j h1 h2 h3 h4 hd hb => h ?_, fun _ => rfl⟩, Or.inr rfl⟩
    rw [List.any_eq_true]
    refine ⟨i, List.mem_range'_1.mpr ⟨h1, by omega⟩, ?_⟩
    rw [List.any_eq_true]
    refine ⟨j, List.mem_range'_1.mpr ⟨h3, by omega⟩, ?_⟩
    rw [decide_eq_true_eq]
    exact ⟨hd, by simpa using hb⟩

/-- C20.  On a square board (`M = N`, `1 ≤ M ≤ 15`), for every field, `check_solved` returns
1 if and only if every cell `field[i][j]` with `1 ≤ i, j ≤ M` that has the `DEST` flag also
has the `BOX` flag: the cells `field[j][i]` it reads, `i` in `1..M` and `j` in `1..N`, are
then the cells of the board. -/
theorem check_solved_square (field : Field) (data : taskdata) (hsq : data.M = data.N)
    (_hM : 1 ≤ data.M ∧ data.M ≤ 15) :
    check_solved field data = 1 ↔
      ∀ i j, 1 ≤ i → i ≤ data.M → 1 ≤ j → j ≤ data.M →
        field i j &&& DEST ≠ 0 → field i j &&& BOX ≠ 0 := by
  rw [(check_solved_iff field data).1, ← hsq]
  exact ⟨fun h i j h1 h2 h3 h4 => h j i h3 h4 h1 h2, fun h i j h1 h2 h3 h4 => h j i h3 h4 h1 h2⟩

/-- C20 on the 2 x 2 board of the puzzle `s x` / `. o`: the goal at `(2, 2)` has no box, so
the goal test does not return 1. -/
theorem check_solved_square_witness : ¬ check_solved corner_field corner_data = 1 :=
  fun h => absurd
    ((check_solved_square corner_field corner_data (by decide) (by decide)).mp h 2 2
      (by decide) (by decide) (by decide) (by decide) (by decide))
    (by decide)

/-! ## C14: the player byte -/

/-- C14.  For all values `x` and `y` (bytes in particular),
`decode_curr (encode_curr x y)` is `(x, y)` if and only if `x ≤ 15` and `y ≤ 15`.  So every
coordinate in `0..15` makes the round trip, and a coordinate equal to `NMAX = 16` does not,
in either position. -/
theorem decode_encode_curr_iff :
    (∀ x y, decode_curr (encode_curr x y) = (x, y) ↔ x ≤ 15 ∧ y ≤ 15) ∧
    (∀ y, decode_curr (encode_curr NMAX y) ≠ (NMAX, y)) ∧
    (∀ x, decode_curr (encode_curr x NMAX) ≠ (x, NMAX)) := by
  have main : ∀ x y, decode_curr (encode_curr x y) = (x, y) ↔ x ≤ 15 ∧ y ≤ 15 := by
    intro x y
    constructor
    · intro h
      have h1 : encode_curr x y >>> 4 = x := congrArg Prod.fst h
      have h2 : encode_curr x y &&& 0x0f = y := congrArg Prod.snd h
      have hlt : encode_curr x y < 256 := Nat.mod_lt _ (by decide)
      constructor
      · rw [← h1, Nat.shiftRight_eq_div_pow]
        have : encode_curr x y / 2 ^ 4 < 16 := by
          apply Nat.div_lt_of_lt_mul
          exact hlt
        omega
      · rw [← h2]
        exact Nat.and_le_right
    · rintro ⟨hx, hy⟩
      exact decode_encode_curr x (by omega) y (by omega)
  refine ⟨main, fun y h => ?_, fun x h => ?_⟩
  · have := ((main NMAX y).mp h).1
    exact absurd this (by decide)
  · have := ((main x NMAX).mp h).2
    exact absurd this (by decide)

/-! ## C13: the layout of the encoded board -/

theorem cells_row_length (N s : Nat) (i : Nat) :
    ((List.range' s N).map fun j => (i, j)).length = N := by
  simp

theorem cellsFrom_getElem? (N : Nat) (hN : 0 < N) (M s c : Nat) (hc : c < M * N) :
    ((List.range' s M).flatMap fun i => (List.range' 1 N).map fun j => (i, j))[c]? =
      some (c / N + s, c % N + 1) := by
  induction M generalizing s c with
  | zero => simp at hc
  | succ M ih =>
    rw [List.range'_succ, List.flatMap_cons]
    by_cases hlt : c < N
    · rw [List.getElem?_append_left (by simpa using hlt)]
      rw [List.getElem?_map, List.getElem?_range' _ _ hlt]
      rw [Nat.div_eq_of_lt hlt, Nat.mod_eq_of_lt hlt]
      simp [Nat.add_comm]
    · have hge : N ≤ c := Nat.le_of_not_lt hlt
      rw [List.getElem?_append_right (by simpa using hge)]
      simp only [List.length_map, List.length_range']
      have hc' : c - N < M * N := by
        have : (M + 1) * N = M * N + N := Nat.succ_mul M N
        omega
      rw [ih (s + 1) (c - N) hc']
      have h1 : c / N = (c - N) / N + 1 := by
        conv_lhs => rw [show c = (c - N) + N by omega]
        exact Nat.add_div_right _ hN
      have h2 : c % N = (c - N) % N := by
        conv_lhs => rw [show c = (c - N) + N by omega]
        exact Nat.add_mod_right _ _
      rw [h1, h2]
      congr 2
      omega

theorem cellsFrom_length (N M s : Nat) :
    ((List.range' s M).flatMap fun i => (List.range' 1 N).map fun j => (i, j)).length
      = M * N := by
  induction M generalizing s with
  | zero => simp
  | succ M ih =>
    rw [List.range'_succ, List.flatMap_cons, List.length_append, ih]
    simp [Nat.succ_mul, Nat.add_comm]

theorem cells_length (M N : Nat) : (cells M N).length = M * N :=
  cellsFrom_length N M 1

/-- The cells in loop order are the cells in row-major order: number `c` is row
`c / N + 1`, column `c % N + 1`. -/
theorem cells_getElem? (M N c : Nat) (hc : c < M * N) :
    (cells M N)[c]? = some (c / N + 1, c % N + 1) := by
  have hN : 0 < N := by
    rcases Nat.eq_zero_or_pos N with h | h
    · rw [h] at hc; simp at hc
    · exact h
  exact cellsFrom_getElem? N hN M 1 c hc

theorem pack_length (vs : List Nat) : (pack vs).length = (vs.length + 1) / 2 := by
  induction vs using pack.induct with
  | case1 => rfl
  | case2 a => simp [pack]
  | case3 a b r ih =>
    rw [pack, List.length_cons, ih]
    simp only [List.length_cons]
    omega

/-- With an odd number of cells, the high half of the last byte is 0. -/
theorem pack_last_high (vs : List Nat) (hvs : ∀ v ∈ vs, v < 16) (hodd : vs.length % 2 = 1) :
    (pack vs).getD (vs.length / 2) 0 >>> 4 = 0 := by
  induction vs using pack.induct with
  | case1 => simp at hodd
  | case2 a =>
    have ha : a < 16 := hvs a (by simp)
    have : (0 ||| a) % 256 = a := by
      rw [Nat.zero_or]
      exact Nat.mod_eq_of_lt (by omega)
    simp only [pack, List.length_singleton, this]
    show a >>> 4 = 0
    rw [Nat.shiftRight_eq_div_pow]
    exact Nat.div_eq_of_lt ha
  | case3 a b r ih =>
    have h1 : (a :: b :: r).length / 2 = r.length / 2 + 1 := by
      simp only [List.length_cons]
      omega
    rw [pack, h1, List.getD_cons_succ]
    exact ih (fun v hv => hvs v (by simp [hv])) (by simp only [List.length_cons] at hodd; omega)

theorem cells_values_getD (field : Field) (M N c : Nat) (hc : c < M * N) :
    ((cells M N).map fun p => field p.1 p.2).getD c 0 = field (c / N + 1) (c % N + 1) := by
  rw [List.getD_eq_getElem?_getD, List.getElem?_map, cells_getElem? M N c hc]
  rfl

theorem solve_init_codelength (field : Field) (data : taskdata)
    (h : data.N * data.M < 2 ^ 32) :
    (solve_init field data).codelength = data.N * data.M / 2 + data.N * data.M % 2 := by
  unfold solve_init
  dsimp only
  rw [enqueue_if_unique_codelength]
  dsimp only
  rw [Nat.mod_eq_of_lt h]
  exact Nat.mod_eq_of_lt (by omega)

/-- C13.  For every `M, N ≥ 1` and every board whose cells in rows `1..M`, columns `1..N`
are below 16, `encode_position` writes exactly `ceil(M * N / 2)` bytes, which is
`N * M / 2 + (N * M) % 2`, the value `solve` stores in `codelength` (as long as `N * M` fits
an `unsigned int`).  With the cells numbered `0, 1, 2, ..` in row-major order (cell `c` is
row `c / N + 1`, column `c % N + 1`), byte `k` holds cell `2k` in its low half and cell
`2k + 1` in its high half; when `M * N` is odd the high half of the last byte is 0.  The
bytes depend on nothing but `M`, `N` and the cells in rows `1..M`, columns `1..N`. -/
theorem encode_position_layout (field : Field) (data : taskdata) (_hM : 1 ≤ data.M)
    (_hN : 1 ≤ data.N)
    (hcells : ∀ i j, inside data.M data.N i j → field i j < 16) :
    (encode_position field data).length = (data.M * data.N + 1) / 2 ∧
    (encode_position field data).length = data.N * data.M / 2 + (data.N * data.M) % 2 ∧
    (data.N * data.M < 2 ^ 32 →
      (solve_init field data).codelength = (encode_position field data).length) ∧
    (∀ k, 2 * k < data.M * data.N →
      (encode_position field data).getD k 0 &&& 0x0f =
        field (2 * k / data.N + 1) (2 * k % data.N + 1)) ∧
    (∀ k, 2 * k + 1 < data.M * data.N →
      (encode_position field data).getD k 0 >>> 4 =
        field ((2 * k + 1) / data.N + 1) ((2 * k + 1) % data.N + 1)) ∧
    ((data.M * data.N) % 2 = 1 →
      (encode_position field data).getD (data.M * data.N / 2) 0 >>> 4 = 0) ∧
    (∀ (field' : Field) (data' : taskdata), data'.M = data.M → data'.N = data.N →
      (∀ i j, inside data.M data.N i j → field' i j = field i j) →
      encode_position field' data' = encode_position field data) := by
  have hlen : ((cells data.M data.N).map fun p => field p.1 p.2).length = data.M * data.N := by
    rw [List.length_map, cells_length]
  have hvs : ∀ v ∈ (cells data.M data.N).map fun p => field p.1 p.2, v < 16 := by
    intro v hv
    obtain ⟨p, hp, rfl⟩ := List.mem_map.mp hv
    exact hcells p.1 p.2 (mem_cells.mp hp)
  have hbuf := encode_position_eq field data
  have hl : (encode_position field data).length = (data.M * data.N + 1) / 2 := by
    rw [hbuf, pack_length, hlen]
  have hl2 : (encode_position field data).length =
      data.N * data.M / 2 + (data.N * data.M) % 2 := by
    rw [hl, Nat.mul_comm data.N data.M]
    omega
  refine ⟨hl, hl2, fun h => ?_, fun k hk => ?_, fun k hk => ?_, fun hodd => ?_,
    fun field' data' eM eN hf => ?_⟩
  · rw [solve_init_codelength field data h, hl2]
  · have h1 := nibble_pack _ hvs (2 * k) (by rw [hlen]; exact hk)
    rw [cells_values_getD field _ _ _ hk] at h1
    rw [hbuf, ← h1]
    have e1 : 2 * k % 2 = 0 := by omega
    have e2 : 2 * k / 2 = k := by omega
    simp only [nibble, e1, e2, if_true]
  · have h1 := nibble_pack _ hvs (2 * k + 1) (by rw [hlen]; exact hk)
    rw [cells_values_getD field _ _ _ hk] at h1
    rw [hbuf, ← h1]
    have e1 : (2 * k + 1) % 2 = 1 := by omega
    have e2 : (2 * k + 1) / 2 = k := by omega
    simp only [nibble, e1, e2, one_ne_zero, if_false]
  · have h1 := pack_last_high _ hvs (by rw [hlen]; exact hodd)
    rw [hlen] at h1
    rw [hbuf]
    exact h1
  · rw [encode_position_eq, encode_position_eq, eM, eN]
    congr 1
    apply List.map_congr_left
    intro p hp
    exact hf p.1 p.2 (mem_cells.mp hp)

/-- C13 on the 1 x 3 board `s x o`: two bytes; the first holds the player cell in its low
half and the box cell in its high half, the second holds the goal cell in its low half and
0 in its high half; and `solve` sets `codelength` to 2. -/
theorem encode_position_layout_witness :
    encode_position row_field (input_data 1 3 ['s', 'x', 'o']) = [CURR ||| (BOX <<< 4), DEST] ∧
    (encode_position row_field (input_data 1 3 ['s', 'x', 'o'])).length = (1 * 3 + 1) / 2 ∧
    row_data.codelength = (encode_position row_field (input_data 1 3 ['s', 'x', 'o'])).length ∧
    (encode_position row_field (input_data 1 3 ['s', 'x', 'o'])).getD 1 0 >>> 4 = 0 :=
  ⟨by decide,
   (encode_position_layout row_field (input_data 1 3 ['s', 'x', 'o']) (by decide) (by decide)
      row_valid.hcell).1,
   (encode_position_layout row_field (input_data 1 3 ['s', 'x', 'o']) (by decide) (by decide)
      row_valid.hcell).2.2.1 (by decide),
   (encode_position_layout row_field (input_data 1 3 ['s', 'x', 'o']) (by decide) (by decide)
      row_valid.hcell).2.2.2.2.2.1 (by decide)⟩

/-! ## C12: boxes and goals must match -/

theorem foldlM_nested {σ α β : Type} (g : σ → α → β → Except String σ) (l : List α)
    (r : List β) (s : σ) :
    l.foldlM (fun s i => r.foldlM (fun s j => g s i j) s) s
      = (l.flatMap fun i => r.map fun j => (i, j)).foldlM (fun s p => g s p.1 p.2) s := by
  induction l generalizing s with
  | nil => rfl
  | cons a l ih =>
    rw [List.foldlM_cons, List.flatMap_cons, List.foldlM_append, List.foldlM_map]
    congr 1
    funext s1
    exact ih s1

theorem dropWhile_isspace (f : List Char) (c : Char) (g : List Char)
    (h : grid_chars f = c :: g) :
    ∃ rest, f.dropWhile isspace = c :: rest ∧ grid_chars rest = g := by
  induction f with
  | nil => cases h
  | cons a t ih =>
    unfold grid_chars at h ih ⊢
    by_cases ha : isspace a = true
    · rw [List.filter_cons_of_neg (by simp [ha])] at h
      rw [List.dropWhile_cons_of_pos ha]
      exact ih h
    · rw [List.filter_cons_of_pos (by simpa using ha)] at h
      rw [List.dropWhile_cons_of_neg ha]
      injection h with h1 h2
      subst h1
      exact ⟨t, rfl, h2⟩

/-- Reading one accepted character: the cell is read without error (a start character
needs the start still unset), the counters go up by what the character stands for, and the
start is set exactly by a start character. -/
theorem input_cell_ok (s : InputState) (i j : Nat) (c : Char) (g : List Char)
    (h : grid_chars s.f = c :: g) (hc : is_cell c = true)
    (hst : is_start c = true → s.data.xstart = NMAX) :
    ∃ s', input_cell s i j = Except.ok s' ∧ grid_chars s'.f = g ∧
      s'.boxcount = s.boxcount + (if is_box c then 1 else 0) ∧
      s'.destcount = s.destcount + (if is_goal c then 1 else 0) ∧
      (is_start c = false → s'.data.xstart = s.data.xstart) := by
  obtain ⟨rest, hd, hg⟩ := dropWhile_isspace s.f c g h
  unfold input_cell
  rw [hd]
  simp only [is_cell, Bool.decide_or, Bool.or_eq_true, decide_eq_true_eq] at hc
  rcases hc with rfl | rfl | rfl | rfl | rfl | rfl | rfl
  · simp [hg, is_box, is_goal, is_start]
  · simp [hg, is_box, is_goal, is_start]
  · simp [hg, is_box, is_goal, is_start]
  · simp [hg, is_box, is_goal, is_start]
  · simp [hg, is_box, is_goal, is_start]
  · have hx := hst (by decide)
    simp [hg, hx, is_box, is_goal, is_start]
  · have hx := hst (by decide)
    simp [hg, hx, is_box, is_goal, is_start]

/-- Reading a complete grid of accepted characters with at most one start character: no
cell is rejected, and the counters go up by the numbers of box and goal characters. -/
theorem input_fold_ok (ps : List (Nat × Nat)) (s : InputState) (g : List Char)
    (hg : grid_chars s.f = g) (hlen : g.length = ps.length)
    (hcell : ∀ c ∈ g, is_cell c = true)
    (hx : s.data.xstart = NMAX ∨ g.countP is_start = 0) (hone : g.countP is_start ≤ 1) :
    ∃ s', ps.foldlM (fun s p => input_cell s p.1 p.2) s = Except.ok s' ∧
      s'.boxcount = s.boxcount + g.countP is_box ∧
      s'.destcount = s.destcount + g.countP is_goal := by
  induction ps generalizing s g with
  | nil =>
    have : g = [] := List.length_eq_zero.mp hlen
    subst this
    exact ⟨s, rfl, rfl, rfl⟩
  | cons p ps ih =>
    match g, hlen with
    | c :: g', hlen =>
      have hst : is_start c = true → s.data.xstart = NMAX := by
        intro hc
        rcases hx with h | h
        · exact h
        · rw [List.countP_cons_of_pos _ _ hc] at h
          omega
      obtain ⟨s1, h1, hg1, hb1, hd1, hx1⟩ :=
        input_cell_ok s p.1 p.2 c g' hg (hcell c (by simp)) hst
      have hx' : s1.data.xstart = NMAX ∨ g'.countP is_start = 0 := by
        cases hc : is_start c with
        | true =>
          rw [List.countP_cons_of_pos _ _ hc] at hone
          exact Or.inr (by omega)
        | false =>
          rw [List.countP_cons_of_neg _ _ (by simp [hc])] at hx
          rw [hx1 hc]
          exact hx
      have hone' : g'.countP is_start ≤ 1 := by
        have := List.countP_cons is_start c g'
        omega
      obtain ⟨s', h2, hb2, hd2⟩ := ih s1 g' hg1 (by simpa using hlen)
        (fun c' hc' => hcell c' (by simp [hc'])) hx' hone'
      refine ⟨s', ?_, ?_, ?_⟩
      · rw [List.foldlM_cons, h1]
        exact h2
      · rw [hb2, hb1, List.countP_cons]
        omega
      · rw [hd2, hd1, List.countP_cons]
        omega

/-- C12.  Let the characters of the file after the header that are not white space form a
complete `M` x `N` grid made only of `# . x X o s S`, with at most one start character.  If
the number of box characters (`x`, `X`) differs from the number of goal characters (`o`,
`X`, `S`), then `input` ends with the message "Number of boxes is not equal to number of
destinations" (and `exit(1)`), and the program ends there: `solve` is not started. -/
theorem input_rejects_count_mismatch (M N : Nat) (f : List Char)
    (hcomplete : (grid_chars f).length = M * N)
    (hcell : ∀ c ∈ grid_chars f, is_cell c = true)
    (hstart : (grid_chars f).countP is_start ≤ 1)
    (hne : (grid_chars f).countP is_box ≠ (grid_chars f).countP is_goal) :
    input M N f = Except.error "Number of boxes is not equal to number of destinations" ∧
    ∀ fuel, main fuel M N f =
      Except.error "Number of boxes is not equal to number of destinations" := by
  have hin : input M N f =
      Except.error "Number of boxes is not equal to number of destinations" := by
    unfold input
    dsimp only
    rw [foldlM_nested (fun s i j => input_cell s i j)]
    obtain ⟨s', h1, hb, hd⟩ := input_fold_ok (cells M N)
      { field := fun i j => if i < NMAX ∧ j < NMAX then WALL else 0,
        data := taskdata.init M N NMAX NMAX, boxcount := 0, destcount := 0, f := f }
      (grid_chars f) rfl (by rw [hcomplete, cells_length]) hcell (Or.inl rfl) hstart
    unfold cells at h1
    rw [h1]
    dsimp only
    rw [if_pos (by rw [hb, hd]; simpa using hne)]
  refine ⟨hin, fun fuel => ?_⟩
  unfold main
  rw [hin]

/-- C12 on the 2 x 2 grid `x x` / `o s`, with 2 boxes and 1 goal. -/
theorem input_rejects_count_mismatch_witness :
    main 5 2 2 ['x', 'x', ' ', 'o', 's'] =
      Except.error "Number of boxes is not equal to number of destinations" :=
  (input_rejects_count_mismatch 2 2 ['x', 'x', ' ', 'o', 's'] (by decide) (by decide)
    (by decide) (by decide)).2 5

/-! ## Invariants of the context during `solve` -/

/-- A property `I` of the context at the head of the loop holds after every number of
iterations, when it gives a property `J` of the context during the expansion of an entry
that the calls of `process_coords` keep and that gives `I` back at the end. -/
theorem solve_iter_data_inv (I : taskdata → Prop) (J : Nat → taskdata → Prop)
    (hdq : ∀ data item queueidx d, I data → dequeue data = some (item, queueidx, d) →
      J queueidx d)
    (hshow : ∀ queueidx d d' f p dir, J queueidx d → show_solution f p dir d = some d' →
      J queueidx d')
    (henq : ∀ queueidx d t nx ny dir, J queueidx d →
      J queueidx (enqueue_if_unique (candidate_item t nx ny queueidx dir d) d))
    (hend : ∀ queueidx d, J queueidx d → I d)
    (field : Field) (data : taskdata) (h0 : I data) (k : Nat) (s : Field × taskdata)
    (h : solve_iter k field data = some s) : I s.2 := by
  have hcalls : ∀ (f : Field) (x y queueidx : Nat) (cs : List (Bool × Nat × Nat × Nat))
      (d d' : taskdata), J queueidx d → run_calls f x y queueidx cs d = some d' →
      J queueidx d' := by
    intro f x y queueidx cs
    induction cs with
    | nil =>
      intro d d' hJ hr
      cases hr
      exact hJ
    | cons c cs ih =>
      intro d d' hJ hr
      unfold run_calls at hr
      cases h1 : (if c.1 = true then
          process_coords f x y c.2.1 c.2.2.1 queueidx c.2.2.2 d else some d) with
      | none => rw [h1] at hr; cases hr
      | some d1 =>
        rw [h1, Option.some_bind] at hr
        refine ih d1 d' ?_ hr
        split at h1
        · rcases process_coords_cases h1 with rfl | ⟨t, -, -, -, hs⟩ | ⟨t, -, -, -, rfl⟩
          · exact hJ
          · exact hshow _ _ _ _ _ _ hJ hs
          · exact henq _ _ _ _ _ _ hJ
        · cases h1
          exact hJ
  induction k generalizing s with
  | zero =>
    cases h
    exact h0
  | succ k ih =>
    unfold solve_iter at h
    cases h1 : solve_iter k field data with
    | none => rw [h1] at h; cases h
    | some s1 =>
      rw [h1, Option.some_bind] at h
      split at h
      · rw [solve_body_eq] at h
        cases hd : dequeue s1.2 with
        | none => rw [hd] at h; cases h
        | some r =>
          obtain ⟨item, queueidx, d⟩ := r
          rw [hd, Option.some_bind] at h
          obtain ⟨d', hd', rfl⟩ := Option.map_eq_some'.mp h
          exact hend queueidx d' (hcalls _ _ _ _ _ _ _ (hdq _ _ _ _ (ih s1 h1) hd) hd')
      · cases h

theorem backLinks_append (queue : List queueitem) (e : queueitem) (h : BackLinks queue)
    (_h0 : 0 < queue.length) (he : e.prev < queue.length) : BackLinks (queue ++ [e]) := by
  intro i e' hi
  rw [List.get?_eq_getElem?] at hi
  by_cases hlt : i < queue.length
  · rw [List.getElem?_append_left hlt] at hi
    exact h i e' (by rw [List.get?_eq_getElem?]; exact hi)
  · rw [List.getElem?_append_right (by omega)] at hi
    have hi0 : i - queue.length = 0 := by
      by_contra hne
      rw [List.getElem?_eq_none (by simp; omega)] at hi
      cases hi
    rw [hi0] at hi
    simp only [List.getElem?_cons_zero, Option.some.injEq] at hi
    subst hi
    exact ⟨fun h' => by omega, fun _ => by omega⟩

/-- During `solve` the predecessor links point backwards, the queue is not empty and the
cursor is at most the size of the queue. -/
theorem solve_iter_backLinks (field0 : Field) (data0 : taskdata) (h0 : Fresh data0) (k : Nat)
    (s : Field × taskdata) (h : solve_iter k field0 (solve_init field0 data0) = some s) :
    BackLinks s.2.queue ∧ 0 < s.2.queue.length ∧ s.2.queuecurr ≤ s.2.queue.length := by
  refine solve_iter_data_inv
    (fun d => BackLinks d.queue ∧ 0 < d.queue.length ∧ d.queuecurr ≤ d.queue.length)
    (fun q d => BackLinks d.queue ∧ q < d.queue.length ∧ d.queuecurr ≤ d.queue.length)
    ?_ ?_ ?_ ?_ field0 _ ?_ k s h
  · intro data item queueidx d hI hd
    obtain ⟨hget, rfl, rfl⟩ := dequeue_some hd
    have hlt : data.queuecurr < data.queue.length := by
      rw [List.get?_eq_getElem?] at hget
      exact (List.getElem?_eq_some_iff.mp hget).1
    exact ⟨hI.1, hlt, hlt⟩
  · intro queueidx d d' f p dir hJ hs
    obtain ⟨e1, -, -, -, e2, -, -⟩ := show_solution_some hs
    rw [e1, e2]
    exact hJ
  · intro queueidx d t nx ny dir hJ
    obtain ⟨e1, -, -, -, e2, -⟩ := enqueue_if_unique_queue
      (candidate_item t nx ny queueidx dir d) d
    rw [e2]
    rcases e1 with e1 | e1
    · rw [e1]
      exact hJ
    · rw [e1]
      refine ⟨backLinks_append _ _ hJ.1 (by omega) hJ.2.1, ?_, ?_⟩
      · rw [List.length_append]; omega
      · rw [List.length_append]; omega
  · intro queueidx d hJ
    exact ⟨hJ.1, by omega, hJ.2.2⟩
  · obtain ⟨e1, -, -, -, e2⟩ := solve_init_eq field0 data0 h0
    rw [e1, e2]
    refine ⟨?_, by simp, by simp⟩
    intro i e hi
    match i, hi with
    | 0, hi =>
      simp only [List.get?_cons_zero, Option.some.injEq] at hi
      subst hi
      exact ⟨fun _ => rfl, fun h => absurd h (by omega)⟩
    | i + 1, hi => simp at hi

/-! ## The walk of `show_solution` -/

/-- With predecessor links that point backwards, the walk from an entry `p` with room for
more than `p` indices ends, and the indices it stores follow the links from `p` down to the
root. -/
theorem show_solution_walk_spec (data : taskdata) (hbl : BackLinks data.queue) (p : Nat) :
    p < data.queue.length → ∀ room acc, p < room →
    ∃ l, show_solution_walk data room p acc = some (acc ++ l) ∧ Descends data.queue p l := by
  induction p using Nat.strong_induction_on with
  | _ p ih =>
    intro hp room acc hroom
    obtain ⟨room', rfl⟩ : ∃ r, room = r + 1 := ⟨room - 1, by omega⟩
    have hget : data.queue.get? p = some (data.queue.getD p default) := by
      rw [List.get?_eq_getElem?, List.getD_eq_getElem?_getD, List.getElem?_eq_getElem hp]
      rfl
    obtain ⟨h0, hpos⟩ := hbl p _ hget
    unfold show_solution_walk
    rw [hget]
    dsimp only
    by_cases hp0 : p = 0
    · subst hp0
      rw [if_neg (by rw [h0 rfl]; simp)]
      exact ⟨[0], rfl, rfl, rfl, by simp, by simp⟩
    · have hlt := hpos (by omega)
      rw [if_pos (by omega)]
      obtain ⟨l, hl, hh, hlast, hlen, hch⟩ :=
        ih _ hlt (by omega) room' (acc ++ [p]) (by omega)
      refine ⟨p :: l, by rw [hl]; simp, rfl, ?_, ?_, ?_⟩
      · cases l with
        | nil => simp at hh
        | cons a t => rw [List.getLast?_cons_cons]; exact hlast
      · simp only [List.length_cons]; omega
      · cases l with
        | nil => simp at hh
        | cons a t =>
          simp only [List.head?_cons, Option.some.injEq] at hh
          subst hh
          exact List.Chain'.cons ⟨rfl, hlt⟩ hch

/-- More room does not change the result of a walk that ends. -/
theorem show_solution_walk_mono (data : taskdata) (room : Nat) :
    ∀ p acc l, show_solution_walk data room p acc = some l →
    ∀ room', room ≤ room' → show_solution_walk data room' p acc = some l := by
  induction room with
  | zero =>
    intro p acc l h
    simp [show_solution_walk] at h
  | succ room ih =>
    intro p acc l h room' hle
    obtain ⟨r, rfl⟩ : ∃ r, room' = r + 1 := ⟨room' - 1, by omega⟩
    unfold show_solution_walk at h ⊢
    cases hget : data.queue.get? p with
    | none => rw [hget] at h; cases h
    | some item =>
      rw [hget] at h
      dsimp only at h ⊢
      split
      · rename_i hne
        rw [if_pos hne] at h
        exact ih _ _ _ h r (by omega)
      · rename_i hne
        rw [if_neg hne] at h
        exact h

/-! ## C17: the walk ends at the root within the room allocated -/

/-- C17.  At the head of every iteration of `solve`, entry 0 of the queue has `prev = 0`,
every entry `i > 0` has `prev < i`, and `queuecurr ≤ queuesize`.  Therefore, for every
`p < queuesize`, the do-while walk of `show_solution` started at `p` ends after at most
`p + 1` iterations (it ends with room for `p + 1` indices, and stores at most that many),
the last index it stores is the root 0, and with the `queuesize` elements allocated for
`indices` it gives the same result: it never writes beyond them. -/
theorem show_solution_walk_terminates (field0 : Field) (data0 : taskdata) (h0 : Fresh data0)
    (k : Nat) (s : Field × taskdata)
    (h : solve_iter k field0 (solve_init field0 data0) = some s) :
    (∃ e, s.2.queue.get? 0 = some e ∧ e.prev = 0) ∧
    (∀ i e, 0 < i → s.2.queue.get? i = some e → e.prev < i) ∧
    s.2.queuecurr ≤ s.2.queuesize ∧
    (∀ p, p < s.2.queuesize →
      ∃ indices, show_solution_walk s.2 (p + 1) p [] = some indices ∧
        show_solution_walk s.2 s.2.queuesize p [] = some indices ∧
        indices.length ≤ p + 1 ∧ indices.length ≤ s.2.queuesize ∧
        indices.head? = some p ∧ indices.getLast? = some 0) := by
  obtain ⟨hbl, hpos, hcurr⟩ := solve_iter_backLinks field0 data0 h0 k s h
  refine ⟨?_, fun i e hi he => (hbl i e he).2 hi, hcurr, fun p hp => ?_⟩
  · have hget : s.2.queue.get? 0 = some (s.2.queue.getD 0 default) := by
      rw [List.get?_eq_getElem?, List.getD_eq_getElem?_getD, List.getElem?_eq_getElem hpos]
      rfl
    exact ⟨_, hget, (hbl 0 _ hget).1 rfl⟩
  · obtain ⟨l, hl, hh, hlast, hlen, -⟩ :=
      show_solution_walk_spec s.2 hbl p hp (p + 1) [] (by omega)
    rw [List.nil_append] at hl
    have hp' : p + 1 ≤ s.2.queuesize := hp
    exact ⟨l, hl, show_solution_walk_mono s.2 _ _ _ _ hl _ hp', hlen, by omega, hh, hlast⟩

/-- C17 after two iterations on the 2 x 2 puzzle `s x` / `. o`, when the queue holds three
entries: the walk from the last entry stores the indices 2, 1, 0. -/
theorem show_solution_walk_terminates_witness :
    ∃ s, solve_iter 2 corner_field (solve_init corner_field corner_data) = some s ∧
      ∃ indices, show_solution_walk s.2 (2 + 1) 2 [] = some indices ∧
        show_solution_walk s.2 s.2.queuesize 2 [] = some indices ∧
        indices.length ≤ 2 + 1 ∧ indices.length ≤ s.2.queuesize ∧
        indices.head? = some 2 ∧ indices.getLast? = some 0 :=
  ⟨_, rfl, (show_solution_walk_terminates corner_field corner_data corner_valid.fresh 2 _
    rfl).2.2.2 2 (by decide)⟩

/-! ## C11: the trace is printed from the root to the goal -/

/-- C11.  Let the queue have entry 0 with `prev = 0` and every entry `i > 0` with `prev < i`,
and let `p` be an index of the queue.  Then `show_solution(field, p, dir)` returns, and there
are indices `i_0, .., i_k` with `i_0 = 0`, `i_k = p` and `queue[i_(j+1)].prev = i_j` such that
the output is: "Solution found! k+1 steps."; for `j = 0..k` the step numbered `j` with the
direction stored in entry `i_j` and the board decoded from it; the step numbered `k + 1` with
`dir` and `field`; and "Solved!".  It sets `solved` to 1 and changes nothing else. -/
theorem show_solution_trace (field : Field) (p dir : Nat) (data : taskdata)
    (hbl : BackLinks data.queue) (hp : p < data.queuesize) :
    ∃ is : List Nat, is.head? = some 0 ∧ is.getLast? = some p ∧
      List.Chain' (fun a b => (data.queue.getD b default).prev = a ∧ a < b) is ∧
      show_solution field p dir data = some { data with
        stdout := data.stdout ++ [Event.solution_found is.length]
          ++ (is.enum.map fun q =>
              Event.step q.1 (direction (data.queue.getD q.2 default).direction)
                (print_position (decode_position (data.queue.getD q.2 default).position
                  (fun _ _ => 0) data) data))
          ++ [Event.step is.length (direction dir) (print_position field data),
              Event.solved]
        solved := 1 } := by
  obtain ⟨l, hl, hh, hlast, -, hch⟩ :=
    show_solution_walk_spec data hbl p hp data.queuesize [] hp
  rw [List.nil_append] at hl
  refine ⟨l.reverse, ?_, ?_, ?_, ?_⟩
  · rw [List.head?_reverse]; exact hlast
  · rw [List.getLast?_reverse]; exact hh
  · rw [List.chain'_reverse]
    exact hch
  · unfold show_solution
    rw [hl]
    simp only [show_solution_steps, List.length_reverse]

/-- C11 after two iterations on the 2 x 2 puzzle `s x` / `. o`: the trace for the last entry
of the queue, index 2, lists the entries 0, 1, 2 and then the final step. -/
theorem show_solution_trace_witness :
    ∃ s, solve_iter 2 corner_field (solve_init corner_field corner_data) = some s ∧
      (∃ is : List Nat, is.head? = some 0 ∧ is.getLast? = some 2 ∧
        List.Chain' (fun a b => (s.2.queue.getD b default).prev = a ∧ a < b) is ∧
        show_solution corner_field 2 UP s.2 = some { s.2 with
          stdout := s.2.stdout ++ [Event.solution_found is.length]
            ++ (is.enum.map fun q =>
                Event.step q.1 (direction (s.2.queue.getD q.2 default).direction)
                  (print_position (decode_position (s.2.queue.getD q.2 default).position
                    (fun _ _ => 0) s.2) s.2))
            ++ [Event.step is.length (direction UP) (print_position corner_field s.2),
                Event.solved]
          solved := 1 }) ∧
      (show_solution corner_field 2 UP s.2).map (fun d => d.stdout.drop 3) =
        some [Event.solution_found 3,
          Event.step 0 "start" [[CURR, BOX], [0, DEST]],
          Event.step 1 "down" [[0, BOX], [CURR, DEST]],
          Event.step 2 "right" [[0, BOX], [0, DEST ||| CURR]],
          Event.step 3 "up" [[CURR, BOX], [0, DEST]],
          Event.solved] :=
  ⟨_, rfl, show_solution_trace corner_field 2 UP _
    (solve_iter_backLinks corner_field corner_data corner_valid.fresh 2 _ rfl).1 (by decide),
    by decide⟩

/-! ## C18: the hash table and the queue agree -/

theorem tableOK_of_empty {data : taskdata} (hH : ∀ h, data.H h = []) : TableOK data :=
  ⟨fun h idx hi => absurd hi (by rw [hH]; exact List.not_mem_nil idx),
   fun h => (hH h).symm ▸ List.nodup_nil⟩

theorem enqueue_if_unique_tableOK (item : queueitem) (data : taskdata) (ht : TableOK data) :
    TableOK (enqueue_if_unique item data) := by
  cases h : enqueue_scan item data (data.H (hashcode item data)) with
  | true => rw [enqueue_if_unique_of_scan h]; exact ht
  | false =>
    rw [enqueue_if_unique_of_not_scan h]
    have hcode : ∀ it : queueitem, hashcode it
        { data with
          queue := data.queue ++ [item]
          H := fun h => if h = hashcode item data
            then data.queuesize :: data.H (hashcode item data) else data.H h
          stdout := if data.queuesize % 100000 = 0
            then data.stdout ++ [Event.queue_size data.queuesize] else data.stdout }
        = hashcode it data := fun it => rfl
    have hold : ∀ idx, idx < data.queue.length →
        (data.queue ++ [item]).getD idx default = data.queue.getD idx default := by
      intro idx hlt
      simp [List.getD_eq_getElem?_getD, List.getElem?_append_left hlt]
    have hnew : (data.queue ++ [item]).getD data.queue.length default = item := by
      simp [List.getD_eq_getElem?_getD]
    constructor
    · intro b idx hi
      dsimp only at hi ⊢
      rw [hcode, List.length_append, List.length_singleton]
      split at hi
      · rename_i hb
        rcases List.mem_cons.mp hi with h1 | h1
        · rw [h1, taskdata.queuesize, hnew]
          exact ⟨by omega, hb.symm⟩
        · obtain ⟨h2, h3⟩ := ht.bucket _ idx h1
          rw [hold idx h2]
          exact ⟨by omega, by rw [h3, hb]⟩
      · obtain ⟨h2, h3⟩ := ht.bucket _ idx hi
        rw [hold idx h2]
        exact ⟨by omega, h3⟩
    · intro b
      dsimp only
      split
      · refine List.nodup_cons.mpr ⟨fun hm => ?_, ht.nodup _⟩
        have := (ht.bucket _ _ hm).1
        unfold taskdata.queuesize at this
        omega
      · exact ht.nodup b

theorem enqueue_all_tableOK (items : List queueitem) (data : taskdata) (ht : TableOK data) :
    TableOK (enqueue_all items data) := by
  induction items generalizing data with
  | nil => exact ht
  | cons a l ih => exact ih _ (enqueue_if_unique_tableOK a data ht)

/-- What a consistent table gives: each stored index is referenced once, from its own
bucket; and the scan of the bucket of an item finds it exactly when its key is stored. -/
theorem tableOK_spec (data : taskdata) (ht : TableOK data) (hch : Chained data) :
    (∀ i, i < data.queuesize →
      hashcode (data.queue.getD i default) data < HASHSIZE ∧
      ∀ h, (data.H h).count i =
        if h = hashcode (data.queue.getD i default) data then 1 else 0) ∧
    (∀ h idx, idx ∈ data.H h → idx < data.queuesize) ∧
    (∀ item, (∃ e ∈ data.queue, key data e = key data item) ↔
      enqueue_scan item data (data.H (hashcode item data)) = true) := by
  refine ⟨fun i hi => ⟨hashcode_lt _ _, fun h => ?_⟩, fun h idx hm => (ht.bucket h idx hm).1,
    fun item => ⟨fun hex => ?_, fun hscan => ?_⟩⟩
  · split
    · rename_i hh
      rw [hh]
      exact List.count_eq_one_of_mem (ht.nodup _) (hch i hi)
    · rename_i hh
      exact List.count_eq_zero_of_not_mem (fun hm => hh (ht.bucket h i hm).2.symm)
  · have h1 := enqueue_if_unique_of_mem hch hex
    cases hs : enqueue_scan item data (data.H (hashcode item data)) with
    | true => rfl
    | false =>
      rw [enqueue_if_unique_of_not_scan hs] at h1
      have := congrArg (fun d => d.queue.length) h1
      simp at this
  · obtain ⟨idx, hm, hk⟩ := (enqueue_scan_iff item data _).mp hscan
    have hlt := (ht.bucket _ idx hm).1
    refine ⟨data.queue.getD idx default, ?_, hk⟩
    rw [List.getD_eq_getElem?_getD, List.getElem?_eq_getElem hlt]
    exact List.getElem_mem hlt

/-- C18.  After any sequence of `enqueue_if_unique` calls from a context with an empty queue
and an empty table: every index `i < queuesize` is referenced by exactly one chain node (it
occurs once in the chain of bucket `hashcode(queue[i])`, a value below `HASHSIZE`, and in no
other chain); no chain node references an index `≥ queuesize`; and a key is present in the
queue if and only if the scan of its own bucket finds it. -/
theorem hash_table_consistent (data0 : taskdata) (hq : data0.queue = [])
    (hH : ∀ h, data0.H h = []) (items : List queueitem) :
    (∀ i, i < (enqueue_all items data0).queuesize →
      hashcode ((enqueue_all items data0).queue.getD i default) (enqueue_all items data0)
        < HASHSIZE ∧
      ∀ h, ((enqueue_all items data0).H h).count i =
        if h = hashcode ((enqueue_all items data0).queue.getD i default)
          (enqueue_all items data0) then 1 else 0) ∧
    (∀ h idx, idx ∈ (enqueue_all items data0).H h → idx < (enqueue_all items data0).queuesize) ∧
    (∀ item, (∃ e ∈ (enqueue_all items data0).queue,
        key (enqueue_all items data0) e = key (enqueue_all items data0) item) ↔
      enqueue_scan item (enqueue_all items data0)
        ((enqueue_all items data0).H (hashcode item (enqueue_all items data0))) = true) :=
  tableOK_spec _ (enqueue_all_tableOK items data0 (tableOK_of_empty hH))
    (enqueue_all_inv items data0 (chained_of_empty hq) (distinct_of_empty hq)).1

/-- C18 on the empty context of a 1 x 3 board with `codelength = 2` after two items are
stored: index 1 occurs once in the chain of its bucket, and a third item with the key of the
first is found by the scan of its bucket. -/
theorem hash_table_consistent_witness :
    ((enqueue_all
        [{ position := [40, 4], curr := 17, prev := 0, direction := START },
         { position := [128, 6], curr := 33, prev := 0, direction := RIGHT }]
        { taskdata.init 1 3 1 1 with codelength := 2 }).H
      (hashcode { position := [128, 6], curr := 33, prev := 0, direction := RIGHT }
        { taskdata.init 1 3 1 1 with codelength := 2 })).count 1 = 1 ∧
    enqueue_scan { position := [40, 4], curr := 17, prev := 1, direction := LEFT }
      (enqueue_all
        [{ position := [40, 4], curr := 17, prev := 0, direction := START },
         { position := [128, 6], curr := 33, prev := 0, direction := RIGHT }]
        { taskdata.init 1 3 1 1 with codelength := 2 })
      ((enqueue_all
        [{ position := [40, 4], curr := 17, prev := 0, direction := START },
         { position := [128, 6], curr := 33, prev := 0, direction := RIGHT }]
        { taskdata.init 1 3 1 1 with codelength := 2 }).H
        (hashcode { position := [40, 4], curr := 17, prev := 1, direction := LEFT }
          { taskdata.init 1 3 1 1 with codelength := 2 })) = true :=
  ⟨((hash_table_consistent { taskdata.init 1 3 1 1 with codelength := 2 } rfl (fun _ => rfl)
      [{ position := [40, 4], curr := 17, prev := 0, direction := START },
       { position := [128, 6], curr := 33, prev := 0, direction := RIGHT }]).1 1
      (by decide)).2 _,
   ((hash_table_consistent { taskdata.init 1 3 1 1 with codelength := 2 } rfl (fun _ => rfl)
      [{ position := [40, 4], curr := 17, prev := 0, direction := START },
       { position := [128, 6], curr := 33, prev := 0, direction := RIGHT }]).2.2
      { position := [40, 4], curr := 17, prev := 1, direction := LEFT }).mp (by decide)⟩

/-! ## C16: the queue is in order of depth -/

/-- A property `J` of the context during the expansion of an entry, kept by `show_solution`
and by the submission of a candidate, holds after any list of calls. -/
theorem run_calls_data_inv (J : Nat → taskdata → Prop)
    (hshow : ∀ queueidx d d' f p dir, J queueidx d → show_solution f p dir d = some d' →
      J queueidx d')
    (henq : ∀ queueidx d t nx ny dir, J queueidx d →
      J queueidx (enqueue_if_unique (candidate_item t nx ny queueidx dir d) d))
    (f : Field) (x y queueidx : Nat) (cs : List (Bool × Nat × Nat × Nat)) :
    ∀ (d d' : taskdata), J queueidx d → run_calls f x y queueidx cs d = some d' →
      J queueidx d' := by
  induction cs with
  | nil =>
    intro d d' hJ hr
    cases hr
    exact hJ
  | cons c cs ih =>
    intro d d' hJ hr
    unfold run_calls at hr
    cases h1 : (if c.1 = true then
        process_coords f x y c.2.1 c.2.2.1 queueidx c.2.2.2 d else some d) with
    | none => rw [h1] at hr; cases hr
    | some d1 =>
      rw [h1, Option.some_bind] at hr
      refine ih d1 d' ?_ hr
      split at h1
      · rcases process_coords_cases h1 with rfl | ⟨t, -, -, -, hs⟩ | ⟨t, -, -, -, rfl⟩
        · exact hJ
        · exact hshow _ _ _ _ _ _ hJ hs
        · exact henq _ _ _ _ _ _ hJ
      · cases h1
        exact hJ

theorem getD_of_lt (queue : List queueitem) (i : Nat) (h : i < queue.length) :
    queue.get? i = some (queue.getD i default) := by
  rw [List.get?_eq_getElem?, List.getD_eq_getElem?_getD, List.getElem?_eq_getElem h]
  rfl

/-- With more links allowed than the index, the count of links is the depth. -/
theorem depth_aux_eq (queue : List queueitem) (hbl : BackLinks queue) (i : Nat) :
    i < queue.length → ∀ fuel, i ≤ fuel → depth_aux queue fuel i = depth queue i := by
  induction i using Nat.strong_induction_on with
  | _ i ih =>
    intro hi fuel hf
    by_cases h0 : i = 0
    · subst h0
      cases fuel <;> simp [depth, depth_aux]
    · obtain ⟨f, rfl⟩ : ∃ f, fuel = f + 1 := ⟨fuel - 1, by omega⟩
      obtain ⟨i', rfl⟩ : ∃ i', i = i' + 1 := ⟨i - 1, by omega⟩
      have hlt := (hbl _ _ (getD_of_lt queue _ hi)).2 (by omega)
      unfold depth
      rw [depth_aux, depth_aux, if_neg h0, if_neg h0]
      rw [ih _ hlt (by omega) f (by omega), ih _ hlt (by omega) i' (by omega)]

theorem depth_zero (queue : List queueitem) : depth queue 0 = 0 := rfl

theorem depth_succ (queue : List queueitem) (hbl : BackLinks queue) (i : Nat) (h0 : 0 < i)
    (hi : i < queue.length) :
    depth queue i = depth queue (queue.getD i default).prev + 1 := by
  obtain ⟨i', rfl⟩ : ∃ i', i = i' + 1 := ⟨i - 1, by omega⟩
  have hlt := (hbl _ _ (getD_of_lt queue _ hi)).2 h0
  unfold depth
  rw [depth_aux, if_neg (by omega)]
  rw [depth_aux_eq queue hbl _ (by omega) i' (by omega)]
  rfl

/-- Appending an entry leaves the depths of the entries before it as they were. -/
theorem depth_append (queue : List queueitem) (hbl : BackLinks queue) (e : queueitem)
    (i : Nat) : i < queue.length → depth (queue ++ [e]) i = depth queue i := by
  have haux : ∀ fuel i, i < queue.length →
      depth_aux (queue ++ [e]) fuel i = depth_aux queue fuel i := by
    intro fuel
    induction fuel with
    | zero => intro i _; rfl
    | succ f ih =>
      intro i hi
      rw [depth_aux, depth_aux]
      by_cases h0 : i = 0
      · rw [if_pos h0, if_pos h0]
      · rw [if_neg h0, if_neg h0]
        have hget : (queue ++ [e]).getD i default = queue.getD i default := by
          simp [List.getD_eq_getElem?_getD, List.getElem?_append_left hi]
        rw [hget]
        have hlt := (hbl _ _ (getD_of_lt queue _ hi)).2 (by omega)
        rw [ih _ (by omega)]
  intro hi
  exact haux i i hi

/-- The entry appended for a candidate of entry `queueidx` is one deeper than `queueidx`. -/
theorem depth_new (queue : List queueitem) (hbl : BackLinks queue) (e : queueitem)
    (h0 : 0 < queue.length) (he : e.prev < queue.length) :
    depth (queue ++ [e]) queue.length = depth queue e.prev + 1 := by
  have hbl' := backLinks_append queue e hbl h0 he
  rw [depth_succ _ hbl' _ h0 (by simp)]
  have hget : (queue ++ [e]).getD queue.length default = e := by
    simp [List.getD_eq_getElem?_getD]
  rw [hget, depth_append queue hbl e _ he]

theorem depthMid_show {queueidx : Nat} {d d' : taskdata} {f : Field} {p dir : Nat}
    (hJ : DepthMid queueidx d) (hs : show_solution f p dir d = some d') :
    DepthMid queueidx d' := by
  obtain ⟨e1, -, -, -, e2, -, -⟩ := show_solution_some hs
  exact ⟨e1 ▸ hJ.links, e1 ▸ hJ.idx, e2 ▸ hJ.curr, e1 ▸ hJ.mono, e1 ▸ hJ.near⟩

theorem depthMid_enqueue {queueidx : Nat} {d : taskdata} (t : Field) (nx ny dir : Nat)
    (hJ : DepthMid queueidx d) :
    DepthMid queueidx (enqueue_if_unique (candidate_item t nx ny queueidx dir d) d) := by
  obtain ⟨e1, -, -, -, e2, -⟩ := enqueue_if_unique_queue
    (candidate_item t nx ny queueidx dir d) d
  rcases e1 with e1 | e1
  · exact ⟨e1 ▸ hJ.links, e1 ▸ hJ.idx, e2 ▸ hJ.curr, e1 ▸ hJ.mono, e1 ▸ hJ.near⟩
  · have hpos : 0 < d.queue.length := Nat.lt_of_le_of_lt (Nat.zero_le _) hJ.idx
    have hprev : (candidate_item t nx ny queueidx dir d).prev < d.queue.length := hJ.idx
    have hnew := depth_new d.queue hJ.links _ hpos hprev
    have hold := depth_append d.queue hJ.links (candidate_item t nx ny queueidx dir d)
    have hprev' : (candidate_item t nx ny queueidx dir d).prev = queueidx := rfl
    rw [hprev'] at hnew
    refine ⟨e1 ▸ backLinks_append _ _ hJ.links hpos hprev, ?_, e2 ▸ hJ.curr, ?_, ?_⟩
    · rw [e1, List.length_append]
      exact Nat.lt_of_lt_of_le hJ.idx (Nat.le_add_right _ _)
    · rw [e1]
      intro i j hij hj
      rw [List.length_append, List.length_singleton] at hj
      by_cases hjl : j < d.queue.length
      · rw [hold i (by omega), hold j hjl]
        exact hJ.mono i j hij hjl
      · have hj' : j = d.queue.length := by omega
        subst hj'
        rw [hnew]
        by_cases hil : i < d.queue.length
        · rw [hold i hil]
          exact hJ.near i hil
        · have hi' : i = d.queue.length := by omega
          rw [hi', hnew]
    · rw [e1]
      intro j hj
      rw [List.length_append, List.length_singleton] at hj
      rw [hold queueidx hJ.idx]
      by_cases hjl : j < d.queue.length
      · rw [hold j hjl]
        exact hJ.near j hjl
      · have hj' : j = d.queue.length := by omega
        rw [hj', hnew]

theorem depthHead_dequeue {data d : taskdata} {item : queueitem} {queueidx : Nat}
    (hI : DepthHead data) (hd : dequeue data = some (item, queueidx, d)) :
    DepthMid queueidx d := by
  obtain ⟨hget, rfl, rfl⟩ := dequeue_some hd
  have hlt : data.queuecurr < data.queue.length := by
    rw [List.get?_eq_getElem?] at hget
    exact (List.getElem?_eq_some_iff.mp hget).1
  exact ⟨hI.links, hlt, rfl, hI.mono, hI.near hlt⟩

theorem depthMid_end {queueidx : Nat} {d : taskdata} (hJ : DepthMid queueidx d) :
    DepthHead d := by
  have h1 := hJ.idx
  have h2 := hJ.curr
  refine ⟨hJ.links, by omega, by omega, hJ.mono, fun hlt j hj => ?_⟩
  have := hJ.mono queueidx d.queuecurr (by omega) hlt
  have := hJ.near j hj
  omega

/-- During `solve` the queue is in order of depth. -/
theorem solve_iter_depth (field0 : Field) (data0 : taskdata) (h0 : Fresh data0) (k : Nat)
    (s : Field × taskdata) (h : solve_iter k field0 (solve_init field0 data0) = some s) :
    DepthHead s.2 := by
  refine solve_iter_data_inv DepthHead DepthMid
    (fun _ _ _ _ hI hd => depthHead_dequeue hI hd)
    (fun _ _ _ _ _ _ hJ hs => depthMid_show hJ hs)
    (fun _ _ t nx ny dir hJ => depthMid_enqueue t nx ny dir hJ)
    (fun _ _ hJ => depthMid_end hJ) field0 _ ?_ k s h
  obtain ⟨e1, -, -, -, e2⟩ := solve_init_eq field0 data0 h0
  have hlen : (solve_init field0 data0).queue.length = 1 := by rw [e1]; rfl
  refine ⟨?_, by omega, by omega, ?_, ?_⟩
  · rw [e1]
    intro i e hi
    match i, hi with
    | 0, hi =>
      simp only [List.get?_cons_zero, Option.some.injEq] at hi
      subst hi
      exact ⟨fun _ => rfl, fun h => absurd h (by omega)⟩
    | i + 1, hi => simp at hi
  · intro i j hij hj
    have hj0 : j = 0 := by omega
    have hi0 : i = 0 := by omega
    rw [hi0, hj0]
  · intro _ j hj
    have hj0 : j = 0 := by omega
    rw [hj0, depth_zero]
    exact Nat.zero_le _

/-- C16.  With `depth 0 = 0` and `depth i = depth (queue[i].prev) + 1` for `i > 0`: at the
head of every iteration of `solve` the depths of the queue entries do not decrease with the
index, and the last entry is at most 1 deeper than the entry about to be expanded; and
during the iteration that expands entry `queueidx`, after any number of its calls of
`process_coords`, the depths still do not decrease with the index and the last entry is at
most 1 deeper than entry `queueidx` (and not less deep).  So the queue is visited in order
of increasing action count. -/
theorem depth_nondecreasing (field0 : Field) (data0 : taskdata) (h0 : Fresh data0) (k : Nat)
    (s : Field × taskdata) (h : solve_iter k field0 (solve_init field0 data0) = some s) :
    depth s.2.queue 0 = 0 ∧
    (∀ i, 0 < i → i < s.2.queuesize →
      depth s.2.queue i = depth s.2.queue (s.2.queue.getD i default).prev + 1) ∧
    (∀ i j, i ≤ j → j < s.2.queuesize → depth s.2.queue i ≤ depth s.2.queue j) ∧
    (s.2.queuecurr < s.2.queuesize →
      depth s.2.queue (s.2.queuesize - 1) ≤ depth s.2.queue s.2.queuecurr + 1) ∧
    (∀ (item : queueitem) (queueidx : Nat) (d d' : taskdata) (f : Field) (x y : Nat)
        (cs : List (Bool × Nat × Nat × Nat)),
      dequeue s.2 = some (item, queueidx, d) →
      run_calls f x y queueidx cs d = some d' →
      (∀ i, 0 < i → i < d'.queuesize →
        depth d'.queue i = depth d'.queue (d'.queue.getD i default).prev + 1) ∧
      (∀ i j, i ≤ j → j < d'.queuesize → depth d'.queue i ≤ depth d'.queue j) ∧
      depth d'.queue queueidx ≤ depth d'.queue (d'.queuesize - 1) ∧
      depth d'.queue (d'.queuesize - 1) ≤ depth d'.queue queueidx + 1) := by
  have hI := solve_iter_depth field0 data0 h0 k s h
  refine ⟨rfl, fun i hi hlt => depth_succ _ hI.links i hi hlt, hI.mono, fun hlt => ?_, ?_⟩
  · exact hI.near hlt _ (by unfold taskdata.queuesize at hlt ⊢; omega)
  · intro item queueidx d d' f x y cs hd hr
    have hJ := run_calls_data_inv DepthMid
      (fun _ _ _ _ _ _ hJ hs => depthMid_show hJ hs)
      (fun _ _ t nx ny dir hJ => depthMid_enqueue t nx ny dir hJ) f x y queueidx cs d d'
      (depthHead_dequeue hI hd) hr
    have hidx := hJ.idx
    refine ⟨fun i hi hlt => depth_succ _ hJ.links i hi hlt, hJ.mono, ?_, ?_⟩
    · exact hJ.mono _ _ (by unfold taskdata.queuesize; omega)
        (by unfold taskdata.queuesize; omega)
    · exact hJ.near _ (by unfold taskdata.queuesize; omega)

/-- C16 after two iterations on the 2 x 2 puzzle `s x` / `. o`: the three entries have the
depths 0, 1 and 2. -/
theorem depth_nondecreasing_witness :
    ∃ s, solve_iter 2 corner_field (solve_init corner_field corner_data) = some s ∧
      (∀ i j, i ≤ j → j < s.2.queuesize → depth s.2.queue i ≤ depth s.2.queue j) ∧
      [depth s.2.queue 0, depth s.2.queue 1, depth s.2.queue 2] = [0, 1, 2] :=
  ⟨_, rfl, (depth_nondecreasing corner_field corner_data corner_valid.fresh 2 _ rfl).2.2.1,
    by decide⟩

/-! ## The start cell that `input` records -/

theorem cell_ok_flags (v : Nat) (h : cell_ok v) :
    (v &&& WALL ≠ 0 → v &&& BOX = 0) ∧
    (v &&& CURR ≠ 0 → v &&& WALL = 0 ∧ v &&& BOX = 0) := by
  rcases h with rfl | rfl | rfl | rfl | rfl | rfl | rfl <;> decide

theorem startInv_other {s : InputState} {p : Nat × Nat} {rem : List (Nat × Nat)}
    (hs : StartInv s (p :: rem)) (v : Nat) (hv : cell_ok v) (hc : v &&& CURR = 0)
    (f : List Char) (b d : Nat) :
    StartInv { s with field := s.field.set p.1 p.2 v, boxcount := b, destcount := d, f := f }
      rem := by
  refine ⟨fun i j => ?_, fun i j h => ?_, fun h => ?_⟩
  · simp only [Field.set_apply]
    split
    · exact hv
    · exact hs.cellok i j
  · simp only [Field.set_apply] at h
    split at h
    · exact absurd hc h
    · exact hs.curr_imp i j h
  · obtain ⟨h1, h2⟩ := hs.start_has h
    refine ⟨fun hm => h1 (List.mem_cons_of_mem _ hm), ?_⟩
    simp only [Field.set_apply]
    rw [if_neg (fun e => h1 (by
      have : (s.data.ystart, s.data.xstart) = p := Prod.ext e.1 e.2
      rw [this]
      exact List.mem_cons_self _ _))]
    exact h2

theorem startInv_start {s : InputState} {p : Nat × Nat} {rem : List (Nat × Nat)}
    (hs : StartInv s (p :: rem)) (hp : p ∉ rem) (hj : p.2 ≠ NMAX) (v : Nat) (hv : cell_ok v)
    (hc : v &&& CURR ≠ 0) (hx : s.data.xstart = NMAX) (f : List Char) (b d : Nat) :
    StartInv { s with field := s.field.set p.1 p.2 v,
                      data := { s.data with xstart := p.2, ystart := p.1 },
                      boxcount := b, destcount := d, f := f } rem := by
  refine ⟨fun i j => ?_, fun i j h => ?_, fun _ => ⟨hp, ?_⟩⟩
  · simp only [Field.set_apply]
    split
    · exact hv
    · exact hs.cellok i j
  · simp only [Field.set_apply] at h
    split at h
    · rename_i e
      exact ⟨hj, e.1, e.2⟩
    · exact absurd hx (hs.curr_imp i j h).1
  · show (s.field.set p.1 p.2 v) p.1 p.2 &&& CURR ≠ 0
    rw [Field.set_apply, if_pos ⟨rfl, rfl⟩]
    exact hc

theorem input_cell_startInv {s s' : InputState} {p : Nat × Nat} {rem : List (Nat × Nat)}
    (hs : StartInv s (p :: rem)) (hp : p ∉ rem) (hj : p.2 ≠ NMAX)
    (h : input_cell s p.1 p.2 = Except.ok s') : StartInv s' rem := by
  unfold input_cell at h
  split at h
  · cases h
  · rename_i c f _
    split_ifs at h with h1 h2 h3 h4 h5 h6 h7 h8 h9 <;> cases h
    · exact startInv_other hs BOX (by unfold cell_ok; simp) (by decide) _ _ _
    · exact startInv_other hs (BOX ||| DEST) (by unfold cell_ok; simp) (by decide) _ _ _
    · exact startInv_start hs hp hj CURR (by unfold cell_ok; simp) (by decide)
        (by simpa using h4) _ _ _
    · exact startInv_start hs hp hj (CURR ||| DEST) (by unfold cell_ok; simp) (by decide)
        (by simpa using h6) _ _ _
    · exact startInv_other hs DEST (by unfold cell_ok; simp) (by decide) _ _ _
    · exact startInv_other hs WALL (by unfold cell_ok; simp) (by decide) _ _ _
    · exact startInv_other hs 0 (by unfold cell_ok; simp) (by decide) _ _ _

theorem input_fold_startInv (ps : List (Nat × Nat)) (hnd : ps.Nodup)
    (hcol : ∀ p ∈ ps, p.2 ≠ NMAX) (s s' : InputState) (hs : StartInv s ps)
    (h : ps.foldlM (fun s p => input_cell s p.1 p.2) s = Except.ok s') : StartInv s' [] := by
  induction ps generalizing s with
  | nil =>
    cases h
    exact hs
  | cons p ps ih =>
    obtain ⟨hp, hnd'⟩ := List.nodup_cons.mp hnd
    rw [List.foldlM_cons] at h
    cases h1 : input_cell s p.1 p.2 with
    | error e => rw [h1] at h; cases h
    | ok s1 =>
      rw [h1] at h
      exact ih hnd' (fun q hq => hcol q (List.mem_cons_of_mem _ hq)) s1
        (input_cell_startInv hs hp (hcol p (by simp)) h1) h

/-- The array and context that `input` returns for an `M` x `N` file, `M, N ≤ 14`, hold the
player consistently at the start cell. -/
theorem input_playerOK (M N : Nat) (f : List Char) (field : Field) (data : taskdata)
    (hM : M ≤ 14) (hN : N ≤ 14) (h : input M N f = Except.ok (field, data)) :
    PlayerOK data.M data.N field data.xstart data.ystart := by
  have hv := input_valid M N f field data hM hN h
  unfold input at h
  dsimp only at h
  rw [foldlM_nested (fun s i j => input_cell s i j)] at h
  split at h
  · cases h
  · rename_i s hs
    have hinv : StartInv s [] := by
      refine input_fold_startInv (cells M N) (nodup_cells M N) ?_ _ s ?_ hs
      · intro p hp
        have := (mem_cells.mp hp).2.2
        unfold NMAX
        omega
      · refine ⟨fun i j => ?_, fun i j hc => ?_, fun hx => absurd rfl hx⟩
        · dsimp only
          unfold cell_ok
          split <;> simp
        · dsimp only at hc
          split at hc <;> exact absurd (by decide) hc
    split_ifs at h with h1 h2
    injection h with h
    injection h with hf hd
    subst hf hd
    have hx : s.data.xstart ≠ NMAX := h2
    obtain ⟨-, hcurr⟩ := hinv.start_has hx
    have hflags := cell_ok_flags _ (hinv.cellok s.data.ystart s.data.xstart)
    refine ⟨⟨hv.hy, hv.hx⟩, fun i j _ => ⟨fun hc => ?_, fun e => ?_⟩, fun i j _ hw => ?_,
      hflags.2 hcurr⟩
    · exact (hinv.curr_imp i j hc).2
    · rw [e.1, e.2]
      exact hcurr
    · exact (cell_ok_flags _ (hinv.cellok i j)).1 hw

/-! ## C19: the player in the stored boards -/

theorem lor_curr_ne_zero (c : Nat) : (c ||| CURR) &&& CURR ≠ 0 := by
  have h : (c ||| CURR).testBit 3 = true := by
    rw [Nat.testBit_lor, show CURR.testBit 3 = true from by decide, Bool.or_true]
  intro h0
  have h2 : ((c ||| CURR) &&& CURR).testBit 3 = true := by
    rw [Nat.testBit_land, h]
    decide
  rw [h0] at h2
  simp at h2

theorem land_not_curr (c : Nat) : (c &&& (0xff - CURR)) &&& CURR = 0 := by
  rw [Nat.and_assoc]
  exact Nat.and_zero c

/-- The `CURR` flag after a move: set on the target cell, cleared on the cell left, and as
before on every other cell. -/
theorem move_field_curr (field : Field) (x y nx ny i j : Nat) :
    move_field field x y nx ny i j &&& CURR ≠ 0 ↔
      (i = ny ∧ j = nx) ∨ (¬ (i = y ∧ j = x) ∧ field i j &&& CURR ≠ 0) := by
  unfold move_field
  simp only [Field.set_apply]
  by_cases h1 : i = ny ∧ j = nx
  · rw [if_pos h1]
    exact ⟨fun _ => Or.inl h1, fun _ => lor_curr_ne_zero _⟩
  · rw [if_neg h1]
    by_cases h2 : i = y ∧ j = x
    · rw [if_pos h2]
      constructor
      · intro h
        exact absurd (land_not_curr _) h
      · rintro (h | h)
        · exact absurd h h1
        · exact absurd h2 h.1
    · rw [if_neg h2]
      exact ⟨fun h => Or.inr ⟨h2, h⟩, fun h => h.elim (fun h => absurd h h1) (fun h => h.2)⟩

/-- A push sets and clears `CURR` as the move to the same cell does. -/
theorem push_field_curr (field : Field) (x y nx ny nextx nexty i j : Nat) :
    push_field field x y nx ny nextx nexty i j &&& CURR =
      move_field field x y nx ny i j &&& CURR := by
  have e3 : ∀ c, (c &&& (0xff - BOX)) &&& CURR = c &&& CURR :=
    fun c => land_mask c _ CURR (by decide)
  have e4 : ∀ c, (c ||| BOX) &&& CURR = c &&& CURR := fun c => lor_mask c _ CURR (by decide)
  rw [push_field_eq]
  simp only [Field.set_apply]
  split_ifs with h1 h2 h3
  · obtain ⟨rfl, rfl⟩ := h1
    obtain ⟨rfl, rfl⟩ := h2
    rw [e4, e3]
  · obtain ⟨rfl, rfl⟩ := h1
    rw [e4]
  · obtain ⟨rfl, rfl⟩ := h3
    rw [e3]
  · rfl

theorem playerOK_congr (M N : Nat) (b b' : Field) (x y : Nat)
    (h : ∀ i j, inside M N i j → b' i j = b i j) (hb : PlayerOK M N b x y) :
    PlayerOK M N b' x y := by
  refine ⟨hb.hin, fun i j hin => ?_, fun i j hin => ?_, ?_⟩
  · rw [h i j hin]
    exact hb.only i j hin
  · rw [h i j hin]
    exact hb.nowb i j hin
  · rw [h y x hb.hin]
    exact hb.free

/-- A candidate built from a board that holds the player consistently holds the player
consistently at the target cell, when the target is on the board. -/
theorem candidate_playerOK (M N : Nat) (b : Field) (x y nx ny : Nat)
    (hb : PlayerOK M N b x y) (hn : inside M N ny nx) (t : Field) (ht : candidate b x y nx ny = some t) : PlayerOK M N t nx ny := by
  have honly : ∀ i j, inside M N i j →
      (move_field b x y nx ny i j &&& CURR ≠ 0 ↔ i = ny ∧ j = nx) := by
    intro i j hin
    rw [move_field_curr]
    constructor
    · rintro (h | ⟨h1, h2⟩)
      · exact h
      · exact absurd ((hb.only i j hin).mp h2) h1
    · exact fun h => Or.inl h
  unfold candidate at ht
  split at ht
  · rename_i hempty
    cases ht
    obtain ⟨hw, hx⟩ := (empty_ne_zero_iff _).mp hempty
    refine ⟨hn, honly, fun i j hin => ?_, ?_, ?_⟩
    · rw [move_field_flag _ _ _ _ _ WALL (by decide) (by decide),
        move_field_flag _ _ _ _ _ BOX (by decide) (by decide)]
      exact hb.nowb i j hin
    · rw [move_field_flag _ _ _ _ _ WALL (by decide) (by decide)]
      exact hw
    · rw [move_field_flag _ _ _ _ _ BOX (by decide) (by decide)]
      exact hx
  · split at ht
    · rename_i hbox
      split at ht
      · rename_i hfree
        cases ht
        obtain ⟨hw, hx⟩ := (empty_ne_zero_iff _).mp hfree
        have hwall : ∀ i j, push_field b x y nx ny (beyond x nx) (beyond y ny) i j &&& WALL =
            b i j &&& WALL := fun i j =>
          push_field_flag _ _ _ _ _ _ _ WALL (by decide) (by decide) (by decide) (by decide) i j
        have hne : ¬ (ny = beyond y ny ∧ nx = beyond x nx) := fun e => by
          rw [← e.1, ← e.2] at hx
          exact hbox hx
        have hbx := push_field_box b x y nx ny (beyond x nx) (beyond y ny)
        have hnw : b ny nx &&& WALL = 0 := by
          by_contra hne'
          exact hbox (hb.nowb ny nx hn hne')
        refine ⟨hn, fun i j hin => ?_, fun i j hin hwl => ?_, ?_, ?_⟩
        · rw [push_field_curr]
          exact honly i j hin
        · rw [hwall] at hwl
          by_cases h1 : i = beyond y ny ∧ j = beyond x nx
          · rw [h1.1, h1.2] at hwl
            exact absurd hw hwl
          · by_cases h2 : i = ny ∧ j = nx
            · exact (hbx i j).2.1 h1 h2
            · rw [(hbx i j).2.2 h1 h2]
              exact hb.nowb i j hin hwl
        · rw [hwall]
          exact hnw
        · exact (hbx ny nx).2.1 hne ⟨rfl, rfl⟩
      · cases ht
    · cases ht

theorem consistentEntry_inherited (M N : Nat) (hM : M ≤ 14) (hN : N ≤ 14) (field0 : Field)
    (hwall : ∀ i < NMAX, ∀ j < NMAX, ¬ inside M N i j → field0 i j &&& WALL ≠ 0) :
    Inherited M N field0 (ConsistentEntry M N field0) := by
  intro item queueidx d c t hitem hdM hdN hc hg ht
  obtain ⟨hgood, hplayer⟩ := hitem
  have hgood' := goodEntry_inherited M N hM hN field0 hwall item queueidx d c t hgood hdM hdN
    hc hg ht
  refine ⟨hgood', ?_⟩
  have hcongr : decode_position item.position field0 d =
      decode_position item.position field0 (taskdata.init M N 0 0) :=
    decode_position_congr _ _ hdM hdN
  rw [hcongr] at ht
  have hw : ∀ i < NMAX, ∀ j < NMAX, ¬ inside M N i j →
      decode_position item.position field0 (taskdata.init M N 0 0) i j &&& WALL ≠ 0 := by
    intro i hi j hj hin
    rw [decode_position_outside item.position field0 (taskdata.init M N 0 0) i j hin]
    exact hwall i hi j hj hin
  obtain ⟨a1, -⟩ := call_inside M N hM hN _ hw _ _ hgood.2 c hc hg
  have hpt := candidate_playerOK M N _ _ _ _ _ hplayer a1 t ht
  have htgood := candidate_good M N hM hN field0 _ hgood.1 hw _ _ hgood.2 c hc hg t ht
  obtain ⟨⟨h1, h2⟩, h3, h4⟩ := a1
  have hcurr : decode_curr (candidate_item t c.2.1 c.2.2.1 queueidx c.2.2.2 d).curr =
      (c.2.1, c.2.2.1) := decode_encode_curr _ (by omega) _ (by omega)
  rw [hcurr]
  apply playerOK_congr M N t _ _ _ _ hpt
  intro i j hin
  show decode_position (encode_position t d) field0 (taskdata.init M N 0 0) i j = t i j
  have henc : encode_position t d = encode_position t (taskdata.init M N 0 0) :=
    @encode_position_congr t d (taskdata.init M N 0 0) hdM hdN
  rw [henc]
  exact decode_encode_inside t field0 (taskdata.init M N 0 0)
    (fun i j h1 h2 h3 h4 => (htgood.1 i j ⟨⟨h1, h2⟩, h3, h4⟩).1) i j hin.1 hin.2

theorem input_sizes (M N : Nat) (f : List Char) (field : Field) (data : taskdata)
    (h : input M N f = Except.ok (field, data)) : data.M = M ∧ data.N = N := by
  unfold input at h
  dsimp only at h
  split at h
  · cases h
  · rename_i s hs
    have hinv : s.data.M = M ∧ s.data.N = N := by
      refine foldlM_inv (fun s => s.data.M = M ∧ s.data.N = N) _ (List.range' 1 M) ?_ _ s
        ⟨rfl, rfl⟩ hs
      intro i _ s1 s2 h1 h2
      refine foldlM_inv (fun s => s.data.M = M ∧ s.data.N = N) _ (List.range' 1 N) ?_ s1 s2
        h1 h2
      intro j _ s3 s4 h3 h4
      unfold input_cell at h4
      split at h4
      · cases h4
      · split_ifs at h4 <;> cases h4 <;> exact h3
    split_ifs at h
    injection h with h
    injection h with hf hd
    subst hd
    exact hinv

/-- During `solve` on a puzzle that `input` accepted, `M, N ≤ 14`, every queue entry is good
and stores a board that holds the player consistently. -/
theorem solve_iter_consistent (M N : Nat) (f : List Char) (field : Field) (data : taskdata)
    (hM : M ≤ 14) (hN : N ≤ 14) (hin : input M N f = Except.ok (field, data)) (k : Nat)
    (s : Field × taskdata) (h : solve_iter k field (solve_init field data) = some s) :
    LoopInv data.M data.N field (ConsistentEntry data.M data.N field) s := by
  have hv := input_valid M N f field data hM hN hin
  have hp := input_playerOK M N f field data hM hN hin
  have hroot : ∀ i j, inside data.M data.N i j →
      decode_position (encode_position field data) field (taskdata.init data.M data.N 0 0) i j
        = field i j := by
    intro i j hin'
    have henc : encode_position field data =
        encode_position field (taskdata.init data.M data.N 0 0) :=
      @encode_position_congr field data (taskdata.init data.M data.N 0 0) rfl rfl
    rw [henc]
    exact decode_encode_inside field field (taskdata.init data.M data.N 0 0)
      (fun i j h1 h2 h3 h4 => hv.hcell i j ⟨⟨h1, h2⟩, h3, h4⟩) i j hin'.1 hin'.2
  have hxs : data.xstart % 256 = data.xstart := by
    have := hv.hx
    have := hv.hN
    exact Nat.mod_eq_of_lt (by omega)
  have hys : data.ystart % 256 = data.ystart := by
    have := hv.hy
    have := hv.hM
    exact Nat.mod_eq_of_lt (by omega)
  have hcurr : decode_curr (encode_curr (data.xstart % 256) (data.ystart % 256)) =
      (data.xstart, data.ystart) := by
    have := hv.hx
    have := hv.hy
    have := hv.hM
    have := hv.hN
    rw [hxs, hys]
    exact decode_encode_curr _ (by omega) _ (by omega)
  refine solve_iter_inv data.M data.N field _
    (consistentEntry_inherited _ _ hv.hM.2 hv.hN.2 field hv.hwall) _ _
    (solve_init_inv field data hv.fresh _ ⟨⟨?_, ?_⟩, ?_⟩) k s h
  · exact goodBoard_congr _ _ field field _ hroot
      ⟨fun i j hin' => ⟨hv.hcell i j hin', rfl, rfl⟩, rfl⟩
  · exact root_playerInside data hv.hM.2 hv.hN.2 hv.hx hv.hy _
  · dsimp only
    rw [hcurr]
    exact playerOK_congr _ _ field _ _ _ hroot hp

/-- C19.  For every puzzle with `M, N ≤ 14` that `input` accepts, every queue entry at the
head of any iteration of `solve` is consistent about the player: with `(x, y)` decoded from
its `curr` byte and its position bytes decoded into a board, the cell `(x, y)` is on the
board, it is the one cell of rows `1..M`, columns `1..N` with the `CURR` flag, and it has
neither the `WALL` nor the `BOX` flag. -/
theorem frontier_player_consistent (M N : Nat) (f : List Char) (field : Field)
    (data : taskdata) (hM : M ≤ 14) (hN : N ≤ 14)
    (hin : input M N f = Except.ok (field, data)) (k : Nat) (s : Field × taskdata)
    (hk : solve_iter k field (solve_init field data) = some s) (e : queueitem)
    (he : e ∈ s.2.queue) :
    inside M N (decode_curr e.curr).2 (decode_curr e.curr).1 ∧
    (∀ i j, inside M N i j →
      (decode_position e.position field s.2 i j &&& CURR ≠ 0 ↔
        i = (decode_curr e.curr).2 ∧ j = (decode_curr e.curr).1)) ∧
    decode_position e.position field s.2 (decode_curr e.curr).2 (decode_curr e.curr).1
      &&& WALL = 0 ∧
    decode_position e.position field s.2 (decode_curr e.curr).2 (decode_curr e.curr).1
      &&& BOX = 0 := by
  have hinv := solve_iter_consistent M N f field data hM hN hin k s hk
  obtain ⟨eM, eN⟩ := input_sizes M N f field data hin
  obtain ⟨-, hp⟩ := hinv.hq e he
  have hcongr : decode_position e.position field s.2 =
      decode_position e.position field (taskdata.init data.M data.N 0 0) :=
    @decode_position_congr e.position field s.2 (taskdata.init data.M data.N 0 0)
      hinv.hM hinv.hN
  rw [hcongr, ← eM, ← eN]
  exact ⟨hp.hin, hp.only, hp.free.1, hp.free.2⟩

/-- C19 after two iterations on the 2 x 2 puzzle `s x` / `. o`: the third entry stores the
player at column 2, row 2, and its board has `CURR` there, on the goal, and no wall or box. -/
theorem frontier_player_consistent_witness :
    ∃ s, solve_iter 2 corner_field (solve_init corner_field corner_data) = some s ∧
      ∃ e, s.2.queue.get? 2 = some e ∧ decode_curr e.curr = (2, 2) ∧
        decode_position e.position corner_field s.2 2 2 = CURR ||| DEST ∧
        (∀ i j, inside 2 2 i j →
          (decode_position e.position corner_field s.2 i j &&& CURR ≠ 0 ↔
            i = (decode_curr e.curr).2 ∧ j = (decode_curr e.curr).1)) :=
  ⟨_, rfl, _, rfl, by decide, by decide,
    (frontier_player_consistent 2 2 ['s', 'x', '.', 'o'] corner_field corner_data (by decide)
      (by decide) rfl 2 _ rfl _ (by decide)).2.1⟩

/-! ## C15: the loop of `solve` ends -/

theorem ofDigits_inj (b : Nat) (hb : 0 < b) (l1 l2 : List Nat) (hlen : l1.length = l2.length)
    (h1 : ∀ x ∈ l1, x < b) (h2 : ∀ x ∈ l2, x < b)
    (h : Nat.ofDigits b l1 = Nat.ofDigits b l2) : l1 = l2 := by
  induction l1 generalizing l2 with
  | nil =>
    cases l2 with
    | nil => rfl
    | cons a t => simp at hlen
  | cons a1 t1 ih =>
    cases l2 with
    | nil => simp at hlen
    | cons a2 t2 =>
      rw [Nat.ofDigits_cons, Nat.ofDigits_cons] at h
      have ha1 := h1 a1 (by simp)
      have ha2 := h2 a2 (by simp)
      have hmod : a1 = a2 := by
        have := congrArg (fun n => n % b) h
        simp only [Nat.add_mul_mod_self_left] at this
        rwa [Nat.mod_eq_of_lt ha1, Nat.mod_eq_of_lt ha2] at this
      subst hmod
      have hdiv : Nat.ofDigits b t1 = Nat.ofDigits b t2 := by
        have h' : b * Nat.ofDigits b t1 = b * Nat.ofDigits b t2 := by omega
        exact Nat.eq_of_mul_eq_mul_left hb h'
      rw [ih t2 (by simpa using hlen) (fun x hx => h1 x (by simp [hx]))
        (fun x hx => h2 x (by simp [hx])) hdiv]

theorem nodup_bounded_length (l : List Nat) (hnd : l.Nodup) (K : Nat)
    (h : ∀ x ∈ l, x < K) : l.length ≤ K := by
  rw [← List.toFinset_card_of_nodup hnd]
  calc l.toFinset.card ≤ (Finset.range K).card :=
        Finset.card_le_card (fun x hx => Finset.mem_range.mpr (h x (List.mem_toFinset.mp hx)))
    _ = K := Finset.card_range K

/-- Distinct keys made of `codelength + 1` bytes: the queue holds at most
`256 ^ (codelength + 1)` entries. -/
theorem queue_length_le (data : taskdata) (hd : DistinctKeys data) (hk : KeysBounded data) :
    data.queue.length ≤ 256 ^ (data.codelength + 1) := by
  have hkey : ∀ e ∈ data.queue, key data e = (e.curr, e.position) := by
    intro e he
    unfold key
    rw [List.take_of_length_le (by rw [(hk e he).2.1])]
  have hdig : ∀ k ∈ data.queue.map (key data),
      (k.1 :: k.2).length = data.codelength + 1 ∧ ∀ x ∈ k.1 :: k.2, x < 256 := by
    intro k hkm
    obtain ⟨e, he, rfl⟩ := List.mem_map.mp hkm
    rw [hkey e he]
    obtain ⟨h1, h2, h3⟩ := hk e he
    refine ⟨by simp [h2], fun x hx => ?_⟩
    rcases List.mem_cons.mp hx with h | h
    · rw [h]; exact h1
    · exact h3 x h
  have hnd : ((data.queue.map (key data)).map
      fun k => Nat.ofDigits 256 (k.1 :: k.2)).Nodup := by
    refine List.Nodup.map_on ?_ hd
    intro k1 hk1 k2 hk2 heq
    have := ofDigits_inj 256 (by decide) _ _
      (by rw [(hdig k1 hk1).1, (hdig k2 hk2).1]) (hdig k1 hk1).2 (hdig k2 hk2).2 heq
    injection this with e1 e2
    exact Prod.ext e1 e2
  have hlen := nodup_bounded_length _ hnd (256 ^ (data.codelength + 1)) (by
    intro x hx
    obtain ⟨k, hkm, rfl⟩ := List.mem_map.mp hx
    have := Nat.ofDigits_lt_base_pow_length (by decide : 1 < 256) (hdig k hkm).2
    rwa [(hdig k hkm).1] at this)
  simpa using hlen

theorem pack_lt (vs : List Nat) : ∀ b ∈ pack vs, b < 256 := by
  induction vs using pack.induct with
  | case1 => intro b hb; cases hb
  | case2 a =>
    intro b hb
    rw [pack, List.mem_singleton] at hb
    rw [hb]
    exact Nat.mod_lt _ (by decide)
  | case3 a c r ih =>
    intro b hb
    rw [pack] at hb
    rcases List.mem_cons.mp hb with h | h
    · rw [h]
      exact Nat.mod_lt _ (by decide)
    · exact ih b h

/-- The entry submitted for a candidate has a key made of bytes, when `codelength` is the
number of bytes of an encoded board. -/
theorem candidate_item_bounded (t : Field) (nx ny prev dir : Nat) (d : taskdata)
    (hL : d.codelength = (d.M * d.N + 1) / 2) :
    (candidate_item t nx ny prev dir d).curr < 256 ∧
    (candidate_item t nx ny prev dir d).position.length = d.codelength ∧
    ∀ b ∈ (candidate_item t nx ny prev dir d).position, b < 256 := by
  refine ⟨Nat.mod_lt _ (by decide), ?_, ?_⟩
  · show (encode_position t d).length = d.codelength
    rw [encode_position_eq, pack_length, List.length_map, cells_length, hL]
  · show ∀ b ∈ encode_position t d, b < 256
    rw [encode_position_eq]
    exact pack_lt _

theorem expanding_show {L queueidx : Nat} {d d' : taskdata} {f : Field} {p dir : Nat}
    (hJ : Expanding L queueidx d) (hs : show_solution f p dir d = some d') :
    Expanding L queueidx d' := by
  obtain ⟨eq, eM, eN, -, ec, el, eH⟩ := show_solution_some hs
  refine ⟨by rw [eq]; exact hJ.links, by rw [eq]; exact hJ.hidx, by rw [ec]; exact hJ.cursor,
    ?_, ?_, ?_, by rw [el]; exact hJ.hL, by rw [eM, eN]; exact hJ.hMN⟩
  · intro i hi
    rw [eq] at hi ⊢
    rw [eH, hashcode_congr_data _ el]
    exact hJ.chained i hi
  · unfold DistinctKeys
    rw [eq, key_congr_data el]
    exact hJ.distinct
  · unfold KeysBounded
    rw [eq, el]
    exact hJ.bounded

theorem expanding_enqueue {L queueidx : Nat} {d : taskdata} (t : Field) (nx ny dir : Nat)
    (hJ : Expanding L queueidx d) :
    Expanding L queueidx (enqueue_if_unique (candidate_item t nx ny queueidx dir d) d) := by
  obtain ⟨e1, eM, eN, -, e2, el⟩ := enqueue_if_unique_queue
    (candidate_item t nx ny queueidx dir d) d
  have hb := candidate_item_bounded t nx ny queueidx dir d (by rw [hJ.hL, hJ.hMN])
  refine ⟨?_, ?_, by rw [e2]; exact hJ.cursor, enqueue_if_unique_chained _ _ hJ.chained,
    enqueue_if_unique_distinct _ _ hJ.chained hJ.distinct, ?_, by rw [el]; exact hJ.hL,
    by rw [eM, eN]; exact hJ.hMN⟩
  · rcases e1 with e1 | e1
    · rw [e1]; exact hJ.links
    · rw [e1]
      exact backLinks_append _ _ hJ.links (by have := hJ.hidx; omega) hJ.hidx
  · rcases e1 with e1 | e1
    · rw [e1]; exact hJ.hidx
    · rw [e1, List.length_append]
      have := hJ.hidx
      omega
  · unfold KeysBounded
    rw [el]
    rcases e1 with e1 | e1
    · rw [e1]; exact hJ.bounded
    · rw [e1]
      intro e he
      rcases List.mem_append.mp he with h | h
      · exact hJ.bounded e h
      · rw [List.mem_singleton] at h
        rw [h]
        exact hb

/-- A call of `process_coords` returns when predecessor links point backwards and `prev` is
the index of an entry. -/
theorem process_coords_total (field : Field) (x y nx ny prev dir : Nat) (data : taskdata)
    (hbl : BackLinks data.queue) (hp : prev < data.queue.length) :
    ∃ d, process_coords field x y nx ny prev dir data = some d := by
  rw [process_coords_eq]
  by_cases hs : data.solved ≠ 0
  · rw [if_pos hs]; exact ⟨_, rfl⟩
  · rw [if_neg hs]
    cases candidate field x y nx ny with
    | none => exact ⟨_, rfl⟩
    | some t =>
      dsimp only
      unfold process_candidate
      by_cases hc : check_solved t data ≠ 0
      · rw [if_pos hc]
        obtain ⟨l, hl, -⟩ := show_solution_walk_spec data hbl prev hp data.queuesize [] hp
        unfold show_solution
        rw [hl]
        exact ⟨_, rfl⟩
      · rw [if_neg hc]; exact ⟨_, rfl⟩

theorem run_calls_total (L : Nat) (f : Field) (x y queueidx : Nat)
    (cs : List (Bool × Nat × Nat × Nat)) :
    ∀ d, Expanding L queueidx d →
      ∃ d', run_calls f x y queueidx cs d = some d' ∧ Expanding L queueidx d' := by
  induction cs with
  | nil => intro d hJ; exact ⟨d, rfl, hJ⟩
  | cons c cs ih =>
    intro d hJ
    unfold run_calls
    by_cases hc : c.1 = true
    · rw [if_pos hc]
      obtain ⟨d1, h1⟩ := process_coords_total f x y c.2.1 c.2.2.1 queueidx c.2.2.2 d
        hJ.links hJ.hidx
      rw [h1, Option.some_bind]
      refine ih d1 ?_
      rcases process_coords_cases h1 with rfl | ⟨t, -, -, -, hs⟩ | ⟨t, -, -, -, rfl⟩
      · exact hJ
      · exact expanding_show hJ hs
      · exact expanding_enqueue t _ _ _ hJ
    · rw [if_neg hc, Option.some_bind]
      exact ih d hJ

/-- One iteration of the loop of `solve`: when the condition of the loop holds the body
returns, the facts of `AtHead` hold again, and the cursor has advanced by one. -/
theorem solve_body_step (L : Nat) (field : Field) (data : taskdata) (hI : AtHead L data)
    (hc : solve_cond data = true) :
    ∃ s, solve_body field data = some s ∧ AtHead L s.2 ∧
      s.2.queuecurr = data.queuecurr + 1 := by
  have hne : data.queuecurr ≠ data.queue.length := by
    intro he
    simp [solve_cond, queue_empty, taskdata.queuesize, he] at hc
  have hlt : data.queuecurr < data.queue.length := by
    have := hI.cursor
    omega
  have hdq : dequeue data = some (data.queue.getD data.queuecurr default, data.queuecurr,
      { data with queuecurr := data.queuecurr + 1 }) := by
    unfold dequeue
    rw [getD_of_lt _ _ hlt]
  have hJ : Expanding L data.queuecurr { data with queuecurr := data.queuecurr + 1 } :=
    ⟨hI.links, hlt, rfl, hI.chained, hI.distinct, hI.bounded, hI.hL, hI.hMN⟩
  rw [solve_body_eq, hdq, Option.some_bind]
  obtain ⟨d', hd', hJ'⟩ := run_calls_total L _ _ _ _ (solve_calls _ _ _ _) _ hJ
  dsimp only at hd' ⊢
  rw [hd']
  refine ⟨_, rfl, ⟨hJ'.links, Nat.lt_of_le_of_lt (Nat.zero_le _) hJ'.hidx, ?_, hJ'.chained, hJ'.distinct,
    hJ'.bounded, hJ'.hL, hJ'.hMN⟩, hJ'.cursor⟩
  have h1 := hJ'.cursor
  have h2 := hJ'.hidx
  show d'.queuecurr ≤ d'.queue.length
  omega

theorem atHead_init (field0 : Field) (data0 : taskdata) (h0 : Fresh data0)
    (hMN : data0.N * data0.M < 2 ^ 32) :
    AtHead ((data0.M * data0.N + 1) / 2) (solve_init field0 data0) ∧
    (solve_init field0 data0).queuecurr = 0 := by
  obtain ⟨eq, eM, eN, -, ec⟩ := solve_init_eq field0 data0 h0
  have hl := solve_init_codelength field0 data0 hMN
  have hl' : (solve_init field0 data0).codelength = (data0.M * data0.N + 1) / 2 := by
    rw [hl, Nat.mul_comm data0.M data0.N]
    omega
  obtain ⟨b1, b2, b3⟩ := solve_iter_backLinks field0 data0 h0 0 _ rfl
  refine ⟨⟨b1, b2, b3, ?_, ?_, ?_, hl', by rw [eM, eN]⟩, ec⟩
  · unfold solve_init
    exact enqueue_if_unique_chained _ _ (chained_of_empty h0.hqueue)
  · unfold solve_init
    exact enqueue_if_unique_distinct _ _ (chained_of_empty h0.hqueue)
      (distinct_of_empty h0.hqueue)
  · unfold KeysBounded
    rw [eq, hl']
    intro e he
    rw [List.mem_singleton] at he
    subst he
    refine ⟨Nat.mod_lt _ (by decide), ?_, ?_⟩
    · show (encode_position field0 data0).length = _
      rw [encode_position_eq, pack_length, List.length_map, cells_length]
    · show ∀ b ∈ encode_position field0 data0, b < 256
      rw [encode_position_eq]
      exact pack_lt _

/-- After `j` iterations of the loop of `solve` the facts of `AtHead` hold and the cursor
has advanced by `j`. -/
theorem solve_iter_atHead (L : Nat) (field : Field) (data : taskdata) (hI : AtHead L data)
    (j : Nat) (s : Field × taskdata) (h : solve_iter j field data = some s) :
    AtHead L s.2 ∧ s.2.queuecurr = data.queuecurr + j := by
  induction j generalizing s with
  | zero =>
    cases h
    exact ⟨hI, rfl⟩
  | succ j ih =>
    unfold solve_iter at h
    cases h1 : solve_iter j field data with
    | none => rw [h1] at h; cases h
    | some s1 =>
      rw [h1, Option.some_bind] at h
      split at h
      · rename_i hc
        obtain ⟨s', hs', hA, hq⟩ := solve_body_step L s1.1 s1.2 (ih s1 h1).1 hc
        rw [hs'] at h
        cases h
        exact ⟨hA, by rw [hq, (ih s1 h1).2]; omega⟩
      · cases h

/-- The loop of `solve` either is still running after `j` iterations or has met a false
condition after at most `j` iterations. -/
theorem solve_iter_progress (L : Nat) (field : Field) (data : taskdata) (hI : AtHead L data)
    (j : Nat) :
    (∃ s, solve_iter j field data = some s ∧ solve_cond s.2 = true) ∨
    (∃ k, k ≤ j ∧ ∃ s, solve_iter k field data = some s ∧ solve_cond s.2 = false) := by
  induction j with
  | zero =>
    cases hc : solve_cond data with
    | true => exact Or.inl ⟨(field, data), rfl, hc⟩
    | false => exact Or.inr ⟨0, Nat.le_refl 0, (field, data), rfl, hc⟩
  | succ j ih =>
    rcases ih with ⟨s, hs, hc⟩ | ⟨k, hk, s, hs, hc⟩
    · obtain ⟨s', hs', -, -⟩ := solve_body_step L s.1 s.2
        (solve_iter_atHead L field data hI j s hs).1 hc
      have hnext : solve_iter (j + 1) field data = some s' := by
        unfold solve_iter
        rw [hs, Option.some_bind, if_pos hc]
        exact hs'
      cases hc' : solve_cond s'.2 with
      | true => exact Or.inl ⟨s', hnext, hc'⟩
      | false => exact Or.inr ⟨j + 1, Nat.le_refl _, s', hnext, hc'⟩
    · exact Or.inr ⟨k, by omega, s, hs, hc⟩

/-- The condition of the loop of `solve` is false within `256 ^ (L + 1)` iterations. -/
theorem solve_iter_stops (L : Nat) (field : Field) (data : taskdata) (hI : AtHead L data) :
    ∃ k, k ≤ 256 ^ (L + 1) ∧
      ∃ s, solve_iter k field data = some s ∧ solve_cond s.2 = false := by
  rcases solve_iter_progress L field data hI (256 ^ (L + 1)) with ⟨s, hs, hc⟩ | h
  · exfalso
    obtain ⟨hA, hq⟩ := solve_iter_atHead L field data hI _ s hs
    have hlen := queue_length_le s.2 hA.distinct hA.bounded
    rw [hA.hL] at hlen
    have hcur := hA.cursor
    have hne : s.2.queuecurr ≠ s.2.queue.length := by
      intro he
      simp [solve_cond, queue_empty, taskdata.queuesize, he] at hc
    omega
  · exact h

theorem solve_iter_front (k : Nat) (field : Field) (data : taskdata) :
    solve_iter (k + 1) field data =
      (if solve_cond data then solve_body field data else none).bind
        fun s => solve_iter k s.1 s.2 := by
  induction k with
  | zero =>
    unfold solve_iter
    simp only [solve_iter, Option.some_bind]
    cases (if solve_cond data = true then solve_body field data else none) <;> rfl
  | succ k ih =>
    rw [solve_iter, ih]
    cases (if solve_cond data = true then solve_body field data else none) with
    | none => rfl
    | some s1 =>
      simp only [Option.some_bind]
      rw [solve_iter]

/-- When the condition of the loop of `solve` is false after exactly `k` iterations, the
loop returns that state with any fuel of at least `k`. -/
theorem solve_loop_of_iter (k : Nat) : ∀ (field : Field) (data : taskdata)
    (s : Field × taskdata), solve_iter k field data = some s → solve_cond s.2 = false →
    ∀ fuel, k ≤ fuel → solve_loop fuel field data = some s := by
  induction k with
  | zero =>
    intro field data s h hc fuel _
    cases h
    cases fuel with
    | zero => unfold solve_loop; rw [if_neg (by rw [hc]; simp)]
    | succ n => unfold solve_loop; rw [if_neg (by rw [hc]; simp)]
  | succ k ih =>
    intro field data s h hc fuel hf
    rw [solve_iter_front] at h
    obtain ⟨n, rfl⟩ : ∃ n, fuel = n + 1 := ⟨fuel - 1, by omega⟩
    unfold solve_loop
    by_cases hc0 : solve_cond data = true
    · rw [if_pos hc0] at h ⊢
      cases hb : solve_body field data with
      | none => rw [hb] at h; cases h
      | some s1 =>
        rw [hb, Option.some_bind] at h
        rw [Option.some_bind]
        exact ih s1.1 s1.2 s h hc n (by omega)
    · rw [if_neg hc0] at h
      cases h

theorem solve_cond_false {data : taskdata} (h : solve_cond data = false) :
    data.solved ≠ 0 ∨ data.queuecurr = data.queuesize := by
  by_cases h1 : data.solved = 0
  · right
    by_contra h2
    simp [solve_cond, queue_empty, h1, h2] at h
  · exact Or.inl h1

/-- C15.  For every valid puzzle (`M, N ≤ 14`, the start cell on the board, walls outside
rows `1..M`, columns `1..N`, in a context where `solve` has not started) the loop of `solve`
ends.  Whenever the loop has run `j` iterations the cursor `queuecurr` is `j` (each iteration
advances it by exactly one), the keys of the stored entries are pairwise distinct, each key
is `codelength + 1` bytes with `codelength = (M * N + 1) / 2`, and so the queue holds at most
`256 ^ (codelength + 1)` entries.  Hence there is a `k ≤ 256 ^ (codelength + 1)` such that
the loop runs exactly `k` iterations and then finds its condition false, that is `solved` is
set or `queuecurr = queuesize`; with any fuel of at least `k` the loop returns that state and
`solve` returns. -/
theorem solve_terminates (field0 : Field) (data0 : taskdata)
    (hv : ValidPuzzle field0 data0) :
    (∀ j s, solve_iter j field0 (solve_init field0 data0) = some s →
      s.2.queuecurr = j ∧ DistinctKeys s.2 ∧ KeysBounded s.2 ∧
      s.2.codelength = (data0.M * data0.N + 1) / 2 ∧
      s.2.queuesize ≤ 256 ^ (s.2.codelength + 1)) ∧
    ∃ k, k ≤ 256 ^ ((data0.M * data0.N + 1) / 2 + 1) ∧
      ∃ s, solve_iter k field0 (solve_init field0 data0) = some s ∧
        (s.2.solved ≠ 0 ∨ s.2.queuecurr = s.2.queuesize) ∧
        ∀ fuel, k ≤ fuel →
          solve_loop fuel field0 (solve_init field0 data0) = some s ∧
          (solve fuel field0 data0).isSome = true := by
  have hMN : data0.N * data0.M < 2 ^ 32 :=
    lt_of_le_of_lt (Nat.mul_le_mul hv.hN.2 hv.hM.2) (by norm_num)
  obtain ⟨hI, h0⟩ := atHead_init field0 data0 hv.fresh hMN
  refine ⟨?_, ?_⟩
  · intro j s hs
    obtain ⟨hA, hq⟩ := solve_iter_atHead _ field0 _ hI j s hs
    exact ⟨by rw [hq, h0]; omega, hA.distinct, hA.bounded, hA.hL,
      queue_length_le s.2 hA.distinct hA.bounded⟩
  · obtain ⟨k, hk, s, hs, hc⟩ := solve_iter_stops _ field0 _ hI
    refine ⟨k, hk, s, hs, solve_cond_false hc, ?_⟩
    intro fuel hf
    have hloop := solve_loop_of_iter k field0 _ s hs hc fuel hf
    refine ⟨hloop, ?_⟩
    unfold solve
    rw [hloop]
    rfl

/-- C15 on the 2 x 2 puzzle `sx / .o`: the loop ends within `256 ^ 3` iterations. -/
theorem solve_terminates_witness :
    ValidPuzzle corner_field corner_data ∧
    ∃ k, k ≤ 256 ^ ((corner_data.M * corner_data.N + 1) / 2 + 1) ∧
      ∃ s, solve_iter k corner_field (solve_init corner_field corner_data) = some s ∧
        (s.2.solved ≠ 0 ∨ s.2.queuecurr = s.2.queuesize) ∧
        ∀ fuel, k ≤ fuel →
          solve_loop fuel corner_field (solve_init corner_field corner_data) = some s ∧
          (solve fuel corner_field corner_data).isSome = true :=
  ⟨corner_valid, (solve_terminates corner_field corner_data corner_valid).2⟩

end Soksol
